import Mathlib

/-!
# Property values of the resource layer (`sdk/go/common/resource/properties.go`)

A shallow embedding of `PropertyValue` / `PropertyMap` and of the operations defined on them,
followed by the properties established for them.

Modelling conventions.

* `PropertyValue{V interface{}}` is a tagged union: the type switch of the source
  (`v.V.(bool)`, `v.V.(Computed)`, ...) is a constructor match here.  The set of payload types is
  the closed set listed by `PropertyValueType` (plus `nil` for Null).
* A Go `map[PropertyKey]PropertyValue` is a list of entries, in the order in which one `range`
  over the map visits them (Go leaves that order unspecified, so nothing may depend on it).  A Go
  map holds each key once: `PropertyMap.WF` says so, and lookup `m[k]` is `PropertyMap.get?`.
* A pointer (`*Secret`, `*asset.Asset`, `*archive.Archive`) is the pair of its address and its
  pointee; pointers stored in a `PropertyValue` are taken non-nil, as every constructor of the
  source builds them.
* `float64` is carried as its IEEE-754 bit pattern; no arithmetic is done on it here.
-/

namespace Resource

/-! ## Data model -/

/-- Go `string`-kinded names: `type PropertyKey tokens.Name`. -/
abbrev PropertyKey := String

/-- The type `URN` of the package, a Go string. -/
abbrev URN := String

/-- The type `ID` of the package, a Go string; the empty string means "not yet assigned". -/
abbrev ID := String

/-- Address of a heap cell; only its identity matters. -/
abbrev Addr := Nat

/-- A Go `float64`, carried as its 64-bit IEEE-754 pattern. -/
structure Float64 where
  bits : Nat
  deriving DecidableEq, Repr

/-- Modelled from the spec: the pointee of `*asset.Asset` (package `asset` is not part of the
sources at hand), "handle {hash, uri/path, inline bytes (one-of)}". -/
structure Asset where
  addr : Addr
  hash : String
  uri : String
  path : String
  text : String
  deriving DecidableEq, Repr

/-- Modelled from the spec: the pointee of `*archive.Archive` (package `archive` is not part of
the sources at hand), "handle {hash, uri/path, map-of-assets (one-of)}". -/
structure Archive where
  addr : Addr
  hash : String
  uri : String
  path : String
  assets : List (String × Asset)
  deriving DecidableEq, Repr

/-- The value of a property: `type PropertyValue struct { V interface{} }`, one constructor per
dynamic type that `V` may hold.

* `computed e` is `Computed{Element: e}`;
* `output e known secret deps` is `Output{Element: e, Known: known, Secret: secret,
  Dependencies: deps}`;
* `secret addr e` is the pointer `*Secret` at address `addr` to `Secret{Element: e}`;
* `resourceReference urn id ver` is `ResourceReference{URN: urn, ID: id, PackageVersion: ver}`;
* `object m` holds a `PropertyMap`, listed in iteration order. -/
inductive PropertyValue where
  | null
  | bool (b : Bool)
  | number (f : Float64)
  | string (s : String)
  | array (xs : List PropertyValue)
  | asset (a : Asset)
  | archive (a : Archive)
  | object (m : List (PropertyKey × PropertyValue))
  | computed (element : PropertyValue)
  | output (element : PropertyValue) (known : Bool) (secret : Bool) (dependencies : List URN)
  | secret (addr : Addr) (element : PropertyValue)
  | resourceReference (urn : URN) (id : PropertyValue) (packageVersion : String)
  deriving Repr

instance : Inhabited PropertyValue := ⟨PropertyValue.null⟩

/-- `type PropertyMap map[PropertyKey]PropertyValue`, as the list of its entries in the order in
which a `range` visits them. -/
abbrev PropertyMap := List (PropertyKey × PropertyValue)

/-- `type Computed struct { Element PropertyValue }`. -/
structure Computed where
  Element : PropertyValue

/-- `type Output struct { Element; Known; Secret; Dependencies }`. -/
structure Output where
  Element : PropertyValue
  Known : Bool := false
  Secret : Bool := false
  Dependencies : List URN := []

/-- `type Secret struct { Element PropertyValue }`. -/
structure Secret where
  Element : PropertyValue

/-- `type ResourceReference struct { URN; ID; PackageVersion }`. -/
structure ResourceReference where
  URN : Resource.URN
  ID : PropertyValue
  PackageVersion : String

/-! ## Maps -/

/-- The keys of a map, in iteration order (`for k := range props`). -/
def PropertyMap.keys (props : PropertyMap) : List PropertyKey :=
  props.map Prod.fst

/-- The values of a map, in iteration order (`for _, v := range props`). -/
def PropertyMap.values (props : PropertyMap) : List PropertyValue :=
  props.map Prod.snd

/-- Well-formedness of the representation: a Go map holds every key at most once. -/
def PropertyMap.WF (props : PropertyMap) : Prop :=
  props.keys.Nodup

/-- Map indexing `v, has := props[k]`: `some v` when `has`, `none` otherwise. -/
def PropertyMap.get? : PropertyMap → PropertyKey → Option PropertyValue
  | [], _ => none
  | (k', v) :: rest, k => if k' = k then some v else PropertyMap.get? rest k

/-! ## Constructors -/

/-- `func NewNullProperty() PropertyValue { return PropertyValue{nil} }`. -/
def NewNullProperty : PropertyValue := .null

/-- `func NewBoolProperty(v bool) PropertyValue`. -/
def NewBoolProperty (v : Bool) : PropertyValue := .bool v

/-- `func NewNumberProperty(v float64) PropertyValue`. -/
def NewNumberProperty (v : Float64) : PropertyValue := .number v

/-- `func NewStringProperty(v string) PropertyValue`. -/
def NewStringProperty (v : String) : PropertyValue := .string v

/-- `func NewArrayProperty(v []PropertyValue) PropertyValue`. -/
def NewArrayProperty (v : List PropertyValue) : PropertyValue := .array v

/-- `func NewObjectProperty(v PropertyMap) PropertyValue`. -/
def NewObjectProperty (v : PropertyMap) : PropertyValue := .object v

/-- `func NewComputedProperty(v Computed) PropertyValue`. -/
def NewComputedProperty (v : Computed) : PropertyValue := .computed v.Element

/-- `func NewOutputProperty(v Output) PropertyValue`. -/
def NewOutputProperty (v : Output) : PropertyValue :=
  .output v.Element v.Known v.Secret v.Dependencies

/-- `func NewSecretProperty(v *Secret) PropertyValue`; `addr` is the pointer, `v` its pointee. -/
def NewSecretProperty (addr : Addr) (v : Secret) : PropertyValue := .secret addr v.Element

/-- `func NewResourceReferenceProperty(v ResourceReference) PropertyValue`. -/
def NewResourceReferenceProperty (v : ResourceReference) : PropertyValue :=
  .resourceReference v.URN v.ID v.PackageVersion

/-- `func MakeComputed(v PropertyValue) PropertyValue`:
`NewProperty(Computed{Element: v})`. -/
def MakeComputed (v : PropertyValue) : PropertyValue :=
  NewComputedProperty { Element := v }

/-- `func MakeOutput(v PropertyValue) PropertyValue`: `NewProperty(Output{Element: v})`; the
fields not named take their zero values. -/
def MakeOutput (v : PropertyValue) : PropertyValue :=
  NewOutputProperty { Element := v }

/-- `func MakeSecret(v PropertyValue) PropertyValue`: `NewProperty(&Secret{Element: v})`; `addr`
is the address of the freshly allocated `Secret`. -/
def MakeSecret (addr : Addr) (v : PropertyValue) : PropertyValue :=
  NewSecretProperty addr { Element := v }

/-- `func MakeComponentResourceReference(urn URN, packageVersion string) PropertyValue`: the `ID`
field is not named in the composite literal, so it is the zero `PropertyValue{}`, whose `V` is
`nil`. -/
def MakeComponentResourceReference (urn : URN) (packageVersion : String) : PropertyValue :=
  NewResourceReferenceProperty
    { URN := urn, ID := PropertyValue.null, PackageVersion := packageVersion }

/-- `func MakeCustomResourceReference(urn URN, id ID, packageVersion string) PropertyValue`. -/
def MakeCustomResourceReference (urn : URN) (id : ID) (packageVersion : String) :
    PropertyValue :=
  let idProp := if id = "" then MakeComputed (NewStringProperty "") else NewStringProperty id
  NewResourceReferenceProperty { ID := idProp, URN := urn, PackageVersion := packageVersion }

/-- An unresolved Output: `Output{Element: e, Known: false, Secret: false, Dependencies: d}`. -/
def unresolvedOutput (e : PropertyValue) (d : List URN) : PropertyValue :=
  NewOutputProperty { Element := e, Known := false, Secret := false, Dependencies := d }

/-- A resolved secret Output:
`Output{Element: e, Known: true, Secret: true, Dependencies: d}`. -/
def resolvedSecretOutput (e : PropertyValue) (d : List URN) : PropertyValue :=
  NewOutputProperty { Element := e, Known := true, Secret := true, Dependencies := d }

/-! ## Type tests and accessors -/

namespace PropertyValue

/-- `func (v PropertyValue) IsNull() bool { return v.V == nil }`. -/
def IsNull : PropertyValue → Bool
  | .null => true
  | _ => false

/-- `IsBool`: `_, is := v.V.(bool)`. -/
def IsBool : PropertyValue → Bool
  | .bool _ => true
  | _ => false

/-- `IsNumber`: `_, is := v.V.(float64)`. -/
def IsNumber : PropertyValue → Bool
  | .number _ => true
  | _ => false

/-- `IsString`: `_, is := v.V.(string)`. -/
def IsString : PropertyValue → Bool
  | .string _ => true
  | _ => false

/-- `IsArray`: `_, is := v.V.([]PropertyValue)`. -/
def IsArray : PropertyValue → Bool
  | .array _ => true
  | _ => false

/-- `IsAsset`: `_, is := v.V.(*asset.Asset)`. -/
def IsAsset : PropertyValue → Bool
  | .asset _ => true
  | _ => false

/-- `IsArchive`: `_, is := v.V.(*archive.Archive)`. -/
def IsArchive : PropertyValue → Bool
  | .archive _ => true
  | _ => false

/-- `IsObject`: `_, is := v.V.(PropertyMap)`. -/
def IsObject : PropertyValue → Bool
  | .object _ => true
  | _ => false

/-- `IsComputed`: `_, is := v.V.(Computed)`. -/
def IsComputed : PropertyValue → Bool
  | .computed _ => true
  | _ => false

/-- `IsOutput`: `_, is := v.V.(Output)`. -/
def IsOutput : PropertyValue → Bool
  | .output _ _ _ _ => true
  | _ => false

/-- `IsSecret`: `_, is := v.V.(*Secret)`. -/
def IsSecret : PropertyValue → Bool
  | .secret _ _ => true
  | _ => false

/-- `IsResourceReference`: `_, is := v.V.(ResourceReference)`. -/
def IsResourceReference : PropertyValue → Bool
  | .resourceReference _ _ _ => true
  | _ => false

/-- `StringValue`: `v.V.(string)`, which panics on another variant (`none`). -/
def StringValue : PropertyValue → Option String
  | .string s => some s
  | _ => none

/-- `Input`: `v.V.(Computed)`, which panics on another variant (`none`). -/
def Input : PropertyValue → Option Computed
  | .computed e => some { Element := e }
  | _ => none

/-- `OutputValue`: `v.V.(Output)`, which panics on another variant (`none`). -/
def OutputValue : PropertyValue → Option Output
  | .output e known sec deps =>
      some { Element := e, Known := known, Secret := sec, Dependencies := deps }
  | _ => none

/-- `SecretValue`: `v.V.(*Secret)` (the pointee), which panics on another variant (`none`). -/
def SecretValue : PropertyValue → Option Secret
  | .secret _ e => some { Element := e }
  | _ => none

/-- `ResourceReferenceValue`: `v.V.(ResourceReference)`, panicking on another variant. -/
def ResourceReferenceValue : PropertyValue → Option ResourceReference
  | .resourceReference urn id ver => some { URN := urn, ID := id, PackageVersion := ver }
  | _ => none

end PropertyValue

/-! ## `ResourceReference` -/

/-- `func (ref ResourceReference) IDString() (value string, hasID bool)`: the `switch` on
`ref.ID.IsComputed()`, then `ref.ID.IsString()` (returning `ref.ID.StringValue()`), then
`default`. -/
def ResourceReference.IDString (ref : ResourceReference) : String × Bool :=
  match ref.ID with
  | .computed _ => ("", true)
  | .string s => (s, true)
  | _ => ("", false)

/-! ## Predicates -/

/-- `func (v PropertyValue) HasValue() bool`: `v.OutputValue().Known` for an Output,
`!v.IsNull()` otherwise. -/
def PropertyValue.HasValue (v : PropertyValue) : Bool :=
  match v with
  | .output _ known _ _ => known
  | _ => !v.IsNull

/-- `func (props PropertyMap) HasValue(k PropertyKey) bool`:
`v, has := props[k]; return has && v.HasValue()`. -/
def PropertyMap.HasValue (props : PropertyMap) (k : PropertyKey) : Bool :=
  match PropertyMap.get? props k with
  | some v => v.HasValue
  | none => false

mutual
/-- `func (v PropertyValue) ContainsUnknowns() bool`.  The first test is
`v.IsComputed() || (v.IsOutput() && !v.OutputValue().Known)`; an Output that fails it (a known
one) matches none of the later `IsArray` / `IsObject` / `IsSecret` branches and reaches the final
`return false`. -/
def PropertyValue.ContainsUnknowns : PropertyValue → Bool
  | .computed _ => true
  | .output _ known _ _ => if !known then true else false
  | .array xs => PropertyValue.arrayContainsUnknowns xs
  | .object m => PropertyMap.ContainsUnknowns m
  | .secret _ e => PropertyValue.ContainsUnknowns e
  | _ => false
/-- The loop of the `IsArray` branch: `for _, e := range v.ArrayValue()`, returning `true` at
the first element that contains unknowns; falling out of the loop reaches `return false`. -/
def PropertyValue.arrayContainsUnknowns : List PropertyValue → Bool
  | [] => false
  | e :: es =>
      if PropertyValue.ContainsUnknowns e then true else PropertyValue.arrayContainsUnknowns es
/-- `func (props PropertyMap) ContainsUnknowns() bool`: `for _, v := range props`, returning
`true` at the first value that contains unknowns, `false` after the loop. -/
def PropertyMap.ContainsUnknowns : List (PropertyKey × PropertyValue) → Bool
  | [] => false
  | (_, v) :: rest =>
      if PropertyValue.ContainsUnknowns v then true else PropertyMap.ContainsUnknowns rest
end

mutual
/-- `func (v PropertyValue) ContainsSecrets() bool`: the chain `IsSecret`, `IsComputed`,
`IsOutput`, `IsArray`, `IsObject`, and `return false` for everything else. -/
def PropertyValue.ContainsSecrets : PropertyValue → Bool
  | .secret _ _ => true
  | .computed e => PropertyValue.ContainsSecrets e
  | .output e _ sec _ => sec || PropertyValue.ContainsSecrets e
  | .array xs => PropertyValue.arrayContainsSecrets xs
  | .object m => PropertyMap.ContainsSecrets m
  | _ => false
/-- The loop of the `IsArray` branch: `for _, e := range v.ArrayValue()`, returning `true` at
the first element that contains secrets; falling out of the loop reaches `return false`. -/
def PropertyValue.arrayContainsSecrets : List PropertyValue → Bool
  | [] => false
  | e :: es =>
      if PropertyValue.ContainsSecrets e then true else PropertyValue.arrayContainsSecrets es
/-- `func (props PropertyMap) ContainsSecrets() bool`: `for _, v := range props`, returning
`true` at the first value that contains secrets, `false` after the loop. -/
def PropertyMap.ContainsSecrets : List (PropertyKey × PropertyValue) → Bool
  | [] => false
  | (_, v) :: rest =>
      if PropertyValue.ContainsSecrets v then true else PropertyMap.ContainsSecrets rest
end

/-! ## `TypeString` -/

/-- Number of `Computed` / `Secret` / `Output` wrappers on top of a value, an Output counting
twice: the measure along which `TypeString` recurses. -/
def PropertyValue.wrappers : PropertyValue → Nat
  | .computed e => e.wrappers + 1
  | .secret _ e => e.wrappers + 1
  | .output e _ _ _ => e.wrappers + 2
  | _ => 0

/-- Address given to the temporary `Secret` that `TypeString` allocates for a resolved secret
Output; the temporary is only rendered, never returned. -/
def scratchAddr : Addr := 0

/-- `func (v PropertyValue) TypeString() string`.

`fmtRef urn id ver` stands for
`fmt.Sprintf("resourceReference(%q, %q, %q)", ref.URN, ref.ID, ref.PackageVersion)` of Go's
`fmt` package, which is taken as a parameter.  The final `contract.Failf` of the source is not
reached: every variant is caught by one of the branches. -/
def PropertyValue.TypeString (fmtRef : URN → PropertyValue → String → String) :
    PropertyValue → String
  | .null => "null"
  | .bool _ => "bool"
  | .number _ => "number"
  | .string _ => "string"
  | .array _ => "[]"
  | .asset _ => "asset"
  | .archive _ => "archive"
  | .object _ => "object"
  | .computed e => "output<" ++ PropertyValue.TypeString fmtRef e ++ ">"
  | .output e known sec _ =>
      if !known then PropertyValue.TypeString fmtRef (MakeComputed e)
      else if sec then PropertyValue.TypeString fmtRef (MakeSecret scratchAddr e)
      else PropertyValue.TypeString fmtRef e
  | .secret _ e => "secret<" ++ PropertyValue.TypeString fmtRef e ++ ">"
  | .resourceReference urn id ver => fmtRef urn id ver
termination_by v => v.wrappers
decreasing_by
  all_goals simp [PropertyValue.wrappers, MakeComputed, MakeSecret, NewComputedProperty,
    NewSecretProperty]

/-! ## Stable key order -/

/-- Insertion of `x` into a list ordered by `less`: before the first element that `x` is less
than. -/
def orderedInsert {α : Type} (less : α → α → Bool) (x : α) : List α → List α
  | [] => [x]
  | y :: ys => if less x y then x :: y :: ys else y :: orderedInsert less x ys

/-- Go's `sort.Slice(x, less)` (standard library, not part of the repository): it reorders `x`
so that it is ordered by `less`.  Modelled as insertion sort, which is also what Go runs on
short slices. -/
def sortSlice {α : Type} (less : α → α → Bool) : List α → List α
  | [] => []
  | x :: xs => orderedInsert less x (sortSlice less xs)

/-- `func (props PropertyMap) StableKeys() []PropertyKey`: the keys are appended in iteration
order and then sorted with `sort.Slice(sorted, func(i, j int) bool { return sorted[i] <
sorted[j] })`.  Go compares strings bytewise, which on UTF-8 text is the order of `String`. -/
def PropertyMap.StableKeys (props : PropertyMap) : List PropertyKey :=
  sortSlice (fun a b => decide (a < b)) props.keys

/-! ## Equality of resource references -/

mutual
/-- Modelled from the spec: `PropertyValue.DeepEquals`, which is declared in another file of
the package that is not among the sources at hand.  "Equality. Structural, with two non-obvious
rules: two ResourceReferences are equal if urns match and either both ids are Computed, or
their ids are deeply equal.  Secrets compare by element (address is an implementation detail,
not an equality concern)."  Objects are compared as maps (same size, and every key of the first
bound in the second to a deeply equal value); assets and archives by the content of the
handle. -/
def PropertyValue.DeepEquals : PropertyValue → PropertyValue → Bool
  | .null, .null => true
  | .bool a, .bool b => a == b
  | .number a, .number b => a == b
  | .string a, .string b => a == b
  | .array xs, .array ys => PropertyValue.arrayDeepEquals xs ys
  | .asset a, .asset b => a.hash == b.hash && a.uri == b.uri && a.path == b.path && a.text == b.text
  | .archive a, .archive b =>
      a.hash == b.hash && a.uri == b.uri && a.path == b.path &&
        a.assets.map (fun p => (p.1, p.2.hash, p.2.uri, p.2.path, p.2.text)) ==
          b.assets.map (fun p => (p.1, p.2.hash, p.2.uri, p.2.path, p.2.text))
  | .object m, .object m' => m.length == m'.length && PropertyMap.entriesDeepEqual m m'
  | .computed e, .computed e' => PropertyValue.DeepEquals e e'
  | .output e known sec deps, .output e' known' sec' deps' =>
      PropertyValue.DeepEquals e e' && known == known' && sec == sec' && deps == deps'
  | .secret _ e, .secret _ e' => PropertyValue.DeepEquals e e'
  | .resourceReference urn id _, .resourceReference urn' id' _ =>
      urn == urn' && ((id.IsComputed && id'.IsComputed) || PropertyValue.DeepEquals id id')
  | _, _ => false
/-- Modelled from the spec: element-wise deep equality of two arrays of the same length. -/
def PropertyValue.arrayDeepEquals : List PropertyValue → List PropertyValue → Bool
  | [], [] => true
  | x :: xs, y :: ys => PropertyValue.DeepEquals x y && PropertyValue.arrayDeepEquals xs ys
  | _, _ => false
/-- Modelled from the spec: every entry of the first map is bound, in the second map, to a
deeply equal value. -/
def PropertyMap.entriesDeepEqual :
    List (PropertyKey × PropertyValue) → List (PropertyKey × PropertyValue) → Bool
  | [], _ => true
  | (k, v) :: rest, m' =>
      (match PropertyMap.get? m' k with
        | some v' => PropertyValue.DeepEquals v v'
        | none => false) && PropertyMap.entriesDeepEqual rest m'
end

/-- `func (ref ResourceReference) Equal(other ResourceReference) bool`.  `deepEquals` stands for
the method `PropertyValue.DeepEquals` called in the last line, which is declared outside the
sources at hand and is taken as a parameter. -/
def ResourceReference.Equal (deepEquals : PropertyValue → PropertyValue → Bool)
    (ref other : ResourceReference) : Bool :=
  if ref.URN ≠ other.URN then false
  else if ref.ID.IsComputed && other.ID.IsComputed then true
  else deepEquals ref.ID other.ID

/-! ## Signatures -/

/-- Modelled from the spec: `const SigKey = sig.Key`; package `sig` is not among the sources at
hand, the specification gives the signature key as `4dabf18193072939515e22adb298388d`. -/
def SigKey : PropertyKey := "4dabf18193072939515e22adb298388d"

/-- `func HasSig(obj PropertyMap, match string) bool`:
`if sig, hassig := obj[SigKey]; hassig { return sig.IsString() && sig.StringValue() == match }`,
else `return false`.  The result is `none` when the function faults, which it could only do in
`StringValue` (a failed type assertion); `&&` evaluates its right operand only when the left one
is true. -/
def HasSig (obj : PropertyMap) (matchSig : String) : Option Bool :=
  match PropertyMap.get? obj SigKey with
  | some sig =>
      if sig.IsString then
        match sig.StringValue with
        | some s => some (s == matchSig)
        | none => none
      else some false
  | none => some false

/-! ## Secrets managers (`pkg/secrets/manager.go`) -/

/-- A Go byte slice (`json.RawMessage` is `[]byte`): `none` is the nil slice. -/
abbrev Bytes := Option (List (Fin 256))

/-- `bytes.Equal(a, b)` of Go's standard library: same length and same bytes, "a nil argument
is equivalent to an empty slice". -/
def bytesEqual (a b : Bytes) : Bool :=
  a.getD [] == b.getD []

/-- A non-nil `secrets.Manager`, as far as `AreCompatible` observes it: what its methods
`Type()` (field `Type_`) and `State()` return.  (`Encrypter()` and `Decrypter()` are not
called.) -/
structure Manager where
  Type_ : String
  State : Bytes
  deriving DecidableEq, Repr

/-- `func AreCompatible(a, b Manager) bool`; a nil interface value is `none`. -/
def AreCompatible (a b : Option Manager) : Bool :=
  match a, b with
  | some a, some b =>
      if a.Type_ ≠ b.Type_ then false
      else bytesEqual a.State b.State
  | a, b => a.isNone && b.isNone

/-! ## Host values -/

/-- A Go `float32`, carried as its 32-bit IEEE-754 pattern. -/
structure Float32 where
  bits : Nat
  deriving DecidableEq, Repr

/-- Position of the highest set bit of `m` (0 for `m ≤ 1`), with `fuel ≥ m` steps. -/
def highBit : Nat → Nat → Nat
  | 0, _ => 0
  | fuel + 1, m => if m ≤ 1 then 0 else highBit fuel (m / 2) + 1

/-- Go's conversion `float64(n)` of an integer `n`: the nearest `float64`, ties to even. -/
def Float64.ofInt (n : Int) : Float64 :=
  let sign := if n < 0 then 2 ^ 63 else 0
  let m := n.natAbs
  if m = 0 then ⟨0⟩
  else
    let e := highBit m m
    if e ≤ 52 then ⟨sign + (e + 1023) * 2 ^ 52 + (m * 2 ^ (52 - e) - 2 ^ 52)⟩
    else
      let q := m / 2 ^ (e - 52)
      let r := m % 2 ^ (e - 52)
      let half := 2 ^ (e - 53)
      let q' := if half < r ∨ (r = half ∧ q % 2 = 1) then q + 1 else q
      ⟨sign + (e + 1023) * 2 ^ 52 + (q' - 2 ^ 52)⟩

/-- Go's conversion `float64(f)` of a `float32`, which is exact: same sign, rebased exponent,
fraction moved to the top of the 52 fraction bits (a NaN comes out quiet). -/
def Float64.ofFloat32 (f : Float32) : Float64 :=
  let sign := (f.bits / 2 ^ 31 % 2) * 2 ^ 63
  let e := f.bits / 2 ^ 23 % 256
  let frac := f.bits % 2 ^ 23
  if e = 255 then
    if frac = 0 then ⟨sign + 2047 * 2 ^ 52⟩
    else ⟨sign + 2047 * 2 ^ 52 + 2 ^ 51 + (frac * 2 ^ 29) % 2 ^ 51⟩
  else if e = 0 then
    if frac = 0 then ⟨sign⟩
    else
      let k := highBit frac frac
      ⟨sign + (k + 874) * 2 ^ 52 + (frac * 2 ^ (52 - k) - 2 ^ 52)⟩
  else ⟨sign + (e + 896) * 2 ^ 52 + frac * 2 ^ 29⟩

/-- The integer types of Go. -/
inductive IntType where
  | int | int8 | int16 | int32 | int64
  | uint | uint8 | uint16 | uint32 | uint64
  deriving DecidableEq, Repr

/-- A host value, that is the dynamic value of a Go `interface{}`, as far as
`NewPropertyValueRepl` distinguishes values (by the type switch, then by `reflect` kind) and as
`MapRepl` produces them.

* `asset a`, `archive a` and `secret addr s` are the pointers `*asset.Asset`, `*archive.Archive`
  and `*Secret`, which the type switch lists: each is a non-nil pointer, given with what it
  points to (a nil pointer of one of these three types would be stored as the payload of an
  Asset, Archive or Secret value that holds nothing, which is not a value of `PropertyValue`;
  such pointers are not host values here);
* `sequence xs` is a value of kind Array or Slice with elements `xs`;
* `nilPointer` / `pointer p` is a pointer, nil or to `p`, of any other pointer type, which
  reaches the `reflect.Ptr` branch;
* `stringMap m` is a map whose key type is of kind String, with entries `m` in iteration
  order (each key once);
* `otherMap size` is a map with `size` entries whose key type is not of kind String;
* `namedString s` is a value of kind String whose type is not `string` itself;
* `struct fields` and `unmappableStruct` are values of kind Struct other than `Computed`,
  `Output`, `ResourceReference` and `PropertyValue`, see `NewPropertyMapRepl`;
* `other` is a value of any remaining kind (channel, function, complex number, named
  boolean, ...). -/
inductive Host where
  | nil
  | bool (b : Bool)
  | integer (t : IntType) (n : Int)
  | float32 (f : Float32)
  | float64 (f : Float64)
  | string (s : String)
  | asset (a : Asset)
  | archive (a : Archive)
  | computed (c : Computed)
  | output (o : Output)
  | secret (addr : Addr) (s : Secret)
  | resourceReference (r : ResourceReference)
  | propertyValue (v : PropertyValue)
  | sequence (xs : List Host)
  | nilPointer
  | pointer (pointee : Host)
  | stringMap (m : List (String × Host))
  | otherMap (size : Nat)
  | namedString (s : String)
  | struct (fields : List (String × Host))
  | unmappableStruct
  | other

instance : Inhabited Host := ⟨Host.nil⟩

/-- A host map `map[string]interface{}`, as the list of its entries in iteration order. -/
abbrev HostMap := List (String × Host)

/-- Map indexing `m[k]` on a map held as a list of entries. -/
def mapGet {β : Type} : List (String × β) → String → Option β
  | [], _ => none
  | (k', v) :: rest, k => if k' = k then some v else mapGet rest k

/-- Map assignment `m[k] = v` on a map held as a list of entries: the binding of `k` is
replaced where it stands, a new key is added at the end. -/
def mapSet {β : Type} : List (String × β) → String → β → List (String × β)
  | [], k, v => [(k, v)]
  | (k', v') :: rest, k, v => if k' = k then (k, v) :: rest else (k', v') :: mapSet rest k v

/-! ## From host values to property values -/

/-- The value hook of `NewPropertyValueRepl`, `replv func(interface{}) (PropertyValue, bool)`,
or `none` for a nil hook. -/
abbrev ReplValue := Option (Host → PropertyValue × Bool)

/-- The key hook of `NewPropertyValueRepl`, `replk func(string) (PropertyKey, bool)`, or `none`
for a nil hook. -/
abbrev ReplKey := Option (String → PropertyKey × Bool)

/-- The opening of `NewPropertyValueRepl`:
`if replv != nil { if rv, repl := replv(v); repl { return rv } }`; `some rv` when it returns. -/
def replaceValue (replv : ReplValue) (v : Host) : Option PropertyValue :=
  match replv with
  | some f => if (f v).2 then some (f v).1 else none
  | none => none

/-- Key replacement: `pk := PropertyKey(k); if replk != nil { if rk, repl := replk(k); repl
{ pk = rk } }`. -/
def replaceKey (replk : ReplKey) (k : String) : PropertyKey :=
  match replk with
  | some f => if (f k).2 then (f k).1 else k
  | none => k

mutual
/-- `func NewPropertyValueRepl(v interface{}, replk, replv) PropertyValue`; `none` is the fatal
failure raised by `contract.Failf` / `contract.Assertf`.

After the value hook and the `nil` test comes the type switch: `bool`, `int`, `uint`, `int32`,
`uint32`, `int64`, `uint64`, `float32`, `float64`, `string`, `*asset.Asset`,
`*archive.Archive`, `Computed`, `Output`, `*Secret`, `ResourceReference`, `PropertyValue`.
Everything else is dispatched on its `reflect` kind: Array/Slice, Ptr, Map, String, Struct, and
`default`, which fails.  The integer types absent from the type switch have none of these
kinds, so they reach `default`. -/
def NewPropertyValueRepl (replk : ReplKey) (replv : ReplValue) (v : Host) :
    Option PropertyValue :=
  match replaceValue replv v with
  | some rv => some rv
  | none =>
    match v with
    | .nil => some NewNullProperty
    | .bool t => some (NewBoolProperty t)
    | .integer .int n => some (NewNumberProperty (Float64.ofInt n))
    | .integer .uint n => some (NewNumberProperty (Float64.ofInt n))
    | .integer .int32 n => some (NewNumberProperty (Float64.ofInt n))
    | .integer .uint32 n => some (NewNumberProperty (Float64.ofInt n))
    | .integer .int64 n => some (NewNumberProperty (Float64.ofInt n))
    | .integer .uint64 n => some (NewNumberProperty (Float64.ofInt n))
    | .float32 t => some (NewNumberProperty (Float64.ofFloat32 t))
    | .float64 t => some (NewNumberProperty t)
    | .string t => some (NewStringProperty t)
    | .asset t => some (PropertyValue.asset t)
    | .archive t => some (PropertyValue.archive t)
    | .computed t => some (NewComputedProperty t)
    | .output t => some (NewOutputProperty t)
    | .secret addr t => some (NewSecretProperty addr t)
    | .resourceReference t => some (NewResourceReferenceProperty t)
    | .propertyValue t => some t
    | .sequence xs => (NewPropertyValueRepl.elements replk replv xs).map NewArrayProperty
    | .nilPointer => some NewNullProperty
    | .pointer p => NewPropertyValueRepl replk replv p
    | .stringMap m => (NewPropertyValueRepl.entries replk replv m []).map NewObjectProperty
    | .otherMap size => if size = 0 then some (NewObjectProperty []) else none
    | .namedString s => some (NewStringProperty s)
    | .struct fields =>
        (NewPropertyValueRepl.entries replk replv fields []).map NewObjectProperty
    | .unmappableStruct => none
    | .integer .int8 _ => none
    | .integer .int16 _ => none
    | .integer .uint8 _ => none
    | .integer .uint16 _ => none
    | .other => none
/-- The loop of the Array/Slice case: `arr := []PropertyValue{}`, then for each index in order
`arr = append(arr, NewPropertyValueRepl(elem.Interface(), replk, replv))`. -/
def NewPropertyValueRepl.elements (replk : ReplKey) (replv : ReplValue) :
    List Host → Option (List PropertyValue)
  | [] => some []
  | e :: es =>
    match NewPropertyValueRepl replk replv e with
    | none => none
    | some pv =>
      match NewPropertyValueRepl.elements replk replv es with
      | none => none
      | some rest => some (pv :: rest)
/-- The loop over a map with keys of kind String, started on the object `obj` built so far:
for each entry in iteration order, `pk` is the key after `replk`, then
`obj[pk] = NewPropertyValueRepl(val, replk, replv)`.  It is the loop of the Map case, and, with
the same body, the loop of `NewPropertyMapFromMapRepl`. -/
def NewPropertyValueRepl.entries (replk : ReplKey) (replv : ReplValue) :
    List (String × Host) → PropertyMap → Option PropertyMap
  | [], obj => some obj
  | (k, val) :: rest, obj =>
    match NewPropertyValueRepl replk replv val with
    | none => none
    | some pv => NewPropertyValueRepl.entries replk replv rest (mapSet obj (replaceKey replk k) pv)
end

/-- `func NewPropertyValue(v interface{}) PropertyValue`. -/
def NewPropertyValue (v : Host) : Option PropertyValue :=
  NewPropertyValueRepl none none v

/-- `func NewPropertyMapFromMapRepl(m map[string]interface{}, replk, replv) PropertyMap`:
`result := make(PropertyMap)`, then the loop over the entries of `m`. -/
def NewPropertyMapFromMapRepl (m : HostMap) (replk : ReplKey) (replv : ReplValue) :
    Option PropertyMap :=
  NewPropertyValueRepl.entries replk replv m []

/-- `func NewPropertyMapFromMap(m map[string]interface{}) PropertyMap`. -/
def NewPropertyMapFromMap (m : HostMap) : Option PropertyMap :=
  NewPropertyMapFromMapRepl m none none

/-- Modelled from the spec: `mapper.Unmap` of package `mapper`, which is not among the sources
at hand; "structured record with field name annotations → Object keyed by annotated names".
A struct is represented by what `Unmap` makes of it: `struct fields` is mapped to the
string-keyed map `fields`, on `unmappableStruct` it reports an error; other values are not
structs. -/
def mapperUnmap : Host → Option HostMap
  | .struct fields => some fields
  | _ => none

/-- `func NewPropertyMapRepl(s interface{}, replk, replv) PropertyMap`:
`m, err := mapper.Unmap(s)`, `contract.Assertf(err == nil, ...)`, then
`NewPropertyMapFromMapRepl(m, replk, replv)`. -/
def NewPropertyMapRepl (s : Host) (replk : ReplKey) (replv : ReplValue) : Option PropertyMap :=
  match mapperUnmap s with
  | some m => NewPropertyMapFromMapRepl m replk replv
  | none => none

/-! ## From property values to host values -/

/-- The value hook of `MapRepl`, `replv func(PropertyValue) (interface{}, bool)`, or `none` for
a nil hook. -/
abbrev MapReplValue := Option (PropertyValue → Host × Bool)

/-- The key hook of `MapRepl`, `replk func(string) (string, bool)`, or `none` for a nil hook. -/
abbrev MapReplKey := Option (String → String × Bool)

/-- The opening of `PropertyValue.MapRepl`:
`if replv != nil { if rv, repv := replv(v); repv { return rv } }`; `some rv` when it returns. -/
def mapReplaceValue (replv : MapReplValue) (v : PropertyValue) : Option Host :=
  match replv with
  | some f => if (f v).2 then some (f v).1 else none
  | none => none

/-- Key replacement in `PropertyMap.MapRepl`:
`key := string(k); if replk != nil { if rk, repk := replk(key); repk { key = rk } }`. -/
def mapReplaceKey (replk : MapReplKey) (k : PropertyKey) : String :=
  match replk with
  | some f => if (f k).2 then (f k).1 else k
  | none => k

/-- The loop of `PropertyMap.MapRepl` over `props.StableKeys()`, started on the map `obj` built
so far: `obj[key] = props[k].MapRepl(replk, replv)`, where `converted` binds every key `k` of
`props` to `props[k].MapRepl(replk, replv)`.  Every `k` met is a key of `props`; the value for
a key without binding is never used. -/
def PropertyMap.MapRepl.loop (replk : MapReplKey) (converted : HostMap) :
    List PropertyKey → HostMap → HostMap
  | [], obj => obj
  | k :: ks, obj =>
      PropertyMap.MapRepl.loop replk converted ks
        (mapSet obj (mapReplaceKey replk k) ((mapGet converted k).getD Host.nil))

mutual
/-- `func (v PropertyValue) MapRepl(replk, replv) interface{}`: after the value hook, the chain
`IsNull`, `IsBool`, `IsNumber`, `IsString`, `IsArray`, `IsAsset`, `IsArchive`, `IsComputed`,
`IsOutput`, `IsSecret`, `IsResourceReference`; what remains is an Object (the
`contract.Assertf(v.IsObject(), ...)` holds), converted by `PropertyMap.MapRepl`. -/
def PropertyValue.MapRepl (replk : MapReplKey) (replv : MapReplValue) (v : PropertyValue) :
    Host :=
  match mapReplaceValue replv v with
  | some rv => rv
  | none =>
    match v with
    | .null => Host.nil
    | .bool b => Host.bool b
    | .number f => Host.float64 f
    | .string s => Host.string s
    | .array xs => Host.sequence (PropertyValue.MapRepl.elements replk replv xs)
    | .asset a => Host.asset a
    | .archive a => Host.archive a
    | .computed e => Host.computed { Element := e }
    | .output e known sec deps =>
        Host.output { Element := e, Known := known, Secret := sec, Dependencies := deps }
    | .secret addr e => Host.secret addr { Element := e }
    | .resourceReference urn id ver =>
        Host.resourceReference { URN := urn, ID := id, PackageVersion := ver }
    | .object m =>
        Host.stringMap
          (PropertyMap.MapRepl.loop replk (PropertyMap.MapRepl.values replk replv m)
            (PropertyMap.StableKeys m) [])
/-- The loop of the `IsArray` branch: `arr := []interface{}{}`, then for each element in order
`arr = append(arr, e.MapRepl(replk, replv))`. -/
def PropertyValue.MapRepl.elements (replk : MapReplKey) (replv : MapReplValue) :
    List PropertyValue → List Host
  | [] => []
  | e :: es =>
      PropertyValue.MapRepl replk replv e :: PropertyValue.MapRepl.elements replk replv es
/-- The conversions `props[k].MapRepl(replk, replv)` that `PropertyMap.MapRepl` computes, one
for each entry `k` of `props`. -/
def PropertyMap.MapRepl.values (replk : MapReplKey) (replv : MapReplValue) :
    List (PropertyKey × PropertyValue) → HostMap
  | [] => []
  | (k, v) :: rest =>
      (k, PropertyValue.MapRepl replk replv v) :: PropertyMap.MapRepl.values replk replv rest
end

/-- `func (props PropertyMap) MapRepl(replk, replv) map[string]interface{}`:
`obj := make(map[string]interface{})`, then for each `k` of `props.StableKeys()`, in that
order, `obj[key] = props[k].MapRepl(replk, replv)` with `key` the key after `replk`. -/
def PropertyMap.MapRepl (props : PropertyMap) (replk : MapReplKey) (replv : MapReplValue) :
    HostMap :=
  PropertyMap.MapRepl.loop replk (PropertyMap.MapRepl.values replk replv props)
    (PropertyMap.StableKeys props) []

/-- `func (v PropertyValue) Mappable() interface{}`. -/
def PropertyValue.Mappable (v : PropertyValue) : Host :=
  PropertyValue.MapRepl none none v

/-- `func (props PropertyMap) Mappable() map[string]interface{}`. -/
def PropertyMap.Mappable (props : PropertyMap) : HostMap :=
  PropertyMap.MapRepl props none none

/-! ## Errors -/

/-- `type ReqError struct { K PropertyKey }`. -/
structure ReqError where
  K : PropertyKey
  deriving DecidableEq, Repr

/-- A non-nil Go `error` value, by its dynamic type:

* `reqError addr e` is the pointer `*ReqError` at address `addr` to `e`;
* `wrapError text cause` is what `fmt.Errorf(text + "%w", cause)` builds;
* `errorString message` is any other error (`errors.New`, `fmt.Errorf` without `%w`, the
  errors of other packages), with the message it reports.

The nil `error` is `none` of `Option GoError`. -/
inductive GoError where
  | reqError (addr : Addr) (e : ReqError)
  | errorString (message : String)
  | wrapError (text : String) (cause : GoError)
  deriving DecidableEq, Repr

/-- `func IsReqError(err error) bool`: `_, isreq := err.(*ReqError); return isreq`. -/
def IsReqError (err : Option GoError) : Bool :=
  match err with
  | some (.reqError _ _) => true
  | _ => false

/-- `func (err *ReqError) Error() string`:
`fmt.Sprintf("required property '%v' is missing", err.K)`; `%v` prints a value of kind String as
it is. -/
def ReqError.Error (err : ReqError) : String :=
  "required property '" ++ err.K ++ "' is missing"

/-- The method `Error()` of an error value. -/
def GoError.Error : GoError → String
  | .reqError _ e => e.Error
  | .errorString message => message
  | .wrapError text cause => text ++ cause.Error

/-! ## Copying a map -/

/-- The loop of `Copy`, started on the map `new` built so far: `for k, v := range props
{ new[k] = v }`. -/
def PropertyMap.Copy.loop : PropertyMap → PropertyMap → PropertyMap
  | [], new => new
  | (k, v) :: rest, new => PropertyMap.Copy.loop rest (mapSet new k v)

/-- `func (props PropertyMap) Copy() PropertyMap`, as the content of the map it returns:
`new := make(PropertyMap)`, the loop, `return new`. -/
def PropertyMap.Copy (props : PropertyMap) : PropertyMap :=
  PropertyMap.Copy.loop props []

/-- The maps that exist at some moment.  A Go map value is a reference: `cells[a]` is the
content of the map at address `a`, and several variables may hold the same address. -/
structure MapHeap where
  cells : List PropertyMap

/-- The content of the map at address `a`, if there is one. -/
def MapHeap.load (h : MapHeap) (a : Addr) : Option PropertyMap :=
  h.cells[a]?

/-- Allocation of a map with the given content (`make` followed by assignments): the new map
gets the first address not in use. -/
def MapHeap.make (h : MapHeap) (content : PropertyMap) : MapHeap × Addr :=
  (⟨h.cells ++ [content]⟩, h.cells.length)

/-- Assignment `m[k] = v` through the reference `a`: the map at `a` changes, no other does. -/
def MapHeap.assign (h : MapHeap) (a : Addr) (k : PropertyKey) (v : PropertyValue) : MapHeap :=
  match h.load a with
  | some m => ⟨h.cells.set a (mapSet m k v)⟩
  | none => h

/-- `props.Copy()` for the map at address `props`: the heap afterwards and the address of the
copy; `none` when `props` is not the address of a map. -/
def MapHeap.Copy (h : MapHeap) (props : Addr) : Option (MapHeap × Addr) :=
  match h.load props with
  | some m => some (h.make (PropertyMap.Copy m))
  | none => none

/-! ## The backend client (`pkg/backend/backend.go`) -/

/-- Modelled from the spec: `resource.State`, declared outside the sources at hand.  "Resource
State (persisted snapshot entry): urn, type, id, inputs, outputs, parent urn, dependencies,
provider reference, custom/component flag, delete flag, protect flag, additional-secret-output
keys, source-position string" (the timestamps are left out); `Type_` is the field `Type`. -/
structure State where
  URN : Resource.URN
  Type_ : String
  ID : Resource.ID
  Inputs : PropertyMap
  Outputs : PropertyMap
  Parent : Resource.URN
  Dependencies : List Resource.URN
  Provider : String
  Custom : Bool
  Delete : Bool
  Protect : Bool
  AdditionalSecretOutputs : List PropertyKey
  SourcePosition : String

/-- Modelled from the spec: `deploy.Snapshot`, "an ordered list of Resource records". -/
structure Snapshot where
  Resources : List State

/-- `type StackReference interface`, a reference to a stack managed by a backend; the client
only passes it on. -/
structure StackReference where
  name : String
  deriving DecidableEq, Repr

/-- Modelled from the spec: a `secrets.Provider`, either the client's own or the one that
`newErrorCatchingSecretsProvider(provider, onDecryptError)` wraps around it ("decryption
failures are reported through the caller-supplied callback"). -/
inductive SecretsProvider where
  | provider (id : Nat)
  | errorCatching (inner : SecretsProvider) (onDecryptError : GoError → Option GoError)

/-- Modelled from the spec: a non-nil `Stack`, as far as the client uses it: its method
`Snapshot(ctx, secretsProvider)`, which returns a snapshot pointer (possibly nil) or an
error. -/
structure Stack where
  Ref : StackReference
  Snapshot : SecretsProvider → Except GoError (Option Snapshot)

/-- `type Backend interface`, as far as the client uses it: `ParseStackReference(s)` returns a
reference or an error, `GetStack(ctx, stackRef)` a stack (nil when there is none) or an
error. -/
structure Backend where
  ParseStackReference : String → Except GoError StackReference
  GetStack : StackReference → Except GoError (Option Stack)

/-- `type backendClient struct { backend Backend; secretsProvider secrets.Provider }`. -/
structure backendClient where
  backend : Backend
  secretsProvider : SecretsProvider

/-- Functions from outside the sources at hand that the client calls: `quote s` is the
rendering of the string `s` by the verb `%q` of Go's `fmt`, and `GetRootStackResource` is
`stack.GetRootStackResource(snap)`, which returns the root stack resource of a snapshot, nil
when there is none, or an error. -/
structure Helpers where
  quote : String → String
  GetRootStackResource : Option Snapshot → Except GoError (Option State)

/-- A call that the client makes on the backend or on a stack. -/
inductive BackendCall where
  | ParseStackReference (s : String)
  | GetStack (ref : StackReference)
  | Snapshot (ref : StackReference) (secretsProvider : SecretsProvider)

/-- What a method of the client does: it returns `(pm, err)`, where `none` is a nil map and a
nil error, or it faults on a nil pointer. -/
inductive ClientResult where
  | returned (pm : Option PropertyMap) (err : Option GoError)
  | faulted

/-- The loop of `GetStackResourceOutputs` over `snap.Resources`, started on the map `pm` built
so far: a resource with `Delete` set is skipped, for any other resource
`pm[PropertyKey(r.URN)] = NewObjectProperty(resc)` with `resc` the map of `"type"` and
`"outputs"`. -/
def backendClient.GetStackResourceOutputs.loop : List State → PropertyMap → PropertyMap
  | [], pm => pm
  | r :: rest, pm =>
      if r.Delete then backendClient.GetStackResourceOutputs.loop rest pm
      else
        backendClient.GetStackResourceOutputs.loop rest
          (mapSet pm r.URN
            (NewObjectProperty
              [("type", NewStringProperty r.Type_), ("outputs", NewObjectProperty r.Outputs)]))

/-- `func (c *backendClient) GetStackResourceOutputs(ctx, name) (resource.PropertyMap, error)`,
with the calls it makes, in order.  `range snap.Resources` dereferences `snap`, which faults
when the snapshot pointer is nil. -/
def backendClient.GetStackResourceOutputs (hp : Helpers) (c : backendClient) (name : String) :
    ClientResult × List BackendCall :=
  match c.backend.ParseStackReference name with
  | .error err => (.returned none (some err), [.ParseStackReference name])
  | .ok ref =>
    match c.backend.GetStack ref with
    | .error err => (.returned none (some err), [.ParseStackReference name, .GetStack ref])
    | .ok none =>
        (.returned none (some (.errorString ("unknown stack " ++ hp.quote name))),
          [.ParseStackReference name, .GetStack ref])
    | .ok (some s) =>
      match s.Snapshot c.secretsProvider with
      | .error err =>
          (.returned none (some err),
            [.ParseStackReference name, .GetStack ref, .Snapshot s.Ref c.secretsProvider])
      | .ok none =>
          (.faulted, [.ParseStackReference name, .GetStack ref, .Snapshot s.Ref c.secretsProvider])
      | .ok (some snap) =>
          (.returned (some (backendClient.GetStackResourceOutputs.loop snap.Resources [])) none,
            [.ParseStackReference name, .GetStack ref, .Snapshot s.Ref c.secretsProvider])

/-- `func (c *backendClient) GetStackOutputs(ctx, name, onDecryptError) (resource.PropertyMap,
error)`, with the calls it makes, in order. -/
def backendClient.GetStackOutputs (hp : Helpers) (c : backendClient) (name : String)
    (onDecryptError : GoError → Option GoError) : ClientResult × List BackendCall :=
  match c.backend.ParseStackReference name with
  | .error err => (.returned none (some err), [.ParseStackReference name])
  | .ok ref =>
    match c.backend.GetStack ref with
    | .error err => (.returned none (some err), [.ParseStackReference name, .GetStack ref])
    | .ok none =>
        (.returned none (some (.errorString ("unknown stack " ++ hp.quote name))),
          [.ParseStackReference name, .GetStack ref])
    | .ok (some s) =>
      match s.Snapshot (.errorCatching c.secretsProvider onDecryptError) with
      | .error err =>
          (.returned none (some err),
            [.ParseStackReference name, .GetStack ref,
              .Snapshot s.Ref (.errorCatching c.secretsProvider onDecryptError)])
      | .ok snap =>
        match hp.GetRootStackResource snap with
        | .error err =>
            (.returned none (some (.wrapError "getting root stack resources: " err)),
              [.ParseStackReference name, .GetStack ref,
                .Snapshot s.Ref (.errorCatching c.secretsProvider onDecryptError)])
        | .ok none =>
            (.returned (some []) none,
              [.ParseStackReference name, .GetStack ref,
                .Snapshot s.Ref (.errorCatching c.secretsProvider onDecryptError)])
        | .ok (some res) =>
            (.returned (some res.Outputs) none,
              [.ParseStackReference name, .GetStack ref,
                .Snapshot s.Ref (.errorCatching c.secretsProvider onDecryptError)])

/-! ## Reachability, as the specification words it -/

/-- One step of the reachability that the specification gives for `ContainsSecrets`: from an
Array to an element, from an Object to a value, from a Computed to its element, from an Output
(known or not) to its element. -/
inductive SecretStep : PropertyValue → PropertyValue → Prop
  | arrayElement {xs : List PropertyValue} {e : PropertyValue} :
      e ∈ xs → SecretStep (.array xs) e
  | objectValue {m : PropertyMap} {p : PropertyKey × PropertyValue} :
      p ∈ m → SecretStep (.object m) p.2
  | computedElement (e : PropertyValue) : SecretStep (.computed e) e
  | outputElement (e : PropertyValue) (known sec : Bool) (deps : List URN) :
      SecretStep (.output e known sec deps) e

/-- Reachability for `ContainsSecrets`: any number of `SecretStep`s. -/
inductive SecretReachable : PropertyValue → PropertyValue → Prop
  | here (v : PropertyValue) : SecretReachable v v
  | step {v w u : PropertyValue} : SecretStep v w → SecretReachable w u → SecretReachable v u

/-- A secret marker: a Secret value, or an Output with `secret=true`. -/
def PropertyValue.IsSecretMarker : PropertyValue → Bool
  | .secret _ _ => true
  | .output _ _ sec _ => sec
  | _ => false

/-- An unknown marker: a Computed value, or an Output with `known=false`. -/
def PropertyValue.IsUnknownMarker : PropertyValue → Bool
  | .computed _ => true
  | .output _ known _ _ => !known
  | _ => false

/-- Immediate containment, `Component v w`: `w` is an element of the Array `v`, a value of the
Object `v`, the element of the Computed, Output or Secret `v`, or the id of the
ResourceReference `v`. -/
inductive Component : PropertyValue → PropertyValue → Prop
  | arrayElement {xs : List PropertyValue} {e : PropertyValue} :
      e ∈ xs → Component (.array xs) e
  | objectValue {m : PropertyMap} {p : PropertyKey × PropertyValue} :
      p ∈ m → Component (.object m) p.2
  | computedElement (e : PropertyValue) : Component (.computed e) e
  | outputElement (e : PropertyValue) (known sec : Bool) (deps : List URN) :
      Component (.output e known sec deps) e
  | secretElement (addr : Addr) (e : PropertyValue) : Component (.secret addr e) e
  | referenceID (urn : URN) (id : PropertyValue) (ver : String) :
      Component (.resourceReference urn id ver) id

/-- Occurrence anywhere inside a value, at any nesting depth: `OccursIn v w` when `w` is `v` or
is found below `v` by any number of `Component` steps. -/
inductive OccursIn : PropertyValue → PropertyValue → Prop
  | here (v : PropertyValue) : OccursIn v v
  | step {v w u : PropertyValue} : Component v w → OccursIn w u → OccursIn v u

/-- One step of the recursion of `ContainsUnknowns`: from an Array to an element, from an Object
to a value, from a Secret to its element. -/
inductive UnknownStep : PropertyValue → PropertyValue → Prop
  | arrayElement {xs : List PropertyValue} {e : PropertyValue} :
      e ∈ xs → UnknownStep (.array xs) e
  | objectValue {m : PropertyMap} {p : PropertyKey × PropertyValue} :
      p ∈ m → UnknownStep (.object m) p.2
  | secretElement (addr : Addr) (e : PropertyValue) : UnknownStep (.secret addr e) e

/-- Reachability for `ContainsUnknowns`: any number of `UnknownStep`s. -/
inductive UnknownReachable : PropertyValue → PropertyValue → Prop
  | here (v : PropertyValue) : UnknownReachable v v
  | step {v w u : PropertyValue} : UnknownStep v w → UnknownReachable w u → UnknownReachable v u

/-- The canonical shape descriptor as the specification words it, by recursion on the value:
`null|bool|number|string|[]|asset|archive|object|output<T>|secret<T>|resourceReference(..)`,
an Output being rendered as its element when resolved and not secret, as `output<T>` when not
known (whatever the secret flag), and as `secret<T>` when known and secret. -/
def typeDescriptor (fmtRef : URN → PropertyValue → String → String) : PropertyValue → String
  | .null => "null"
  | .bool _ => "bool"
  | .number _ => "number"
  | .string _ => "string"
  | .array _ => "[]"
  | .asset _ => "asset"
  | .archive _ => "archive"
  | .object _ => "object"
  | .computed e => "output<" ++ typeDescriptor fmtRef e ++ ">"
  | .secret _ e => "secret<" ++ typeDescriptor fmtRef e ++ ">"
  | .output e false _ _ => "output<" ++ typeDescriptor fmtRef e ++ ">"
  | .output e true true _ => "secret<" ++ typeDescriptor fmtRef e ++ ">"
  | .output e true false _ => typeDescriptor fmtRef e
  | .resourceReference urn id ver => fmtRef urn id ver

/-! ## Host values, as the specification describes them -/

/-- The integer types that the type switch of `NewPropertyValueRepl` lists. -/
def IntType.InTypeSwitch : IntType → Bool
  | .int | .uint | .int32 | .uint32 | .int64 | .uint64 => true
  | .int8 | .int16 | .uint8 | .uint16 => false

mutual
/-- A JSON-like host value: nil, bool, float64, string, a sequence of such values, or a
string-keyed map (each key once) of such values, nested to any depth; with `ints = true` also
an integer of a type that the type switch lists. -/
def Host.IsJSONLike (ints : Bool) : Host → Bool
  | .nil => true
  | .bool _ => true
  | .float64 _ => true
  | .string _ => true
  | .integer t _ => ints && t.InTypeSwitch
  | .sequence xs => Host.IsJSONLike.elements ints xs
  | .stringMap m => decide (m.map Prod.fst).Nodup && Host.IsJSONLike.entries ints m
  | _ => false
/-- Every element of a sequence is JSON-like. -/
def Host.IsJSONLike.elements (ints : Bool) : List Host → Bool
  | [] => true
  | x :: xs => Host.IsJSONLike ints x && Host.IsJSONLike.elements ints xs
/-- Every value of a map is JSON-like. -/
def Host.IsJSONLike.entries (ints : Bool) : List (String × Host) → Bool
  | [] => true
  | (_, x) :: rest => Host.IsJSONLike ints x && Host.IsJSONLike.entries ints rest
end

mutual
/-- Numeric widening of a host value: each integer is replaced by the corresponding float. -/
def Host.widen : Host → Host
  | .integer _ n => .float64 (Float64.ofInt n)
  | .sequence xs => .sequence (Host.widen.elements xs)
  | .stringMap m => .stringMap (Host.widen.entries m)
  | h => h
/-- Widening of the elements of a sequence. -/
def Host.widen.elements : List Host → List Host
  | [] => []
  | x :: xs => Host.widen x :: Host.widen.elements xs
/-- Widening of the values of a map. -/
def Host.widen.entries : List (String × Host) → List (String × Host)
  | [] => []
  | (k, x) :: rest => (k, Host.widen x) :: Host.widen.entries rest
end

mutual
/-- Structural equality of host values: sequences are equal when they have the same length and
equal elements in order; string-keyed maps, which have no order, when they have the same size
and every key of the first is bound in the second to an equal value; all other values when
they are the same. -/
def Host.StructEq : Host → Host → Prop
  | .sequence xs, .sequence ys => Host.StructEq.elements xs ys
  | .stringMap m, .stringMap m' => m.length = m'.length ∧ Host.StructEq.entries m m'
  | .sequence _, _ => False
  | .stringMap _, _ => False
  | a, b => a = b
/-- Element-wise structural equality of two sequences of the same length. -/
def Host.StructEq.elements : List Host → List Host → Prop
  | [], [] => True
  | x :: xs, y :: ys => Host.StructEq x y ∧ Host.StructEq.elements xs ys
  | _, _ => False
/-- Every entry of the first map is bound, in the second map, to a structurally equal value. -/
def Host.StructEq.entries : List (String × Host) → List (String × Host) → Prop
  | [], _ => True
  | (k, x) :: rest, m' =>
      (∃ y, mapGet m' k = some y ∧ Host.StructEq x y) ∧ Host.StructEq.entries rest m'
end

mutual
/-- The host values on which the conversion without hooks does not fail: the types of the type
switch, nil pointers, values of kind String, empty maps of any key type, structs that
`mapper.Unmap` accepts, and sequences, pointers, string-keyed maps and such structs holding
only values of this sort. -/
def Host.Convertible : Host → Bool
  | .nil => true
  | .bool _ => true
  | .integer t _ => t.InTypeSwitch
  | .float32 _ => true
  | .float64 _ => true
  | .string _ => true
  | .asset _ => true
  | .archive _ => true
  | .computed _ => true
  | .output _ => true
  | .secret _ _ => true
  | .resourceReference _ => true
  | .propertyValue _ => true
  | .sequence xs => Host.Convertible.elements xs
  | .nilPointer => true
  | .pointer p => Host.Convertible p
  | .stringMap m => Host.Convertible.entries m
  | .otherMap size => decide (size = 0)
  | .namedString _ => true
  | .struct fields => Host.Convertible.entries fields
  | .unmappableStruct => false
  | .other => false
/-- Every element of a sequence is convertible. -/
def Host.Convertible.elements : List Host → Bool
  | [] => true
  | x :: xs => Host.Convertible x && Host.Convertible.elements xs
/-- Every value of a map is convertible. -/
def Host.Convertible.entries : List (String × Host) → Bool
  | [] => true
  | (_, x) :: rest => Host.Convertible x && Host.Convertible.entries rest
end

/-- The host map that holds a `PropertyMap`: same keys, each value the `PropertyValue` itself. -/
def PropertyMap.toHost (props : PropertyMap) : HostMap :=
  props.map (fun p => (p.1, Host.propertyValue p.2))

/-- The host map of the primitive round-trip scenario:
`{data: {boolean: false, float: 2.17, integer: -12, string: "Goodbye", boolArray: [false, true],
stringMap: {two: "turtle doves", three: "french hens"}}}`. -/
def primitiveScenario : HostMap :=
  [("data", Host.stringMap
    [("boolean", Host.bool false),
     ("float", Host.float64 ⟨0x40015C28F5C28F5C⟩),
     ("integer", Host.integer IntType.int (-12)),
     ("string", Host.string "Goodbye"),
     ("boolArray", Host.sequence [Host.bool false, Host.bool true]),
     ("stringMap", Host.stringMap
       [("two", Host.string "turtle doves"), ("three", Host.string "french hens")])])]

/-! ## Stack resource outputs, as the specification words them -/

/-- The value that the specification gives under the URN of a resource: an Object with exactly
the keys `"type"` (a String holding the resource type) and `"outputs"` (an Object holding the
resource outputs). -/
def resourceOutputsEntry (r : State) : PropertyValue :=
  PropertyValue.object
    [("type", PropertyValue.string r.Type_), ("outputs", PropertyValue.object r.Outputs)]

/-- A resource record with the given URN, type, delete flag and outputs, and nothing else. -/
def resourceRecord (urn : URN) (type : String) (delete : Bool) (outputs : PropertyMap) : State :=
  ⟨urn, type, "", [], outputs, "", [], "", true, delete, false, [], ""⟩

/-- A backend with one stack under every name, whose snapshot holds the given resources. -/
def backendOf (resources : List State) : Backend :=
  ⟨fun s => .ok ⟨s⟩, fun ref => .ok (some ⟨ref, fun _ => .ok (some ⟨resources⟩)⟩)⟩

/-- A backend that parses every name and has no stack at all. -/
def backendWithoutStacks : Backend :=
  ⟨fun s => .ok ⟨s⟩, fun _ => .ok none⟩

/-- The rendering of a string between double quotes, which is what the verb `%q` gives for a
string of printable characters other than the double quote and the backslash. -/
def plainQuote (s : String) : String :=
  "\"" ++ s ++ "\""

/-! ## Property values, as the specification compares them -/

mutual
/-- Structural equality of property values: Arrays are equal when they have the same length and
equal elements in order; Objects, which have no order, when they have the same size and every
key of the first is bound in the second to an equal value; all other values when they are the
same, which for a Secret includes the reference. -/
def PropertyValue.StructEq : PropertyValue → PropertyValue → Prop
  | .array xs, .array ys => PropertyValue.StructEq.elements xs ys
  | .object m, .object m' => m.length = m'.length ∧ PropertyValue.StructEq.entries m m'
  | .array _, _ => False
  | .object _, _ => False
  | a, b => a = b
/-- Element-wise structural equality of two arrays of the same length. -/
def PropertyValue.StructEq.elements : List PropertyValue → List PropertyValue → Prop
  | [], [] => True
  | x :: xs, y :: ys => PropertyValue.StructEq x y ∧ PropertyValue.StructEq.elements xs ys
  | _, _ => False
/-- Every entry of the first object is bound, in the second object, to a structurally equal
value. -/
def PropertyValue.StructEq.entries :
    List (PropertyKey × PropertyValue) → List (PropertyKey × PropertyValue) → Prop
  | [], _ => True
  | (k, x) :: rest, m' =>
      (∃ y, mapGet m' k = some y ∧ PropertyValue.StructEq x y) ∧
        PropertyValue.StructEq.entries rest m'
end

mutual
/-- Every Object met in the value through Array elements and Object values holds each key once,
as a map does. -/
def PropertyValue.KeysDistinct : PropertyValue → Bool
  | .array xs => PropertyValue.KeysDistinct.elements xs
  | .object m => decide ((m.map Prod.fst).Nodup) && PropertyValue.KeysDistinct.entries m
  | _ => true
/-- The elements of an Array all have distinct keys in their Objects. -/
def PropertyValue.KeysDistinct.elements : List PropertyValue → Bool
  | [] => true
  | x :: xs => PropertyValue.KeysDistinct x && PropertyValue.KeysDistinct.elements xs
/-- The values of an Object all have distinct keys in their Objects. -/
def PropertyValue.KeysDistinct.entries : List (PropertyKey × PropertyValue) → Bool
  | [] => true
  | (_, x) :: rest => PropertyValue.KeysDistinct x && PropertyValue.KeysDistinct.entries rest
end

/-- A key hook that sends the key `"b"` to `"a"` and declines every other key. -/
def mergeIntoA : MapReplKey :=
  some (fun k => if k = "b" then ("a", true) else (k, false))

/-! ## Pointers, as the specification follows them -/

/-- A value of kind Struct other than `Computed`, `Output`, `ResourceReference` and
`PropertyValue`, whatever `mapper.Unmap` makes of it. -/
def Host.IsStruct : Host → Bool
  | .struct _ => true
  | .unmappableStruct => true
  | _ => false

/-- The host value `q` is one that the non-nil pointer `h` may point to: `pointer p` points to
`p`; a `*asset.Asset`, `*archive.Archive` or `*Secret` points to a struct (`asset.Asset`,
`archive.Archive`, `Secret`), the fields of which as a host value are left open. -/
def Host.MayPointTo (h q : Host) : Prop :=
  match h with
  | .pointer p => q = p
  | .asset _ => q.IsStruct = true
  | .archive _ => q.IsStruct = true
  | .secret _ _ => q.IsStruct = true
  | _ => False

/-! ## Structural induction -/

/-- Induction over a property value: the hypothesis for an Array covers each element, the one
for an Object each value. -/
theorem PropertyValue.induct {P : PropertyValue → Prop}
    (hnull : P .null) (hbool : ∀ b, P (.bool b)) (hnumber : ∀ f, P (.number f))
    (hstring : ∀ s, P (.string s))
    (harray : ∀ xs, (∀ e ∈ xs, P e) → P (.array xs))
    (hasset : ∀ a, P (.asset a)) (harchive : ∀ a, P (.archive a))
    (hobject : ∀ m : PropertyMap, (∀ p ∈ m, P p.2) → P (.object m))
    (hcomputed : ∀ e, P e → P (.computed e))
    (houtput : ∀ e known sec deps, P e → P (.output e known sec deps))
    (hsecret : ∀ addr e, P e → P (.secret addr e))
    (href : ∀ urn id ver, P id → P (.resourceReference urn id ver)) :
    ∀ v, P v := by
  intro v
  refine @PropertyValue.rec P (fun xs => ∀ e ∈ xs, P e)
    (fun m => ∀ p ∈ m, P p.2) (fun p => P p.2)
    hnull hbool hnumber hstring harray hasset harchive hobject hcomputed houtput hsecret href
    ?_ ?_ ?_ ?_ ?_ v
  · intro e he
    cases he
  · intro head tail hh ht e he
    rcases List.mem_cons.mp he with rfl | h
    · exact hh
    · exact ht e h
  · intro p hp
    cases hp
  · intro head tail hh ht p hp
    rcases List.mem_cons.mp hp with rfl | h
    · exact hh
    · exact ht p h
  · intro k w hw
    exact hw

/-! ## Loops over arrays and maps -/

theorem arrayContainsUnknowns_iff (xs : List PropertyValue) :
    PropertyValue.arrayContainsUnknowns xs = true ↔ ∃ e ∈ xs, e.ContainsUnknowns = true := by
  induction xs with
  | nil => simp [PropertyValue.arrayContainsUnknowns]
  | cons x xs ih =>
    simp only [PropertyValue.arrayContainsUnknowns, List.mem_cons, exists_eq_or_imp]
    by_cases hx : x.ContainsUnknowns = true <;> simp [hx, ih]

theorem mapContainsUnknowns_iff (m : PropertyMap) :
    PropertyMap.ContainsUnknowns m = true ↔ ∃ p ∈ m, p.2.ContainsUnknowns = true := by
  induction m with
  | nil => simp [PropertyMap.ContainsUnknowns]
  | cons x xs ih =>
    obtain ⟨k, v⟩ := x
    simp only [PropertyMap.ContainsUnknowns, List.mem_cons, exists_eq_or_imp]
    by_cases hx : v.ContainsUnknowns = true <;> simp [hx, ih]

theorem arrayContainsSecrets_iff (xs : List PropertyValue) :
    PropertyValue.arrayContainsSecrets xs = true ↔ ∃ e ∈ xs, e.ContainsSecrets = true := by
  induction xs with
  | nil => simp [PropertyValue.arrayContainsSecrets]
  | cons x xs ih =>
    simp only [PropertyValue.arrayContainsSecrets, List.mem_cons, exists_eq_or_imp]
    by_cases hx : x.ContainsSecrets = true <;> simp [hx, ih]

theorem mapContainsSecrets_iff (m : PropertyMap) :
    PropertyMap.ContainsSecrets m = true ↔ ∃ p ∈ m, p.2.ContainsSecrets = true := by
  induction m with
  | nil => simp [PropertyMap.ContainsSecrets]
  | cons x xs ih =>
    obtain ⟨k, v⟩ := x
    simp only [PropertyMap.ContainsSecrets, List.mem_cons, exists_eq_or_imp]
    by_cases hx : v.ContainsSecrets = true <;> simp [hx, ih]

theorem get?_eq_none_iff (m : PropertyMap) (k : PropertyKey) :
    PropertyMap.get? m k = none ↔ k ∉ PropertyMap.keys m := by
  induction m with
  | nil => simp [PropertyMap.get?, PropertyMap.keys]
  | cons x xs ih =>
    obtain ⟨k', v⟩ := x
    by_cases hk : k' = k
    · simp [PropertyMap.get?, PropertyMap.keys, hk]
    · have hk' : ¬ k = k' := fun h => hk h.symm
      simpa [PropertyMap.get?, PropertyMap.keys, hk, hk'] using ih

/-! ## `HasValue` -/

/-- C1: `m.HasValue(k)` is true if and only if `k` is present in `m` and `m[k]` is neither Null
nor an Output whose Known flag is false.  In particular it is false for an absent key, false
for every Output with `known=false` whatever its element, and true for a Computed value. -/
theorem hasValue_iff_present_and_resolved (m : PropertyMap) (k : PropertyKey) :
    (PropertyMap.HasValue m k = true ↔
      k ∈ PropertyMap.keys m ∧
      ∃ v, PropertyMap.get? m k = some v ∧ v.IsNull = false ∧
        ¬ ∃ e sec deps, v = PropertyValue.output e false sec deps) ∧
    (k ∉ PropertyMap.keys m → PropertyMap.HasValue m k = false) ∧
    (∀ e sec deps, PropertyMap.get? m k = some (PropertyValue.output e false sec deps) →
      PropertyMap.HasValue m k = false) ∧
    (∀ e, PropertyMap.get? m k = some (PropertyValue.computed e) →
      PropertyMap.HasValue m k = true) := by
  refine ⟨?_, ?_, ?_, ?_⟩
  · cases hg : PropertyMap.get? m k with
    | none =>
      have hk : k ∉ PropertyMap.keys m := (get?_eq_none_iff m k).mp hg
      simp [PropertyMap.HasValue, hg, hk]
    | some v =>
      have hk : k ∈ PropertyMap.keys m := by
        by_contra hk
        rw [(get?_eq_none_iff m k).mpr hk] at hg
        cases hg
      cases v with
      | output e known sec deps =>
        cases known with
        | true =>
          simp [PropertyMap.HasValue, hg, hk, PropertyValue.HasValue, PropertyValue.IsNull]
        | false =>
          simp only [PropertyMap.HasValue, hg, PropertyValue.HasValue]
          constructor
          · intro h
            cases h
          · rintro ⟨_, v, hv, _, hn⟩
            cases hv
            exact absurd ⟨e, sec, deps, rfl⟩ hn
      | _ => simp [PropertyMap.HasValue, hg, hk, PropertyValue.HasValue, PropertyValue.IsNull]
  · intro hk
    simp [PropertyMap.HasValue, (get?_eq_none_iff m k).mpr hk]
  · intro e sec deps hg
    simp [PropertyMap.HasValue, hg, PropertyValue.HasValue]
  · intro e hg
    simp [PropertyMap.HasValue, hg, PropertyValue.HasValue, PropertyValue.IsNull]

/-! ## `ContainsSecrets` -/

theorem containsSecrets_of_step {v w : PropertyValue} (h : SecretStep v w)
    (hw : w.ContainsSecrets = true) : v.ContainsSecrets = true := by
  cases h with
  | arrayElement he =>
    simp only [PropertyValue.ContainsSecrets]
    exact (arrayContainsSecrets_iff _).mpr ⟨_, he, hw⟩
  | objectValue hp =>
    simp only [PropertyValue.ContainsSecrets]
    exact (mapContainsSecrets_iff _).mpr ⟨_, hp, hw⟩
  | computedElement => simpa [PropertyValue.ContainsSecrets] using hw
  | outputElement e known sec deps => simp [PropertyValue.ContainsSecrets, hw]

theorem containsSecrets_of_marker {w : PropertyValue} (hw : w.IsSecretMarker = true) :
    w.ContainsSecrets = true := by
  cases w <;> simp_all [PropertyValue.IsSecretMarker, PropertyValue.ContainsSecrets]

theorem containsSecrets_of_reachable {v w : PropertyValue} (h : SecretReachable v w)
    (hw : w.IsSecretMarker = true) : v.ContainsSecrets = true := by
  induction h with
  | here v => exact containsSecrets_of_marker hw
  | step hs _ ih => exact containsSecrets_of_step hs (ih hw)

theorem reachable_of_containsSecrets :
    ∀ v : PropertyValue, v.ContainsSecrets = true →
      ∃ w, SecretReachable v w ∧ w.IsSecretMarker = true := by
  refine PropertyValue.induct ?_ ?_ ?_ ?_ ?_ ?_ ?_ ?_ ?_ ?_ ?_ ?_
  · intro h; simp [PropertyValue.ContainsSecrets] at h
  · intro b h; simp [PropertyValue.ContainsSecrets] at h
  · intro f h; simp [PropertyValue.ContainsSecrets] at h
  · intro s h; simp [PropertyValue.ContainsSecrets] at h
  · intro xs ih h
    simp only [PropertyValue.ContainsSecrets] at h
    obtain ⟨e, he, hs⟩ := (arrayContainsSecrets_iff xs).mp h
    obtain ⟨w, hr, hm⟩ := ih e he hs
    exact ⟨w, SecretReachable.step (SecretStep.arrayElement he) hr, hm⟩
  · intro a h; simp [PropertyValue.ContainsSecrets] at h
  · intro a h; simp [PropertyValue.ContainsSecrets] at h
  · intro m ih h
    simp only [PropertyValue.ContainsSecrets] at h
    obtain ⟨p, hp, hs⟩ := (mapContainsSecrets_iff m).mp h
    obtain ⟨w, hr, hm⟩ := ih p hp hs
    exact ⟨w, SecretReachable.step (SecretStep.objectValue hp) hr, hm⟩
  · intro e ih h
    simp only [PropertyValue.ContainsSecrets] at h
    obtain ⟨w, hr, hm⟩ := ih h
    exact ⟨w, SecretReachable.step (SecretStep.computedElement e) hr, hm⟩
  · intro e known sec deps ih h
    cases sec with
    | true => exact ⟨_, SecretReachable.here _, by simp [PropertyValue.IsSecretMarker]⟩
    | false =>
      simp only [PropertyValue.ContainsSecrets, Bool.false_or] at h
      obtain ⟨w, hr, hm⟩ := ih h
      exact ⟨w, SecretReachable.step (SecretStep.outputElement e known false deps) hr, hm⟩
  · intro addr e _ _
    exact ⟨_, SecretReachable.here _, by simp [PropertyValue.IsSecretMarker]⟩
  · intro urn id ver _ h; simp [PropertyValue.ContainsSecrets] at h

/-- C2: `v.ContainsSecrets()` is true if and only if a Secret value, or an Output with
`secret=true`, is reachable from `v` through array elements, object values, the element of a
Computed and the element of an Output (known or not); a map contains secrets iff one of its
values does.  In particular `MakeComputed(MakeSecret(x))` contains secrets, and so does the
array `[1, Secret(2), 3]`. -/
theorem containsSecrets_iff_reachable (v x : PropertyValue) (m : PropertyMap) (addr : Addr) :
    (v.ContainsSecrets = true ↔
      ∃ w, SecretReachable v w ∧
        (w.IsSecret = true ∨ ∃ e known deps, w = PropertyValue.output e known true deps)) ∧
    (PropertyMap.ContainsSecrets m = true ↔ ∃ p ∈ m, p.2.ContainsSecrets = true) ∧
    (MakeComputed (MakeSecret addr x)).ContainsSecrets = true ∧
    (NewArrayProperty [NewNumberProperty ⟨0x3FF0000000000000⟩,
        MakeSecret addr (NewNumberProperty ⟨0x4000000000000000⟩),
        NewNumberProperty ⟨0x4008000000000000⟩]).ContainsSecrets = true := by
  have marker : ∀ w : PropertyValue, w.IsSecretMarker = true ↔
      (w.IsSecret = true ∨ ∃ e known deps, w = PropertyValue.output e known true deps) := by
    intro w
    cases w <;> simp [PropertyValue.IsSecretMarker, PropertyValue.IsSecret]
  refine ⟨⟨?_, ?_⟩, mapContainsSecrets_iff m, ?_, ?_⟩
  · intro h
    obtain ⟨w, hr, hm⟩ := reachable_of_containsSecrets v h
    exact ⟨w, hr, (marker w).mp hm⟩
  · rintro ⟨w, hr, hm⟩
    exact containsSecrets_of_reachable hr ((marker w).mpr hm)
  · simp [MakeComputed, MakeSecret, NewComputedProperty, NewSecretProperty,
      PropertyValue.ContainsSecrets]
  · simp [NewArrayProperty, NewNumberProperty, MakeSecret, NewSecretProperty,
      PropertyValue.ContainsSecrets, PropertyValue.arrayContainsSecrets]

/-! ## `ContainsUnknowns` -/

/-- C3: `v.ContainsUnknowns()` is true if and only if `v` is a Computed, or an Output with
`known=false`, or an Array with some element that contains unknowns, or an Object with some
value that contains unknowns, or a Secret whose element contains unknowns; and
`PropertyMap.ContainsUnknowns(m)` is true iff some value of `m` contains unknowns. -/
theorem containsUnknowns_iff_cases (v : PropertyValue) (m : PropertyMap) :
    (v.ContainsUnknowns = true ↔
      v.IsComputed = true ∨
      (∃ e sec deps, v = PropertyValue.output e false sec deps) ∨
      (∃ xs, v = PropertyValue.array xs ∧ ∃ e ∈ xs, e.ContainsUnknowns = true) ∨
      (∃ o : PropertyMap, v = PropertyValue.object o ∧ ∃ p ∈ o, p.2.ContainsUnknowns = true) ∨
      (∃ addr e, v = PropertyValue.secret addr e ∧ e.ContainsUnknowns = true)) ∧
    (PropertyMap.ContainsUnknowns m = true ↔ ∃ p ∈ m, p.2.ContainsUnknowns = true) := by
  refine ⟨?_, mapContainsUnknowns_iff m⟩
  cases v with
  | array xs =>
    simp [PropertyValue.ContainsUnknowns, PropertyValue.IsComputed, arrayContainsUnknowns_iff]
  | object o =>
    have h := mapContainsUnknowns_iff o
    simp only [PropertyValue.ContainsUnknowns, PropertyValue.IsComputed]
    simp [h]
  | secret addr e =>
    simp only [PropertyValue.ContainsUnknowns, PropertyValue.IsComputed]
    constructor
    · intro h
      exact Or.inr (Or.inr (Or.inr (Or.inr ⟨addr, e, rfl, h⟩)))
    · rintro (h | ⟨_, _, _, h⟩ | ⟨_, h, _⟩ | ⟨_, h, _⟩ | ⟨a, e', h, hu⟩)
      · cases h
      · cases h
      · cases h
      · cases h
      · cases h
        exact hu
  | output e known sec deps =>
    cases known <;> simp [PropertyValue.ContainsUnknowns, PropertyValue.IsComputed]
  | _ => simp [PropertyValue.ContainsUnknowns, PropertyValue.IsComputed]

theorem containsUnknowns_of_step {v w : PropertyValue} (h : UnknownStep v w)
    (hw : w.ContainsUnknowns = true) : v.ContainsUnknowns = true := by
  cases h with
  | arrayElement he =>
    simp only [PropertyValue.ContainsUnknowns]
    exact (arrayContainsUnknowns_iff _).mpr ⟨_, he, hw⟩
  | objectValue hp =>
    simp only [PropertyValue.ContainsUnknowns]
    exact (mapContainsUnknowns_iff _).mpr ⟨_, hp, hw⟩
  | secretElement addr e => simpa [PropertyValue.ContainsUnknowns] using hw

theorem containsUnknowns_of_marker {w : PropertyValue} (hw : w.IsUnknownMarker = true) :
    w.ContainsUnknowns = true := by
  cases w <;> simp_all [PropertyValue.IsUnknownMarker, PropertyValue.ContainsUnknowns]

/-- C4, as the code has it: if a Computed value or an Output with `known=false` is reachable
from `v` through array elements, object values and Secret elements, then
`v.ContainsUnknowns()` is true. -/
theorem containsUnknowns_of_reachable (v w : PropertyValue) (h : UnknownReachable v w)
    (hw : w.IsComputed = true ∨ ∃ e sec deps, w = PropertyValue.output e false sec deps) :
    v.ContainsUnknowns = true := by
  have hm : w.IsUnknownMarker = true := by
    rcases hw with hw | ⟨e, sec, deps, rfl⟩
    · cases w <;> simp_all [PropertyValue.IsComputed, PropertyValue.IsUnknownMarker]
    · simp [PropertyValue.IsUnknownMarker]
  clear hw
  induction h with
  | here v => exact containsUnknowns_of_marker hm
  | step hs _ ih => exact containsUnknowns_of_step hs (ih hm)

/-- The amended C4 at `[Secret({"a": Computed(String)})]`: the Computed lies below an array
element, a Secret element and an object value. -/
theorem containsUnknowns_of_reachable_witness :
    UnknownReachable
        (NewArrayProperty
          [MakeSecret 1 (NewObjectProperty [("a", MakeComputed (NewStringProperty ""))])])
        (MakeComputed (NewStringProperty "")) ∧
      (NewArrayProperty [MakeSecret 1 (NewObjectProperty
        [("a", MakeComputed (NewStringProperty ""))])]).ContainsUnknowns = true := by
  have hr : UnknownReachable
      (NewArrayProperty
        [MakeSecret 1 (NewObjectProperty [("a", MakeComputed (NewStringProperty ""))])])
      (MakeComputed (NewStringProperty "")) := by
    refine UnknownReachable.step (UnknownStep.arrayElement (List.mem_singleton.mpr rfl)) ?_
    refine UnknownReachable.step (UnknownStep.secretElement 1 _) ?_
    refine UnknownReachable.step
      (@UnknownStep.objectValue _ ("a", MakeComputed (NewStringProperty ""))
        (List.mem_singleton.mpr rfl)) ?_
    exact UnknownReachable.here _
  exact ⟨hr, containsUnknowns_of_reachable _ _ hr (Or.inl rfl)⟩

/-- C4 fails as stated: a Computed occurs inside the known Output
`Output{Element: Computed(String), Known: true}` and inside the custom resource reference with
an empty id, yet neither value contains unknowns according to `ContainsUnknowns`. -/
theorem containsUnknowns_misses_known_output :
    (OccursIn (NewOutputProperty { Element := MakeComputed (NewStringProperty ""), Known := true })
        (MakeComputed (NewStringProperty "")) ∧
      (MakeComputed (NewStringProperty "")).IsComputed = true ∧
      (NewOutputProperty
        { Element := MakeComputed (NewStringProperty ""), Known := true }).ContainsUnknowns =
      false) ∧
    (OccursIn (MakeCustomResourceReference "urn" "" "v1") (MakeComputed (NewStringProperty "")) ∧
      (MakeCustomResourceReference "urn" "" "v1").ContainsUnknowns = false) := by
  refine ⟨⟨?_, rfl, rfl⟩, ?_, rfl⟩
  · exact OccursIn.step (Component.outputElement _ true false []) (OccursIn.here _)
  · exact OccursIn.step (Component.referenceID "urn" _ "v1") (OccursIn.here _)

/-! ## `TypeString` -/

/-- C7: `TypeString(v)` equals the canonical descriptor defined by recursion: `null`, `bool`,
`number`, `string`, `[]`, `asset`, `archive`, `object`, `output<T>` for a Computed, `secret<T>`
for a Secret, and for an Output `output<T>` when not known (whatever the secret flag),
`secret<T>` when known and secret, and the descriptor of the element when known and not
secret.  `Output{element: String, known: false}` gives `output<string>`. -/
theorem typeString_eq_typeDescriptor (fmtRef : URN → PropertyValue → String → String)
    (v e : PropertyValue) (sec : Bool) (deps : List URN) (s : String) :
    v.TypeString fmtRef = typeDescriptor fmtRef v ∧
    (PropertyValue.output e false sec deps).TypeString fmtRef
      = "output<" ++ e.TypeString fmtRef ++ ">" ∧
    (PropertyValue.output e true true deps).TypeString fmtRef
      = "secret<" ++ e.TypeString fmtRef ++ ">" ∧
    (PropertyValue.output e true false deps).TypeString fmtRef = e.TypeString fmtRef ∧
    (NewOutputProperty { Element := NewStringProperty s, Known := false }).TypeString fmtRef
      = "output<string>" := by
  refine ⟨?_, ?_, ?_, ?_, ?_⟩
  · revert v
    refine PropertyValue.induct ?_ ?_ ?_ ?_ ?_ ?_ ?_ ?_ ?_ ?_ ?_ ?_
    · simp [PropertyValue.TypeString, typeDescriptor]
    · intro b; simp [PropertyValue.TypeString, typeDescriptor]
    · intro f; simp [PropertyValue.TypeString, typeDescriptor]
    · intro s; simp [PropertyValue.TypeString, typeDescriptor]
    · intro xs _; simp [PropertyValue.TypeString, typeDescriptor]
    · intro a; simp [PropertyValue.TypeString, typeDescriptor]
    · intro a; simp [PropertyValue.TypeString, typeDescriptor]
    · intro m _; simp [PropertyValue.TypeString, typeDescriptor]
    · intro e ih; simp [PropertyValue.TypeString, typeDescriptor, ih]
    · intro e known sec deps ih
      cases known <;> cases sec <;>
        simp [PropertyValue.TypeString, typeDescriptor, ih, MakeComputed, MakeSecret,
          NewComputedProperty, NewSecretProperty]
    · intro addr e ih; simp [PropertyValue.TypeString, typeDescriptor, ih]
    · intro urn id ver _; simp [PropertyValue.TypeString, typeDescriptor]
  · simp [PropertyValue.TypeString, MakeComputed, NewComputedProperty]
  · simp [PropertyValue.TypeString, MakeSecret, NewSecretProperty]
  · simp [PropertyValue.TypeString]
  · simp [PropertyValue.TypeString, NewOutputProperty, NewStringProperty, MakeComputed,
      NewComputedProperty]

/-! ## Outputs against Computed and Secret -/

/-- C5, as the code has it: for every element `e` and dependency list `d`, the unresolved
Output `Output{e, known=false, secret=false, d}` gives the same result as `MakeComputed(e)`
under `ContainsUnknowns`, `ContainsSecrets` and `TypeString`; under `HasValue` the Output gives
false and `MakeComputed(e)` gives true. -/
theorem unresolved_output_as_computed (fmtRef : URN → PropertyValue → String → String)
    (e : PropertyValue) (d : List URN) :
    (unresolvedOutput e d).ContainsUnknowns = (MakeComputed e).ContainsUnknowns ∧
    (unresolvedOutput e d).ContainsSecrets = (MakeComputed e).ContainsSecrets ∧
    (unresolvedOutput e d).TypeString fmtRef = (MakeComputed e).TypeString fmtRef ∧
    (unresolvedOutput e d).HasValue = false ∧
    (MakeComputed e).HasValue = true := by
  refine ⟨?_, ?_, ?_, ?_, ?_⟩
  · simp [unresolvedOutput, NewOutputProperty, MakeComputed, NewComputedProperty,
      PropertyValue.ContainsUnknowns]
  · simp [unresolvedOutput, NewOutputProperty, MakeComputed, NewComputedProperty,
      PropertyValue.ContainsSecrets]
  · simp [unresolvedOutput, NewOutputProperty, PropertyValue.TypeString]
  · simp [unresolvedOutput, NewOutputProperty, PropertyValue.HasValue]
  · simp [MakeComputed, NewComputedProperty, PropertyValue.HasValue, PropertyValue.IsNull]

/-- C5 fails as stated: with element `String("")` and no dependencies, `HasValue` is false on
the unresolved Output and true on `MakeComputed` of the same element. -/
theorem unresolved_output_hasValue_differs :
    (unresolvedOutput (NewStringProperty "") []).HasValue = false ∧
    (MakeComputed (NewStringProperty "")).HasValue = true ∧
    (unresolvedOutput (NewStringProperty "") []).HasValue ≠
      (MakeComputed (NewStringProperty "")).HasValue := by
  refine ⟨rfl, rfl, ?_⟩
  decide

/-- C6, as the code has it: for every element `e` and dependency list `d`, the resolved secret
Output `Output{e, known=true, secret=true, d}` gives the same result as `MakeSecret(e)` under
`HasValue`, `ContainsSecrets` and `TypeString`; under `ContainsUnknowns` the Output gives
false, whereas `MakeSecret(e)` gives `e.ContainsUnknowns()`, so the two agree exactly when
`e` contains no unknowns. -/
theorem resolved_secret_output_as_secret (fmtRef : URN → PropertyValue → String → String)
    (e : PropertyValue) (d : List URN) (addr : Addr) :
    (resolvedSecretOutput e d).HasValue = (MakeSecret addr e).HasValue ∧
    (resolvedSecretOutput e d).ContainsSecrets = (MakeSecret addr e).ContainsSecrets ∧
    (resolvedSecretOutput e d).TypeString fmtRef = (MakeSecret addr e).TypeString fmtRef ∧
    (resolvedSecretOutput e d).ContainsUnknowns = false ∧
    (MakeSecret addr e).ContainsUnknowns = e.ContainsUnknowns ∧
    ((resolvedSecretOutput e d).ContainsUnknowns = (MakeSecret addr e).ContainsUnknowns ↔
      e.ContainsUnknowns = false) := by
  refine ⟨?_, ?_, ?_, ?_, ?_, ?_⟩
  · simp [resolvedSecretOutput, NewOutputProperty, MakeSecret, NewSecretProperty,
      PropertyValue.HasValue, PropertyValue.IsNull]
  · simp [resolvedSecretOutput, NewOutputProperty, MakeSecret, NewSecretProperty,
      PropertyValue.ContainsSecrets]
  · simp [resolvedSecretOutput, NewOutputProperty, MakeSecret, NewSecretProperty,
      PropertyValue.TypeString]
  · simp [resolvedSecretOutput, NewOutputProperty, PropertyValue.ContainsUnknowns]
  · simp [MakeSecret, NewSecretProperty, PropertyValue.ContainsUnknowns]
  · simp only [resolvedSecretOutput, NewOutputProperty, MakeSecret, NewSecretProperty,
      PropertyValue.ContainsUnknowns]
    constructor
    · intro h
      simpa using h.symm
    · intro h
      simp [h]

/-- C6 fails as stated: with element `Computed(String(""))`, `ContainsUnknowns` is false on the
resolved secret Output and true on `MakeSecret` of the same element. -/
theorem resolved_secret_output_containsUnknowns_differs :
    (resolvedSecretOutput (MakeComputed (NewStringProperty "")) []).ContainsUnknowns = false ∧
    (MakeSecret 1 (MakeComputed (NewStringProperty ""))).ContainsUnknowns = true ∧
    (resolvedSecretOutput (MakeComputed (NewStringProperty "")) []).ContainsUnknowns ≠
      (MakeSecret 1 (MakeComputed (NewStringProperty ""))).ContainsUnknowns := by
  refine ⟨rfl, rfl, ?_⟩
  decide

/-! ## `StableKeys` -/

theorem orderedInsert_perm {α : Type} (less : α → α → Bool) (x : α) (l : List α) :
    (orderedInsert less x l).Perm (x :: l) := by
  induction l with
  | nil => exact List.Perm.refl _
  | cons y ys ih =>
    by_cases h : less x y = true
    · simp [orderedInsert, h]
    · simp only [orderedInsert, h]
      exact ((List.Perm.cons y ih).trans (List.Perm.swap x y ys))

theorem sortSlice_perm {α : Type} (less : α → α → Bool) (l : List α) :
    (sortSlice less l).Perm l := by
  induction l with
  | nil => exact List.Perm.refl _
  | cons x xs ih =>
    exact (orderedInsert_perm less x (sortSlice less xs)).trans (List.Perm.cons x ih)

theorem orderedInsert_ascending {α : Type} [LinearOrder α] (less : α → α → Bool)
    (hless : ∀ a b, less a b = true ↔ a < b) (x : α) (l : List α)
    (hl : l.Pairwise (fun a b => a < b)) (hx : x ∉ l) :
    (orderedInsert less x l).Pairwise (fun a b => a < b) := by
  induction l with
  | nil => simp [orderedInsert]
  | cons y ys ih =>
    obtain ⟨hy, hys⟩ := List.pairwise_cons.mp hl
    have hxy : x ≠ y := fun h => hx (h ▸ List.mem_cons_self _ _)
    have hxys : x ∉ ys := fun h => hx (List.mem_cons_of_mem _ h)
    by_cases h : less x y = true
    · have hlt : x < y := (hless x y).mp h
      simp only [orderedInsert, h, if_true]
      refine List.pairwise_cons.mpr ⟨?_, hl⟩
      intro b hb
      rcases List.mem_cons.mp hb with rfl | hb
      · exact hlt
      · exact lt_trans hlt (hy b hb)
    · have hnlt : ¬ x < y := fun hlt => h ((hless x y).mpr hlt)
      simp only [orderedInsert, h]
      refine List.pairwise_cons.mpr ⟨?_, ih hys hxys⟩
      intro b hb
      have hb' : b ∈ x :: ys := ((orderedInsert_perm _ x ys).mem_iff).mp hb
      rcases List.mem_cons.mp hb' with rfl | hb'
      · exact lt_of_le_of_ne (not_lt.mp hnlt) (Ne.symm hxy)
      · exact hy b hb'

theorem sortSlice_ascending {α : Type} [LinearOrder α] (less : α → α → Bool)
    (hless : ∀ a b, less a b = true ↔ a < b) (l : List α) (hl : l.Nodup) :
    (sortSlice less l).Pairwise (fun a b => a < b) := by
  induction l with
  | nil => simp [sortSlice]
  | cons x xs ih =>
    obtain ⟨hx, hxs⟩ := List.nodup_cons.mp hl
    refine orderedInsert_ascending less hless x _ (ih hxs) ?_
    intro hmem
    exact hx (((sortSlice_perm _ xs).mem_iff).mp hmem)

theorem ascending_unique {α : Type} [LinearOrder α] {l₁ l₂ : List α}
    (h₁ : l₁.Pairwise (fun a b => a < b)) (h₂ : l₂.Pairwise (fun a b => a < b))
    (hmem : ∀ a, a ∈ l₁ ↔ a ∈ l₂) : l₁ = l₂ := by
  have n₁ : l₁.Nodup := h₁.imp (fun h => ne_of_lt h)
  have n₂ : l₂.Nodup := h₂.imp (fun h => ne_of_lt h)
  have hp : l₁.Perm l₂ := (List.perm_ext_iff_of_nodup n₁ n₂).mpr hmem
  exact List.eq_of_perm_of_sorted hp h₁ h₂

/-- C8: for a map `m` (each key held once), `m.StableKeys()` contains exactly the keys of `m`,
each exactly once, its length is the size of `m`, and it is in strictly ascending string order;
hence it depends only on the key set: a map `m'` with the same keys, whatever its iteration or
insertion order and whatever its values, yields the same key sequence. -/
theorem stableKeys_ascending_keys (m m' : PropertyMap)
    (hm : PropertyMap.WF m) (hm' : PropertyMap.WF m')
    (hkeys : ∀ k, k ∈ PropertyMap.keys m ↔ k ∈ PropertyMap.keys m') :
    (∀ k, k ∈ PropertyMap.StableKeys m ↔ k ∈ PropertyMap.keys m) ∧
    (∀ k, k ∈ PropertyMap.keys m → (PropertyMap.StableKeys m).count k = 1) ∧
    (PropertyMap.StableKeys m).length = m.length ∧
    (PropertyMap.StableKeys m).Pairwise (fun a b => a < b) ∧
    PropertyMap.StableKeys m = PropertyMap.StableKeys m' := by
  have hp : (PropertyMap.StableKeys m).Perm (PropertyMap.keys m) := sortSlice_perm _ _
  have hp' : (PropertyMap.StableKeys m').Perm (PropertyMap.keys m') := sortSlice_perm _ _
  have hs : (PropertyMap.StableKeys m).Pairwise (fun a b => a < b) :=
    sortSlice_ascending _ (fun a b => by simp) _ hm
  have hs' : (PropertyMap.StableKeys m').Pairwise (fun a b => a < b) :=
    sortSlice_ascending _ (fun a b => by simp) _ hm'
  refine ⟨fun k => hp.mem_iff, ?_, ?_, hs, ?_⟩
  · intro k hk
    rw [hp.count_eq]
    exact List.count_eq_one_of_mem hm hk
  · rw [hp.length_eq]
    simp [PropertyMap.keys]
  · apply ascending_unique hs hs'
    intro k
    rw [hp.mem_iff, hp'.mem_iff]
    exact hkeys k

/-- C8 at the maps `{"b": null, "a": true}` and `{"a": "x", "b": null}`, visited in these
orders: both give the key sequence `["a", "b"]`. -/
theorem stableKeys_ascending_keys_witness :
    PropertyMap.WF [("b", NewNullProperty), ("a", NewBoolProperty true)] ∧
    PropertyMap.WF [("a", NewStringProperty "x"), ("b", NewNullProperty)] ∧
    PropertyMap.StableKeys [("b", NewNullProperty), ("a", NewBoolProperty true)] = ["a", "b"] ∧
    PropertyMap.StableKeys [("b", NewNullProperty), ("a", NewBoolProperty true)]
      = PropertyMap.StableKeys [("a", NewStringProperty "x"), ("b", NewNullProperty)] := by
  have h₁ : PropertyMap.WF [("b", NewNullProperty), ("a", NewBoolProperty true)] := by
    simp [PropertyMap.WF, PropertyMap.keys]
  have h₂ : PropertyMap.WF [("a", NewStringProperty "x"), ("b", NewNullProperty)] := by
    simp [PropertyMap.WF, PropertyMap.keys]
  have hk : ∀ k, k ∈ PropertyMap.keys [("b", NewNullProperty), ("a", NewBoolProperty true)] ↔
      k ∈ PropertyMap.keys [("a", NewStringProperty "x"), ("b", NewNullProperty)] := by
    intro k
    simp [PropertyMap.keys, or_comm]
  refine ⟨h₁, h₂, ?_, (stableKeys_ascending_keys _ _ h₁ h₂ hk).2.2.2.2⟩
  simp [PropertyMap.StableKeys, PropertyMap.keys, sortSlice, orderedInsert,
    String.lt_iff_toList_lt]
  decide

/-! ## Resource references -/

/-- C9: `MakeCustomResourceReference(urn, id, packageVersion)` is a ResourceReference carrying
exactly that urn and packageVersion, whose id is Computed (with an empty-string element) when
`id` is the empty string and is the String value `id` otherwise; its id is never Null. -/
theorem makeCustomResourceReference_id (urn : URN) (id : ID) (packageVersion : String) :
    (MakeCustomResourceReference urn id packageVersion).IsResourceReference = true ∧
    (∃ ref, (MakeCustomResourceReference urn id packageVersion).ResourceReferenceValue = some ref ∧
      ref.URN = urn ∧ ref.PackageVersion = packageVersion ∧
      (id = "" → ref.ID = PropertyValue.computed (PropertyValue.string "")) ∧
      (id ≠ "" → ref.ID = PropertyValue.string id) ∧
      ref.ID.IsNull = false) ∧
    (∃ ref, (MakeCustomResourceReference urn "" packageVersion).ResourceReferenceValue = some ref ∧
      ref.ID.IsComputed = true) := by
  refine ⟨rfl, ⟨⟨urn, if id = "" then MakeComputed (NewStringProperty "")
      else NewStringProperty id, packageVersion⟩, rfl, rfl, rfl, ?_, ?_, ?_⟩, ?_⟩
  · intro h
    simp [h, MakeComputed, NewComputedProperty, NewStringProperty]
  · intro h
    simp [h, NewStringProperty]
  · by_cases h : id = "" <;>
      simp [h, MakeComputed, NewComputedProperty, NewStringProperty, PropertyValue.IsNull]
  · exact ⟨⟨urn, MakeComputed (NewStringProperty ""), packageVersion⟩, rfl, rfl⟩

/-- C10: `MakeComponentResourceReference(urn, packageVersion)` is a ResourceReference with that
urn and packageVersion whose id is Null, and `IDString` on it returns `("", false)`; among the
references built by the two constructors, the id is Null if and only if the reference was built
by `MakeComponentResourceReference`. -/
theorem makeComponentResourceReference_null_id (urn : URN) (packageVersion : String) :
    (MakeComponentResourceReference urn packageVersion).IsResourceReference = true ∧
    (∃ ref, (MakeComponentResourceReference urn packageVersion).ResourceReferenceValue = some ref ∧
      ref.URN = urn ∧ ref.PackageVersion = packageVersion ∧
      ref.ID = PropertyValue.null ∧ ref.ID.IsNull = true ∧ ref.IDString = ("", false)) ∧
    (∀ (v : PropertyValue) (ref : ResourceReference),
      ((∃ u p, v = MakeComponentResourceReference u p) ∨
        (∃ u i p, v = MakeCustomResourceReference u i p)) →
      v.ResourceReferenceValue = some ref →
      (ref.ID.IsNull = true ↔ ∃ u p, v = MakeComponentResourceReference u p)) := by
  refine ⟨rfl, ⟨⟨urn, PropertyValue.null, packageVersion⟩, rfl, rfl, rfl, rfl, rfl, rfl⟩, ?_⟩
  intro v ref hv href
  rcases hv with ⟨u, p, rfl⟩ | ⟨u, i, p, rfl⟩
  · have : ref.ID = PropertyValue.null := by
      simp only [MakeComponentResourceReference, NewResourceReferenceProperty,
        PropertyValue.ResourceReferenceValue, Option.some.injEq] at href
      rw [← href]
    simp only [this, PropertyValue.IsNull, true_iff]
    exact ⟨u, p, rfl⟩
  · have hid : ref.ID.IsNull = false := by
      simp only [MakeCustomResourceReference, NewResourceReferenceProperty,
        PropertyValue.ResourceReferenceValue, Option.some.injEq] at href
      rw [← href]
      by_cases h : i = "" <;>
        simp [h, MakeComputed, NewComputedProperty, NewStringProperty, PropertyValue.IsNull]
    constructor
    · intro h
      rw [hid] at h
      cases h
    · rintro ⟨u', p', h⟩
      exfalso
      simp only [MakeCustomResourceReference, MakeComponentResourceReference,
        NewResourceReferenceProperty, PropertyValue.resourceReference.injEq] at h
      obtain ⟨_, h, _⟩ := h
      by_cases hi : i = "" <;>
        simp [hi, MakeComputed, NewComputedProperty, NewStringProperty] at h

/-! ## `IDString` and `Equal` -/

/-- C11: `IDString` applied to the reference built by
`MakeCustomResourceReference(urn, id, packageVersion)` returns `(id, true)`: the known id string
for a non-empty id (e.g. `("abc", true)`), and `("", true)` for the promoted unknown id.  In
general `IDString` returns `hasID=true` exactly when the reference's id is a String or a
Computed, and a non-empty value only when it is a String. -/
theorem idString_of_customResourceReference (urn : URN) (id : ID) (packageVersion : String)
    (ref : ResourceReference) :
    (∃ r, (MakeCustomResourceReference urn id packageVersion).ResourceReferenceValue = some r ∧
      r.IDString = (id, true)) ∧
    (∃ r, (MakeCustomResourceReference urn "abc" packageVersion).ResourceReferenceValue = some r ∧
      r.IDString = ("abc", true)) ∧
    (∃ r, (MakeCustomResourceReference urn "" packageVersion).ResourceReferenceValue = some r ∧
      r.ID.IsComputed = true ∧ r.IDString = ("", true)) ∧
    (ref.IDString.2 = true ↔ (ref.ID.IsString = true ∨ ref.ID.IsComputed = true)) ∧
    (ref.IDString.1 ≠ "" → ref.ID.IsString = true) := by
  refine ⟨⟨⟨urn, if id = "" then MakeComputed (NewStringProperty "")
      else NewStringProperty id, packageVersion⟩, rfl, ?_⟩,
    ⟨⟨urn, NewStringProperty "abc", packageVersion⟩, rfl, rfl⟩,
    ⟨⟨urn, MakeComputed (NewStringProperty ""), packageVersion⟩, rfl, rfl, rfl⟩, ?_, ?_⟩
  · by_cases h : id = ""
    · simp [h, ResourceReference.IDString, MakeComputed, NewComputedProperty]
    · simp [h, ResourceReference.IDString, NewStringProperty]
  · obtain ⟨u, i, p⟩ := ref
    cases i <;> simp [ResourceReference.IDString, PropertyValue.IsString,
      PropertyValue.IsComputed]
  · obtain ⟨u, i, p⟩ := ref
    cases i <;> simp [ResourceReference.IDString, PropertyValue.IsString]

/-- C12: `a.Equal(b)` is true if and only if `a.URN = b.URN` and either both ids are Computed
or `a.ID` is deeply equal to `b.ID` (whatever `DeepEquals` is).  Hence references with different
URNs are never Equal, and the PackageVersion fields and the elements of two Computed ids play no
part in the result.  With structural deep equality, a reference built by
`MakeCustomResourceReference` or `MakeComponentResourceReference` is Equal to a structurally
identical one. -/
theorem equal_iff_urn_and_id (deepEquals : PropertyValue → PropertyValue → Bool)
    (a b : ResourceReference) (urn : URN) (id : ID) (packageVersion : String) :
    (a.Equal deepEquals b = true ↔
      a.URN = b.URN ∧
        ((a.ID.IsComputed = true ∧ b.ID.IsComputed = true) ∨ deepEquals a.ID b.ID = true)) ∧
    (a.URN ≠ b.URN → a.Equal deepEquals b = false) ∧
    (∀ pa pb : String,
      ResourceReference.Equal deepEquals ⟨a.URN, a.ID, pa⟩ ⟨b.URN, b.ID, pb⟩ =
        a.Equal deepEquals b) ∧
    (∀ (e e' : PropertyValue) (pa pb : String),
      ResourceReference.Equal deepEquals ⟨urn, PropertyValue.computed e, pa⟩
        ⟨urn, PropertyValue.computed e', pb⟩ = true) ∧
    (∃ r, (MakeCustomResourceReference urn id packageVersion).ResourceReferenceValue = some r ∧
      r.Equal PropertyValue.DeepEquals r = true) ∧
    (∃ r, (MakeComponentResourceReference urn packageVersion).ResourceReferenceValue = some r ∧
      r.Equal PropertyValue.DeepEquals r = true) := by
  refine ⟨?_, ?_, ?_, ?_, ?_, ?_⟩
  · by_cases hu : a.URN = b.URN
    · by_cases hc : (a.ID.IsComputed && b.ID.IsComputed) = true
      · have hc' := hc
        simp only [Bool.and_eq_true] at hc'
        simp [ResourceReference.Equal, hu, hc, hc']
      · have hc' : ¬ (a.ID.IsComputed = true ∧ b.ID.IsComputed = true) := by
          simpa [Bool.and_eq_true] using hc
        simp [ResourceReference.Equal, hu, hc, hc']
    · simp [ResourceReference.Equal, hu]
  · intro hu
    simp [ResourceReference.Equal, hu]
  · intro pa pb
    simp [ResourceReference.Equal]
  · intro e e' pa pb
    simp [ResourceReference.Equal, PropertyValue.IsComputed]
  · refine ⟨⟨urn, if id = "" then MakeComputed (NewStringProperty "")
      else NewStringProperty id, packageVersion⟩, rfl, ?_⟩
    by_cases h : id = ""
    · simp [h, ResourceReference.Equal, MakeComputed, NewComputedProperty,
        PropertyValue.IsComputed]
    · simp [h, ResourceReference.Equal, NewStringProperty, PropertyValue.IsComputed,
        PropertyValue.DeepEquals]
  · refine ⟨⟨urn, PropertyValue.null, packageVersion⟩, rfl, ?_⟩
    simp [ResourceReference.Equal, PropertyValue.IsComputed, PropertyValue.DeepEquals]

/-! ## `HasSig` -/

/-- C19: `HasSig(obj, match)` is true if and only if `obj` has the signature key
`4dabf18193072939515e22adb298388d` and the value under it is a String equal to `match`; it
returns false, and never faults in `StringValue`, when the signature key is absent or holds a
non-string value.  Since the Secret, ResourceReference and OutputValue signature strings are
distinct, at most one of `HasSig(obj, SecretSig)`, `HasSig(obj, ResourceReferenceSig)`,
`HasSig(obj, OutputValueSig)` holds. -/
theorem hasSig_iff_string_under_sigKey (obj : PropertyMap) (matchSig : String)
    (SecretSig ResourceReferenceSig OutputValueSig : String)
    (h₁ : SecretSig ≠ ResourceReferenceSig) (h₂ : SecretSig ≠ OutputValueSig)
    (h₃ : ResourceReferenceSig ≠ OutputValueSig) :
    SigKey = "4dabf18193072939515e22adb298388d" ∧
    (HasSig obj matchSig = some true ↔
      SigKey ∈ PropertyMap.keys obj ∧
        PropertyMap.get? obj SigKey = some (PropertyValue.string matchSig)) ∧
    (SigKey ∉ PropertyMap.keys obj → HasSig obj matchSig = some false) ∧
    (∀ v, PropertyMap.get? obj SigKey = some v → v.IsString = false →
      HasSig obj matchSig = some false) ∧
    HasSig obj matchSig ≠ none ∧
    ¬ (HasSig obj SecretSig = some true ∧ HasSig obj ResourceReferenceSig = some true) ∧
    ¬ (HasSig obj SecretSig = some true ∧ HasSig obj OutputValueSig = some true) ∧
    ¬ (HasSig obj ResourceReferenceSig = some true ∧ HasSig obj OutputValueSig = some true) := by
  have key : ∀ s : String, HasSig obj s = some true ↔
      PropertyMap.get? obj SigKey = some (PropertyValue.string s) := by
    intro s
    cases hg : PropertyMap.get? obj SigKey with
    | none => simp [HasSig, hg]
    | some v =>
      cases v <;> simp [HasSig, hg, PropertyValue.IsString, PropertyValue.StringValue]
  have two : ∀ s t : String, s ≠ t →
      ¬ (HasSig obj s = some true ∧ HasSig obj t = some true) := by
    rintro s t hst ⟨hs, ht⟩
    rw [key] at hs ht
    rw [hs] at ht
    simp only [Option.some.injEq, PropertyValue.string.injEq] at ht
    exact hst ht
  refine ⟨rfl, ?_, ?_, ?_, ?_, two _ _ h₁, two _ _ h₂, two _ _ h₃⟩
  · rw [key]
    constructor
    · intro h
      refine ⟨?_, h⟩
      by_contra hk
      rw [(get?_eq_none_iff obj SigKey).mpr hk] at h
      cases h
    · exact fun h => h.2
  · intro hk
    simp [HasSig, (get?_eq_none_iff obj SigKey).mpr hk]
  · intro v hg hv
    simp [HasSig, hg, hv]
  · cases hg : PropertyMap.get? obj SigKey with
    | none => simp [HasSig, hg]
    | some v =>
      cases v <;> simp [HasSig, hg, PropertyValue.IsString, PropertyValue.StringValue]

/-- C19 on the object `{SigKey: "1b47061264138c4ac30d75fd1eb44270", "value": true}` with three
distinct signature strings: it has the first signature and neither of the other two. -/
theorem hasSig_iff_string_under_sigKey_witness :
    HasSig [(SigKey, NewStringProperty "1b47061264138c4ac30d75fd1eb44270"),
        ("value", NewBoolProperty true)] "1b47061264138c4ac30d75fd1eb44270" = some true ∧
    ¬ (HasSig [(SigKey, NewStringProperty "1b47061264138c4ac30d75fd1eb44270"),
          ("value", NewBoolProperty true)] "1b47061264138c4ac30d75fd1eb44270" = some true ∧
        HasSig [(SigKey, NewStringProperty "1b47061264138c4ac30d75fd1eb44270"),
          ("value", NewBoolProperty true)] "5cf8f73096256a8f31e491e813e4eb8e" = some true) := by
  have h := hasSig_iff_string_under_sigKey
    [(SigKey, NewStringProperty "1b47061264138c4ac30d75fd1eb44270"),
      ("value", NewBoolProperty true)]
    "1b47061264138c4ac30d75fd1eb44270"
    "1b47061264138c4ac30d75fd1eb44270" "5cf8f73096256a8f31e491e813e4eb8e"
    "d0e6a833031e9bbcd3f4e8bde6ca49a4" (by decide) (by decide) (by decide)
  refine ⟨h.2.1.mpr ⟨?_, ?_⟩, h.2.2.2.2.2.1⟩
  · simp [PropertyMap.keys]
  · simp [PropertyMap.get?, NewStringProperty]

/-! ## `AreCompatible` -/

/-- C20: if either manager is nil, `AreCompatible(a, b)` is true exactly when both are nil;
otherwise it is true if and only if `a.Type() = b.Type()` and `a.State()` and `b.State()` are
equal byte for byte, a nil and an empty state counting as equal. -/
theorem areCompatible_iff (a b : Option Manager) (x y : Manager) (t : String) :
    ((a = none ∨ b = none) → (AreCompatible a b = true ↔ a = none ∧ b = none)) ∧
    (AreCompatible (some x) (some y) = true ↔
      x.Type_ = y.Type_ ∧ x.State.getD [] = y.State.getD []) ∧
    AreCompatible (some ⟨t, none⟩) (some ⟨t, some []⟩) = true := by
  refine ⟨?_, ?_, ?_⟩
  · intro h
    cases a <;> cases b <;> simp_all [AreCompatible]
  · by_cases ht : x.Type_ = y.Type_ <;> simp [AreCompatible, bytesEqual, ht]
  · simp [AreCompatible, bytesEqual]

/-! ## Induction over host values -/

/-- Induction over a host value: the hypothesis for a sequence covers each element, the one for
a map or struct each value. -/
theorem Host.structuralInduction {P : Host → Prop}
    (hnil : P .nil) (hbool : ∀ b, P (.bool b)) (hinteger : ∀ t n, P (.integer t n))
    (hfloat32 : ∀ f, P (.float32 f)) (hfloat64 : ∀ f, P (.float64 f))
    (hstring : ∀ s, P (.string s)) (hasset : ∀ a, P (.asset a))
    (harchive : ∀ a, P (.archive a)) (hcomputed : ∀ c, P (.computed c))
    (houtput : ∀ o, P (.output o)) (hsecret : ∀ addr s, P (.secret addr s))
    (href : ∀ r, P (.resourceReference r)) (hvalue : ∀ v, P (.propertyValue v))
    (hsequence : ∀ xs, (∀ x ∈ xs, P x) → P (.sequence xs))
    (hnilPointer : P .nilPointer) (hpointer : ∀ p, P p → P (.pointer p))
    (hstringMap : ∀ m : HostMap, (∀ e ∈ m, P e.2) → P (.stringMap m))
    (hotherMap : ∀ size, P (.otherMap size)) (hnamedString : ∀ s, P (.namedString s))
    (hstruct : ∀ fields : HostMap, (∀ e ∈ fields, P e.2) → P (.struct fields))
    (hunmappable : P .unmappableStruct) (hother : P .other) :
    ∀ h, P h := by
  intro h
  refine @Host.rec P (fun xs => ∀ x ∈ xs, P x) (fun m => ∀ e ∈ m, P e.2) (fun e => P e.2)
    hnil hbool hinteger hfloat32 hfloat64 hstring hasset harchive hcomputed houtput hsecret href
    hvalue hsequence hnilPointer hpointer hstringMap hotherMap hnamedString hstruct hunmappable
    hother ?_ ?_ ?_ ?_ ?_ h
  · intro x hx
    cases hx
  · intro head tail hh ht x hx
    rcases List.mem_cons.mp hx with rfl | hx
    · exact hh
    · exact ht x hx
  · intro e he
    cases he
  · intro head tail hh ht e he
    rcases List.mem_cons.mp he with rfl | he
    · exact hh
    · exact ht e he
  · intro k x hx
    exact hx

/-! ## `MapRepl` -/

theorem mapRepl_elements_eq_map (replk : MapReplKey) (replv : MapReplValue)
    (xs : List PropertyValue) :
    PropertyValue.MapRepl.elements replk replv xs = xs.map (PropertyValue.MapRepl replk replv) := by
  induction xs with
  | nil => simp [PropertyValue.MapRepl.elements]
  | cons x xs ih => simp [PropertyValue.MapRepl.elements, ih]

theorem mapRepl_values_eq_map (replk : MapReplKey) (replv : MapReplValue) (m : PropertyMap) :
    PropertyMap.MapRepl.values replk replv m =
      m.map (fun p => (p.1, PropertyValue.MapRepl replk replv p.2)) := by
  induction m with
  | nil => simp [PropertyMap.MapRepl.values]
  | cons x xs ih =>
    obtain ⟨k, v⟩ := x
    simp [PropertyMap.MapRepl.values, ih]

/-- C14: with no replacement hooks, `Mappable` applied to an Asset, Archive, Computed, Output,
Secret or ResourceReference value returns that value's payload unchanged, without converting
anything nested inside it (an Object inside a Secret's element stays a PropertyMap), and for a
Secret it returns the same Secret reference; only Null, Bool, Number, String, Array and Object
are turned into native nil, scalars, sequences and string-keyed maps. -/
theorem mappable_passes_payloads_through (a : Asset) (ar : Archive) (e id : PropertyValue)
    (known sec : Bool) (deps : List URN) (addr : Addr) (urn : URN) (ver : String)
    (m : PropertyMap) (b : Bool) (f : Float64) (s : String) (xs : List PropertyValue) :
    (PropertyValue.asset a).Mappable = Host.asset a ∧
    (PropertyValue.archive ar).Mappable = Host.archive ar ∧
    (PropertyValue.computed e).Mappable = Host.computed ⟨e⟩ ∧
    (PropertyValue.output e known sec deps).Mappable = Host.output ⟨e, known, sec, deps⟩ ∧
    (PropertyValue.secret addr e).Mappable = Host.secret addr ⟨e⟩ ∧
    (PropertyValue.resourceReference urn id ver).Mappable =
      Host.resourceReference ⟨urn, id, ver⟩ ∧
    (MakeSecret addr (NewObjectProperty m)).Mappable = Host.secret addr ⟨PropertyValue.object m⟩ ∧
    PropertyValue.null.Mappable = Host.nil ∧
    (PropertyValue.bool b).Mappable = Host.bool b ∧
    (PropertyValue.number f).Mappable = Host.float64 f ∧
    (PropertyValue.string s).Mappable = Host.string s ∧
    (PropertyValue.array xs).Mappable = Host.sequence (xs.map PropertyValue.Mappable) ∧
    (PropertyValue.object m).Mappable = Host.stringMap (PropertyMap.Mappable m) := by
  refine ⟨rfl, rfl, rfl, rfl, rfl, rfl, rfl, rfl, rfl, rfl, rfl, ?_, rfl⟩
  simp only [PropertyValue.Mappable, PropertyValue.MapRepl, mapReplaceValue,
    mapRepl_elements_eq_map]
  rfl

/-! ## `NewPropertyValue` on numbers -/

/-- C15, as the code has it: for every host numeric value of type `int`, `uint`, `int32`,
`uint32`, `int64`, `uint64`, `float32` or `float64`, `NewPropertyValue` returns a Number
property holding that value converted to a 64-bit float, and does not fail. -/
theorem newPropertyValue_number (n : Int) (f : Float32) (g : Float64) :
    NewPropertyValue (Host.integer IntType.int n) = some (NewNumberProperty (Float64.ofInt n)) ∧
    NewPropertyValue (Host.integer IntType.uint n) = some (NewNumberProperty (Float64.ofInt n)) ∧
    NewPropertyValue (Host.integer IntType.int32 n) = some (NewNumberProperty (Float64.ofInt n)) ∧
    NewPropertyValue (Host.integer IntType.uint32 n) = some (NewNumberProperty (Float64.ofInt n)) ∧
    NewPropertyValue (Host.integer IntType.int64 n) = some (NewNumberProperty (Float64.ofInt n)) ∧
    NewPropertyValue (Host.integer IntType.uint64 n) = some (NewNumberProperty (Float64.ofInt n)) ∧
    NewPropertyValue (Host.float32 f) = some (NewNumberProperty (Float64.ofFloat32 f)) ∧
    NewPropertyValue (Host.float64 g) = some (NewNumberProperty g) ∧
    (∀ t : IntType, t.InTypeSwitch = true →
      NewPropertyValue (Host.integer t n) = some (NewNumberProperty (Float64.ofInt n))) := by
  refine ⟨rfl, rfl, rfl, rfl, rfl, rfl, rfl, rfl, ?_⟩
  intro t ht
  cases t <;> first | rfl | cases ht

/-- C15 fails as stated: the 8- and 16-bit integer types are not in the type switch and have
none of the kinds handled afterwards, so `NewPropertyValue` fails on `int8(1)`, `int16(1)`,
`uint8(1)` and `uint16(1)`. -/
theorem newPropertyValue_fails_on_narrow_integers :
    NewPropertyValue (Host.integer IntType.int8 1) = none ∧
    NewPropertyValue (Host.integer IntType.int16 1) = none ∧
    NewPropertyValue (Host.integer IntType.uint8 1) = none ∧
    NewPropertyValue (Host.integer IntType.uint16 1) = none :=
  ⟨rfl, rfl, rfl, rfl⟩

/-! ## The loops of `NewPropertyValueRepl` -/

theorem elements_eq_some_iff (replk : ReplKey) (replv : ReplValue) (xs : List Host)
    (ys : List PropertyValue) :
    NewPropertyValueRepl.elements replk replv xs = some ys ↔
      List.Forall₂ (fun x y => NewPropertyValueRepl replk replv x = some y) xs ys := by
  induction xs generalizing ys with
  | nil =>
    cases ys <;> simp [NewPropertyValueRepl.elements]
  | cons x xs ih =>
    simp only [NewPropertyValueRepl.elements]
    cases hx : NewPropertyValueRepl replk replv x with
    | none =>
      constructor
      · intro h
        cases h
      · intro h
        cases h with
        | cons h _ => rw [hx] at h; cases h
    | some pv =>
      cases hr : NewPropertyValueRepl.elements replk replv xs with
      | none =>
        constructor
        · intro h
          cases h
        · intro h
          cases h with
          | cons _ h => rw [(ih _).mpr h] at hr; cases hr
      | some rest =>
        have hrest := (ih rest).mp hr
        constructor
        · intro h
          simp only [Option.some.injEq] at h
          subst h
          exact List.Forall₂.cons hx hrest
        · intro h
          cases h with
          | cons h₁ h₂ =>
            rw [hx] at h₁
            have := (ih _).mpr h₂
            rw [hr] at this
            simp only [Option.some.injEq] at h₁ this
            subst h₁
            subst this
            rfl

theorem elements_eq_none_iff (replk : ReplKey) (replv : ReplValue) (xs : List Host) :
    NewPropertyValueRepl.elements replk replv xs = none ↔
      ∃ x ∈ xs, NewPropertyValueRepl replk replv x = none := by
  induction xs with
  | nil => simp [NewPropertyValueRepl.elements]
  | cons x xs ih =>
    simp only [NewPropertyValueRepl.elements, List.mem_cons, exists_eq_or_imp]
    cases hx : NewPropertyValueRepl replk replv x with
    | none => simp
    | some pv =>
      cases hr : NewPropertyValueRepl.elements replk replv xs with
      | none =>
        rw [hr] at ih
        simp [ih.mp rfl]
      | some rest =>
        rw [hr] at ih
        constructor
        · intro h
          cases h
        · rintro (h | h)
          · cases h
          · cases ih.mpr h

theorem entries_eq_none_iff (replk : ReplKey) (replv : ReplValue) (m : HostMap)
    (obj : PropertyMap) :
    NewPropertyValueRepl.entries replk replv m obj = none ↔
      ∃ e ∈ m, NewPropertyValueRepl replk replv e.2 = none := by
  induction m generalizing obj with
  | nil => simp [NewPropertyValueRepl.entries]
  | cons e rest ih =>
    obtain ⟨k, val⟩ := e
    simp only [NewPropertyValueRepl.entries, List.mem_cons, exists_eq_or_imp]
    cases hx : NewPropertyValueRepl replk replv val with
    | none => simp
    | some pv =>
      simp only
      rw [ih]
      simp

theorem mapSet_of_not_mem {β : Type} (obj : List (String × β)) (k : String) (v : β)
    (hk : k ∉ obj.map Prod.fst) : mapSet obj k v = obj ++ [(k, v)] := by
  induction obj with
  | nil => rfl
  | cons e rest ih =>
    obtain ⟨k', v'⟩ := e
    simp only [List.map_cons, List.mem_cons, not_or] at hk
    have hne : ¬ k' = k := fun h => hk.1 h.symm
    simp [mapSet, hne, ih hk.2]

theorem entries_eq_some_iff (replk : ReplKey) (replv : ReplValue)
    (hk : ∀ k, replaceKey replk k = k) (m : HostMap) (obj r : PropertyMap)
    (hm : (m.map Prod.fst).Nodup) (hd : ∀ k ∈ m.map Prod.fst, k ∉ obj.map Prod.fst) :
    NewPropertyValueRepl.entries replk replv m obj = some r ↔
      ∃ o : PropertyMap, r = obj ++ o ∧
        List.Forall₂ (fun e p => p.1 = e.1 ∧ NewPropertyValueRepl replk replv e.2 = some p.2)
          m o := by
  induction m generalizing obj with
  | nil =>
    simp only [NewPropertyValueRepl.entries, Option.some.injEq]
    constructor
    · intro h
      exact ⟨[], by simp [h], List.Forall₂.nil⟩
    · rintro ⟨o, rfl, ho⟩
      cases ho
      simp
  | cons e rest ih =>
    obtain ⟨k, val⟩ := e
    simp only [List.map_cons, List.nodup_cons] at hm
    have hkobj : k ∉ obj.map Prod.fst := hd k (by simp)
    simp only [NewPropertyValueRepl.entries, hk]
    cases hx : NewPropertyValueRepl replk replv val with
    | none =>
      constructor
      · intro h
        cases h
      · rintro ⟨o, _, ho⟩
        cases ho with
        | cons h _ => rw [hx] at h; cases h.2
    | some pv =>
      simp only
      rw [mapSet_of_not_mem obj k pv hkobj]
      have hd' : ∀ k' ∈ rest.map Prod.fst, k' ∉ (obj ++ [(k, pv)]).map Prod.fst := by
        intro k' hk' hmem
        simp only [List.map_append, List.map_cons, List.map_nil, List.mem_append,
          List.mem_singleton] at hmem
        rcases hmem with hmem | rfl
        · exact hd k' (by simp [hk']) hmem
        · exact hm.1 hk'
      rw [ih _ hm.2 hd']
      constructor
      · rintro ⟨o, rfl, ho⟩
        exact ⟨(k, pv) :: o, by simp, List.Forall₂.cons ⟨rfl, hx⟩ ho⟩
      · rintro ⟨o, rfl, ho⟩
        cases ho with
        | cons h ho' =>
          rename_i p o'
          obtain ⟨k', pv'⟩ := p
          obtain ⟨h₁, h₂⟩ := h
          simp only at h₁ h₂
          rw [hx] at h₂
          simp only [Option.some.injEq] at h₂
          subst h₁
          subst h₂
          exact ⟨o', by simp, ho'⟩

/-! ## Where `NewPropertyValue` fails -/

theorem convertible_elements_eq_false_iff (xs : List Host) :
    Host.Convertible.elements xs = false ↔ ∃ x ∈ xs, Host.Convertible x = false := by
  induction xs with
  | nil => simp [Host.Convertible.elements]
  | cons x xs ih =>
    simp only [Host.Convertible.elements, List.mem_cons, exists_eq_or_imp, Bool.and_eq_false_iff,
      ih]

theorem convertible_entries_eq_false_iff (m : HostMap) :
    Host.Convertible.entries m = false ↔ ∃ e ∈ m, Host.Convertible e.2 = false := by
  induction m with
  | nil => simp [Host.Convertible.entries]
  | cons e rest ih =>
    obtain ⟨k, x⟩ := e
    simp only [Host.Convertible.entries, List.mem_cons, exists_eq_or_imp, Bool.and_eq_false_iff,
      ih]

theorem newPropertyValue_sequence (xs : List Host) :
    NewPropertyValue (Host.sequence xs) =
      (NewPropertyValueRepl.elements none none xs).map NewArrayProperty := by
  simp [NewPropertyValue, NewPropertyValueRepl, replaceValue]

theorem newPropertyValue_stringMap (m : HostMap) :
    NewPropertyValue (Host.stringMap m) =
      (NewPropertyValueRepl.entries none none m []).map NewObjectProperty := by
  simp [NewPropertyValue, NewPropertyValueRepl, replaceValue]

theorem newPropertyValue_struct (fields : HostMap) :
    NewPropertyValue (Host.struct fields) =
      (NewPropertyValueRepl.entries none none fields []).map NewObjectProperty := by
  simp [NewPropertyValue, NewPropertyValueRepl, replaceValue]

theorem newPropertyValue_pointer (p : Host) :
    NewPropertyValue (Host.pointer p) = NewPropertyValue p := by
  simp [NewPropertyValue, NewPropertyValueRepl, replaceValue]

theorem newPropertyValue_eq_none_iff :
    ∀ h : Host, NewPropertyValue h = none ↔ Host.Convertible h = false := by
  refine Host.structuralInduction ?_ ?_ ?_ ?_ ?_ ?_ ?_ ?_ ?_ ?_ ?_ ?_ ?_ ?_ ?_ ?_ ?_ ?_ ?_ ?_ ?_ ?_
  · simp [NewPropertyValue, NewPropertyValueRepl, replaceValue, Host.Convertible]
  · intro b; simp [NewPropertyValue, NewPropertyValueRepl, replaceValue, Host.Convertible]
  · intro t n
    cases t <;> simp [NewPropertyValue, NewPropertyValueRepl, replaceValue, Host.Convertible,
      IntType.InTypeSwitch]
  · intro f; simp [NewPropertyValue, NewPropertyValueRepl, replaceValue, Host.Convertible]
  · intro f; simp [NewPropertyValue, NewPropertyValueRepl, replaceValue, Host.Convertible]
  · intro s; simp [NewPropertyValue, NewPropertyValueRepl, replaceValue, Host.Convertible]
  · intro a; simp [NewPropertyValue, NewPropertyValueRepl, replaceValue, Host.Convertible]
  · intro a; simp [NewPropertyValue, NewPropertyValueRepl, replaceValue, Host.Convertible]
  · intro c; simp [NewPropertyValue, NewPropertyValueRepl, replaceValue, Host.Convertible]
  · intro o; simp [NewPropertyValue, NewPropertyValueRepl, replaceValue, Host.Convertible]
  · intro addr s
    simp [NewPropertyValue, NewPropertyValueRepl, replaceValue, Host.Convertible]
  · intro r; simp [NewPropertyValue, NewPropertyValueRepl, replaceValue, Host.Convertible]
  · intro v; simp [NewPropertyValue, NewPropertyValueRepl, replaceValue, Host.Convertible]
  · intro xs ih
    rw [newPropertyValue_sequence, Option.map_eq_none', elements_eq_none_iff]
    simp only [Host.Convertible, convertible_elements_eq_false_iff]
    constructor
    · rintro ⟨x, hx, h⟩
      exact ⟨x, hx, (ih x hx).mp h⟩
    · rintro ⟨x, hx, h⟩
      exact ⟨x, hx, (ih x hx).mpr h⟩
  · simp [NewPropertyValue, NewPropertyValueRepl, replaceValue, Host.Convertible]
  · intro p ih
    rw [newPropertyValue_pointer, ih]
    simp [Host.Convertible]
  · intro m ih
    rw [newPropertyValue_stringMap, Option.map_eq_none', entries_eq_none_iff]
    simp only [Host.Convertible, convertible_entries_eq_false_iff]
    constructor
    · rintro ⟨e, he, h⟩
      exact ⟨e, he, (ih e he).mp h⟩
    · rintro ⟨e, he, h⟩
      exact ⟨e, he, (ih e he).mpr h⟩
  · intro size
    cases size <;> simp [NewPropertyValue, NewPropertyValueRepl, replaceValue, Host.Convertible]
  · intro s; simp [NewPropertyValue, NewPropertyValueRepl, replaceValue, Host.Convertible]
  · intro m ih
    rw [newPropertyValue_struct, Option.map_eq_none', entries_eq_none_iff]
    simp only [Host.Convertible, convertible_entries_eq_false_iff]
    constructor
    · rintro ⟨e, he, h⟩
      exact ⟨e, he, (ih e he).mp h⟩
    · rintro ⟨e, he, h⟩
      exact ⟨e, he, (ih e he).mpr h⟩
  · simp [NewPropertyValue, NewPropertyValueRepl, replaceValue, Host.Convertible]
  · simp [NewPropertyValue, NewPropertyValueRepl, replaceValue, Host.Convertible]

theorem isJSONLike_elements_iff (ints : Bool) (xs : List Host) :
    Host.IsJSONLike.elements ints xs = true ↔ ∀ x ∈ xs, Host.IsJSONLike ints x = true := by
  induction xs with
  | nil => simp [Host.IsJSONLike.elements]
  | cons x xs ih => simp [Host.IsJSONLike.elements, ih]

theorem isJSONLike_entries_iff (ints : Bool) (m : HostMap) :
    Host.IsJSONLike.entries ints m = true ↔ ∀ e ∈ m, Host.IsJSONLike ints e.2 = true := by
  induction m with
  | nil => simp [Host.IsJSONLike.entries]
  | cons e rest ih =>
    obtain ⟨k, x⟩ := e
    simp [Host.IsJSONLike.entries, ih]

theorem convertible_of_isJSONLike (ints : Bool) :
    ∀ h : Host, Host.IsJSONLike ints h = true → Host.Convertible h = true := by
  refine Host.structuralInduction ?_ ?_ ?_ ?_ ?_ ?_ ?_ ?_ ?_ ?_ ?_ ?_ ?_ ?_ ?_ ?_ ?_ ?_ ?_ ?_ ?_ ?_
  case refine_14 =>
    intro xs ih h
    simp only [Host.IsJSONLike, isJSONLike_elements_iff] at h
    by_contra hc
    simp only [Host.Convertible, Bool.not_eq_true, convertible_elements_eq_false_iff] at hc
    obtain ⟨x, hx, hf⟩ := hc
    rw [ih x hx (h x hx)] at hf
    cases hf
  case refine_17 =>
    intro m ih h
    simp only [Host.IsJSONLike, Bool.and_eq_true, isJSONLike_entries_iff] at h
    by_contra hc
    simp only [Host.Convertible, Bool.not_eq_true, convertible_entries_eq_false_iff] at hc
    obtain ⟨e, he, hf⟩ := hc
    rw [ih e he (h.2 e he)] at hf
    cases hf
  case refine_3 =>
    intro t n h
    simp only [Host.IsJSONLike, Bool.and_eq_true] at h
    simpa [Host.Convertible] using h.2
  all_goals intros; simp_all [Host.IsJSONLike, Host.Convertible]

/-- C17, as the code has it: `NewPropertyValue` (no hooks) fails exactly on the host values that
are not convertible.  It fails on every value of an unsupported kind, on every integer whose
type is not in the type switch, on every struct that `mapper.Unmap` rejects, on every non-empty
mapping whose key type is not a string, and on every sequence, pointer, string-keyed mapping or
struct that holds a failing value; an empty mapping converts to an empty Object whatever its
key type; and it never fails on a host value built only from nil, bools, float64s, strings,
sequences and string-keyed maps. -/
theorem newPropertyValue_fails_iff_not_convertible (h : Host) :
    (NewPropertyValue h = none ↔ Host.Convertible h = false) ∧
    NewPropertyValue Host.other = none ∧
    NewPropertyValue Host.unmappableStruct = none ∧
    (∀ (t : IntType) (n : Int), t.InTypeSwitch = false →
      NewPropertyValue (Host.integer t n) = none) ∧
    (∀ size : Nat, size ≠ 0 → NewPropertyValue (Host.otherMap size) = none) ∧
    NewPropertyValue (Host.otherMap 0) = some (NewObjectProperty []) ∧
    (∀ (xs : List Host) (x : Host), x ∈ xs → NewPropertyValue x = none →
      NewPropertyValue (Host.sequence xs) = none) ∧
    (∀ p : Host, NewPropertyValue p = none → NewPropertyValue (Host.pointer p) = none) ∧
    (∀ (m : HostMap) (e : String × Host), e ∈ m → NewPropertyValue e.2 = none →
      NewPropertyValue (Host.stringMap m) = none) ∧
    (∀ (fields : HostMap) (e : String × Host), e ∈ fields → NewPropertyValue e.2 = none →
      NewPropertyValue (Host.struct fields) = none) ∧
    (Host.IsJSONLike false h = true → NewPropertyValue h ≠ none) := by
  refine ⟨newPropertyValue_eq_none_iff h, rfl, rfl, ?_, ?_, rfl, ?_, ?_, ?_, ?_, ?_⟩
  · intro t n ht
    rw [newPropertyValue_eq_none_iff]
    simpa [Host.Convertible] using ht
  · intro size hs
    rw [newPropertyValue_eq_none_iff]
    simpa [Host.Convertible] using hs
  · intro xs x hx hf
    rw [newPropertyValue_sequence, Option.map_eq_none', elements_eq_none_iff]
    exact ⟨x, hx, hf⟩
  · intro p hf
    rw [newPropertyValue_pointer]
    exact hf
  · intro m e he hf
    rw [newPropertyValue_stringMap, Option.map_eq_none', entries_eq_none_iff]
    exact ⟨e, he, hf⟩
  · intro m e he hf
    rw [newPropertyValue_struct, Option.map_eq_none', entries_eq_none_iff]
    exact ⟨e, he, hf⟩
  · intro hj hn
    have hc := convertible_of_isJSONLike false h hj
    rw [(newPropertyValue_eq_none_iff h).mp hn] at hc
    cases hc

/-- C17 fails as stated: an empty mapping whose key type is not a string (`map[int]string{}`)
is not rejected, it converts to the empty Object, because the key kind is only tested on the
keys met while iterating. -/
theorem newPropertyValue_accepts_empty_other_map :
    NewPropertyValue (Host.otherMap 0) = some (NewObjectProperty []) ∧
    NewPropertyValue (Host.otherMap 0) ≠ none := by
  refine ⟨rfl, ?_⟩
  intro h
  cases h

/-! ## `NewPropertyValue` preserves structure -/

theorem get?_eq_mapGet (m : PropertyMap) (k : PropertyKey) :
    PropertyMap.get? m k = mapGet m k := by
  induction m with
  | nil => rfl
  | cons e rest ih =>
    obtain ⟨k', v⟩ := e
    simp [PropertyMap.get?, mapGet, ih]

theorem forall₂_entries_lookup {β γ : Type} (R : β → γ → Prop) (m : List (String × β))
    (o : List (String × γ)) (h : List.Forall₂ (fun e p => p.1 = e.1 ∧ R e.2 p.2) m o) :
    o.map Prod.fst = m.map Prod.fst ∧
      ∀ k x, mapGet m k = some x → ∃ y, mapGet o k = some y ∧ R x y := by
  induction m generalizing o with
  | nil =>
    cases h
    simp [mapGet]
  | cons e rest ih =>
    cases h with
    | cons hhead htail =>
      rename_i p o'
      obtain ⟨k, x⟩ := e
      obtain ⟨k', y⟩ := p
      obtain ⟨hk, hr⟩ := hhead
      simp only at hk hr
      subst hk
      have ih' := ih o' htail
      refine ⟨by simp [ih'.1], ?_⟩
      intro k₀ x₀ hget
      by_cases hkk : k' = k₀
      · simp only [mapGet, hkk, if_true, Option.some.injEq] at hget ⊢
        subst hget
        exact ⟨y, rfl, hr⟩
      · simp only [mapGet, hkk, if_false] at hget ⊢
        exact ih'.2 k₀ x₀ hget

theorem entries_toHost (pm : PropertyMap) :
    List.Forall₂ (fun (e : String × Host) (p : PropertyKey × PropertyValue) =>
      p.1 = e.1 ∧ NewPropertyValueRepl none none e.2 = some p.2) (PropertyMap.toHost pm) pm := by
  induction pm with
  | nil => exact List.Forall₂.nil
  | cons p rest ih =>
    refine List.Forall₂.cons ⟨rfl, ?_⟩ ih
    simp [NewPropertyValueRepl, replaceValue]

theorem newPropertyValue_toHost (pm : PropertyMap) (hpm : PropertyMap.WF pm) :
    NewPropertyValue (Host.stringMap (PropertyMap.toHost pm)) = some (NewObjectProperty pm) := by
  have hkeys : (PropertyMap.toHost pm).map Prod.fst = PropertyMap.keys pm := by
    simp [PropertyMap.toHost, PropertyMap.keys, Function.comp_def]
  have h := (entries_eq_some_iff none none (fun _ => rfl) (PropertyMap.toHost pm) [] pm
    (by rw [hkeys]; exact hpm) (by simp)).mpr ⟨pm, by simp, entries_toHost pm⟩
  rw [newPropertyValue_stringMap, h]
  rfl

theorem newPropertyValue_of_isStruct (q : Host) (hq : q.IsStruct = true) :
    NewPropertyValue q = none ∨ ∃ o, NewPropertyValue q = some (PropertyValue.object o) := by
  cases q <;> simp [Host.IsStruct] at hq
  case struct fields =>
    rw [newPropertyValue_struct]
    cases NewPropertyValueRepl.entries none none fields [] with
    | none => exact Or.inl rfl
    | some o => exact Or.inr ⟨o, rfl⟩
  case unmappableStruct => exact Or.inl rfl

theorem newPropertyValue_struct_ne_secret (q : Host) (addr : Addr) (e : PropertyValue)
    (hq : Host.MayPointTo (Host.secret addr ⟨e⟩) q) :
    NewPropertyValue q ≠ NewPropertyValue (Host.secret addr ⟨e⟩) := by
  have hs : NewPropertyValue (Host.secret addr ⟨e⟩) = some (PropertyValue.secret addr e) := rfl
  rw [hs]
  rcases newPropertyValue_of_isStruct q hq with h | ⟨o, h⟩
  · rw [h]
    intro hc
    cases hc
  · rw [h]
    intro hc
    cases hc

/-- C16, as the code has it: `NewPropertyValue` (no hooks) is structure-preserving.  Nil gives
Null; a nil pointer of a type other than `*asset.Asset`, `*archive.Archive` and `*Secret` gives
Null and a non-nil pointer of such a type gives the conversion of its pointee; a sequence gives
an Array of the same length whose i-th element is `NewPropertyValue` of the i-th host element;
a string-keyed map gives an Object with exactly the same keys whose value at `k` is
`NewPropertyValue` of the host value at `k`; a host value that is already a PropertyValue is
kept as is, so `NewPropertyValue(NewPropertyValue(h)) = NewPropertyValue(h)`; a sequence of
PropertyValues gives the Array of them, and `NewPropertyValue(m) = NewObjectProperty(m)` for a
PropertyMap `m`, also when it is nested in a host map; and a non-nil `*asset.Asset`,
`*archive.Archive` or `*Secret` is kept as the payload of an Asset, Archive or Secret value, the
Secret with the same reference, rather than converted through what it points to. -/
theorem newPropertyValue_preserves_structure (h : Host) (xs : List Host) (m : HostMap)
    (pm : PropertyMap) (pv : PropertyValue) (vs : List PropertyValue) (key : String)
    (hm : (m.map Prod.fst).Nodup) (hpm : PropertyMap.WF pm) :
    NewPropertyValue Host.nil = some NewNullProperty ∧
    NewPropertyValue Host.nilPointer = some NewNullProperty ∧
    NewPropertyValue (Host.pointer h) = NewPropertyValue h ∧
    (∀ r, NewPropertyValue (Host.sequence xs) = some r ↔
      ∃ ys, r = NewArrayProperty ys ∧ ys.length = xs.length ∧
        List.Forall₂ (fun x y => NewPropertyValue x = some y) xs ys) ∧
    (∀ r, NewPropertyValue (Host.stringMap m) = some r →
      ∃ o : PropertyMap, r = NewObjectProperty o ∧
        PropertyMap.keys o = m.map Prod.fst ∧
        ∀ k x, mapGet m k = some x →
          ∃ y, PropertyMap.get? o k = some y ∧ NewPropertyValue x = some y) ∧
    (NewPropertyValue (Host.stringMap m) = none ↔ ∃ e ∈ m, NewPropertyValue e.2 = none) ∧
    NewPropertyValue (Host.propertyValue pv) = some pv ∧
    (NewPropertyValue h).bind (fun r => NewPropertyValue (Host.propertyValue r)) =
      NewPropertyValue h ∧
    NewPropertyValue (Host.sequence (vs.map Host.propertyValue)) = some (NewArrayProperty vs) ∧
    NewPropertyValue (Host.stringMap (PropertyMap.toHost pm)) = some (NewObjectProperty pm) ∧
    NewPropertyMapFromMap [(key, Host.stringMap (PropertyMap.toHost pm))] =
      some [(key, NewObjectProperty pm)] ∧
    (∀ a : Asset, NewPropertyValue (Host.asset a) = some (PropertyValue.asset a)) ∧
    (∀ a : Archive, NewPropertyValue (Host.archive a) = some (PropertyValue.archive a)) ∧
    (∀ (addr : Addr) (e : PropertyValue),
      NewPropertyValue (Host.secret addr ⟨e⟩) = some (PropertyValue.secret addr e)) ∧
    (∀ (addr : Addr) (e : PropertyValue) (q : Host),
      Host.MayPointTo (Host.secret addr ⟨e⟩) q →
        NewPropertyValue q ≠ NewPropertyValue (Host.secret addr ⟨e⟩)) := by
  refine ⟨rfl, rfl, newPropertyValue_pointer h, ?_, ?_, ?_, rfl, ?_, ?_,
    newPropertyValue_toHost pm hpm, ?_, fun _ => rfl, fun _ => rfl, fun _ _ => rfl,
    fun addr e q hq => newPropertyValue_struct_ne_secret q addr e hq⟩
  · intro r
    rw [newPropertyValue_sequence]
    constructor
    · intro hr
      obtain ⟨ys, hys, rfl⟩ := Option.map_eq_some'.mp hr
      have hf := (elements_eq_some_iff none none xs ys).mp hys
      exact ⟨ys, rfl, hf.length_eq.symm, hf⟩
    · rintro ⟨ys, rfl, _, hf⟩
      rw [(elements_eq_some_iff none none xs ys).mpr hf]
      rfl
  · intro r hr
    rw [newPropertyValue_stringMap] at hr
    obtain ⟨o, ho, rfl⟩ := Option.map_eq_some'.mp hr
    obtain ⟨o', ho', hf⟩ := (entries_eq_some_iff none none (fun _ => rfl) m [] o hm
      (by simp)).mp ho
    simp only [List.nil_append] at ho'
    subst ho'
    have hl := forall₂_entries_lookup (fun x y => NewPropertyValueRepl none none x = some y)
      m o hf
    refine ⟨o, rfl, hl.1, ?_⟩
    intro k x hget
    obtain ⟨y, hy, hxy⟩ := hl.2 k x hget
    exact ⟨y, by rw [get?_eq_mapGet]; exact hy, hxy⟩
  · rw [newPropertyValue_stringMap, Option.map_eq_none', entries_eq_none_iff]
    rfl
  · cases hh : NewPropertyValue h with
    | none => rfl
    | some r => rfl
  · rw [newPropertyValue_sequence]
    have : NewPropertyValueRepl.elements none none (vs.map Host.propertyValue) = some vs := by
      rw [elements_eq_some_iff]
      induction vs with
      | nil => exact List.Forall₂.nil
      | cons v rest ih =>
        exact List.Forall₂.cons (by simp [NewPropertyValueRepl, replaceValue]) ih
    rw [this]
    rfl
  · have hn := newPropertyValue_toHost pm hpm
    simp only [NewPropertyValue] at hn
    simp [NewPropertyMapFromMap, NewPropertyMapFromMapRepl, NewPropertyValueRepl.entries, hn,
      mapSet, replaceKey]

/-- C16 at the host map `{"b": nil, "a": [true]}` and the PropertyMap `{"x": "y"}`. -/
theorem newPropertyValue_preserves_structure_witness :
    NewPropertyValue (Host.stringMap [("b", Host.nil), ("a", Host.sequence [Host.bool true])]) =
      some (NewObjectProperty
        [("b", NewNullProperty), ("a", NewArrayProperty [NewBoolProperty true])]) ∧
    NewPropertyValue (Host.stringMap (PropertyMap.toHost [("x", NewStringProperty "y")])) =
      some (NewObjectProperty [("x", NewStringProperty "y")]) := by
  have h := newPropertyValue_preserves_structure Host.nil []
    [("b", Host.nil), ("a", Host.sequence [Host.bool true])] [("x", NewStringProperty "y")]
    NewNullProperty [] "data" (by decide) (by simp [PropertyMap.WF, PropertyMap.keys])
  exact ⟨rfl, h.2.2.2.2.2.2.2.2.2.1⟩

/-! ## Replacement hooks -/

theorem mapGet_map_values {β γ : Type} (f : β → γ) (m : List (String × β)) (k : String) :
    mapGet (m.map (fun e => (e.1, f e.2))) k = (mapGet m k).map f := by
  induction m with
  | nil => rfl
  | cons e rest ih =>
    obtain ⟨k', x⟩ := e
    by_cases hk : k' = k <;> simp [mapGet, hk, ih]

theorem mapGet_of_mem_keys {β : Type} (m : List (String × β)) (k : String)
    (hk : k ∈ m.map Prod.fst) : ∃ x, mapGet m k = some x := by
  induction m with
  | nil => simp at hk
  | cons e rest ih =>
    obtain ⟨k', x⟩ := e
    by_cases hkk : k' = k
    · exact ⟨x, by simp [mapGet, hkk]⟩
    · have : k ∈ rest.map Prod.fst := by
        simp only [List.map_cons, List.mem_cons] at hk
        rcases hk with hk | hk
        · exact absurd hk.symm hkk
        · exact hk
      obtain ⟨y, hy⟩ := ih this
      exact ⟨y, by simp [mapGet, hkk, hy]⟩

theorem mapRepl_loop_nil_hook (conv : HostMap) (ks : List PropertyKey) (obj : HostMap)
    (hks : ks.Nodup) (hd : ∀ k ∈ ks, k ∉ obj.map Prod.fst) :
    PropertyMap.MapRepl.loop none conv ks obj =
      obj ++ ks.map (fun k => (k, (mapGet conv k).getD Host.nil)) := by
  induction ks generalizing obj with
  | nil => simp [PropertyMap.MapRepl.loop]
  | cons k ks ih =>
    obtain ⟨hk, hks'⟩ := List.nodup_cons.mp hks
    have hkobj : k ∉ obj.map Prod.fst := hd k (by simp)
    simp only [PropertyMap.MapRepl.loop, mapReplaceKey]
    rw [mapSet_of_not_mem obj k _ hkobj, ih _ hks']
    · simp
    · intro k' hk' hmem
      simp only [List.map_append, List.map_cons, List.map_nil, List.mem_append,
        List.mem_singleton] at hmem
      rcases hmem with hmem | rfl
      · exact hd k' (by simp [hk']) hmem
      · exact hk hk'

theorem structEq_elements_iff (xs ys : List Host) :
    Host.StructEq.elements xs ys ↔ List.Forall₂ Host.StructEq xs ys := by
  induction xs generalizing ys with
  | nil =>
    cases ys with
    | nil => simp [Host.StructEq.elements]
    | cons y ys => simp [Host.StructEq.elements]
  | cons x xs ih =>
    cases ys with
    | nil => simp [Host.StructEq.elements]
    | cons y ys => simp [Host.StructEq.elements, ih]

theorem structEq_entries_iff (m m' : HostMap) :
    Host.StructEq.entries m m' ↔
      ∀ e ∈ m, ∃ y, mapGet m' e.1 = some y ∧ Host.StructEq e.2 y := by
  induction m with
  | nil => simp [Host.StructEq.entries]
  | cons e rest ih =>
    obtain ⟨k, x⟩ := e
    simp [Host.StructEq.entries, ih]

theorem widen_elements_eq_map (xs : List Host) :
    Host.widen.elements xs = xs.map Host.widen := by
  induction xs with
  | nil => rfl
  | cons x xs ih => simp [Host.widen.elements, ih]

theorem widen_entries_eq_map (m : HostMap) :
    Host.widen.entries m = m.map (fun e => (e.1, Host.widen e.2)) := by
  induction m with
  | nil => rfl
  | cons e rest ih =>
    obtain ⟨k, x⟩ := e
    simp [Host.widen.entries, ih]

theorem widen_of_isJSONLike :
    ∀ h : Host, Host.IsJSONLike false h = true → Host.widen h = h := by
  refine Host.structuralInduction ?_ ?_ ?_ ?_ ?_ ?_ ?_ ?_ ?_ ?_ ?_ ?_ ?_ ?_ ?_ ?_ ?_ ?_ ?_ ?_ ?_ ?_
  case refine_14 =>
    intro xs ih h
    simp only [Host.IsJSONLike, isJSONLike_elements_iff] at h
    simp only [Host.widen, widen_elements_eq_map, Host.sequence.injEq]
    have : xs.map Host.widen = xs.map id :=
      List.map_congr_left (fun x hx => by rw [ih x hx (h x hx)]; rfl)
    simpa using this
  case refine_17 =>
    intro m ih h
    simp only [Host.IsJSONLike, Bool.and_eq_true, isJSONLike_entries_iff] at h
    simp only [Host.widen, widen_entries_eq_map, Host.stringMap.injEq]
    have : m.map (fun e => (e.1, Host.widen e.2)) = m.map id :=
      List.map_congr_left (fun e he => by rw [ih e he (h.2 e he)]; rfl)
    simpa using this
  case refine_3 =>
    intro t n h
    simp [Host.IsJSONLike] at h
  all_goals intros; simp_all [Host.IsJSONLike, Host.widen]

theorem forall₂_of_forall_exists {β γ : Type} (R : β → γ → Prop) (xs : List β)
    (h : ∀ x ∈ xs, ∃ y, R x y) : ∃ ys, List.Forall₂ R xs ys := by
  induction xs with
  | nil => exact ⟨[], List.Forall₂.nil⟩
  | cons x xs ih =>
    obtain ⟨y, hy⟩ := h x (by simp)
    obtain ⟨ys, hys⟩ := ih (fun z hz => h z (by simp [hz]))
    exact ⟨y :: ys, List.Forall₂.cons hy hys⟩

theorem mappable_propertyMap (o : PropertyMap) (ho : PropertyMap.WF o) :
    PropertyMap.Mappable o =
      (PropertyMap.StableKeys o).map (fun k =>
        (k, ((mapGet o k).map PropertyValue.Mappable).getD Host.nil)) := by
  have hp : (PropertyMap.StableKeys o).Perm (PropertyMap.keys o) := sortSlice_perm _ _
  have hn : (PropertyMap.StableKeys o).Nodup := hp.nodup_iff.mpr ho
  simp only [PropertyMap.Mappable, PropertyMap.MapRepl, mapRepl_values_eq_map]
  rw [mapRepl_loop_nil_hook _ _ [] hn (by simp)]
  simp only [List.nil_append]
  apply List.map_congr_left
  intro k _
  rw [mapGet_map_values]
  rfl

theorem roundtrip_of_isJSONLike (ints : Bool) :
    ∀ h : Host, Host.IsJSONLike ints h = true →
      ∃ pv, NewPropertyValue h = some pv ∧ Host.StructEq pv.Mappable (Host.widen h) := by
  refine Host.structuralInduction ?_ ?_ ?_ ?_ ?_ ?_ ?_ ?_ ?_ ?_ ?_ ?_ ?_ ?_ ?_ ?_ ?_ ?_ ?_ ?_ ?_ ?_
  case refine_1 =>
    intro _
    exact ⟨NewNullProperty, rfl, by simp [NewNullProperty, PropertyValue.Mappable,
      PropertyValue.MapRepl, mapReplaceValue, Host.widen, Host.StructEq]⟩
  case refine_2 =>
    intro b _
    exact ⟨NewBoolProperty b, rfl, by simp [NewBoolProperty, PropertyValue.Mappable,
      PropertyValue.MapRepl, mapReplaceValue, Host.widen, Host.StructEq]⟩
  case refine_3 =>
    intro t n h
    simp only [Host.IsJSONLike, Bool.and_eq_true] at h
    refine ⟨NewNumberProperty (Float64.ofInt n), ?_, ?_⟩
    · cases t <;> first | rfl | (exact absurd h.2 (by simp [IntType.InTypeSwitch]))
    · simp [NewNumberProperty, PropertyValue.Mappable, PropertyValue.MapRepl, mapReplaceValue,
        Host.widen, Host.StructEq]
  case refine_5 =>
    intro f _
    exact ⟨NewNumberProperty f, rfl, by simp [NewNumberProperty, PropertyValue.Mappable,
      PropertyValue.MapRepl, mapReplaceValue, Host.widen, Host.StructEq]⟩
  case refine_6 =>
    intro s _
    exact ⟨NewStringProperty s, rfl, by simp [NewStringProperty, PropertyValue.Mappable,
      PropertyValue.MapRepl, mapReplaceValue, Host.widen, Host.StructEq]⟩
  case refine_14 =>
    intro xs ih h
    simp only [Host.IsJSONLike, isJSONLike_elements_iff] at h
    obtain ⟨ys, hys⟩ := forall₂_of_forall_exists
      (fun x y => NewPropertyValue x = some y ∧ Host.StructEq y.Mappable (Host.widen x)) xs
      (fun x hx => ih x hx (h x hx))
    refine ⟨NewArrayProperty ys, ?_, ?_⟩
    · rw [newPropertyValue_sequence,
        (elements_eq_some_iff none none xs ys).mpr (hys.imp (fun _ _ hxy => hxy.1))]
      rfl
    · have hm : (NewArrayProperty ys).Mappable = Host.sequence (ys.map PropertyValue.Mappable) := by
        simp only [NewArrayProperty, PropertyValue.Mappable, PropertyValue.MapRepl,
          mapReplaceValue, mapRepl_elements_eq_map]
        rfl
      rw [hm]
      simp only [Host.widen, Host.StructEq, widen_elements_eq_map, structEq_elements_iff]
      clear hm h ih
      induction hys with
      | nil => exact List.Forall₂.nil
      | cons hxy _ ih' => exact List.Forall₂.cons hxy.2 ih'
  case refine_17 =>
    intro m ih h
    simp only [Host.IsJSONLike, Bool.and_eq_true, decide_eq_true_eq, isJSONLike_entries_iff] at h
    obtain ⟨hnodup, hj⟩ := h
    obtain ⟨o, ho⟩ := forall₂_of_forall_exists
      (fun (e : String × Host) (p : PropertyKey × PropertyValue) => p.1 = e.1 ∧
        (NewPropertyValue e.2 = some p.2 ∧ Host.StructEq p.2.Mappable (Host.widen e.2))) m
      (fun e he => by
        obtain ⟨y, hy⟩ := ih e he (hj e he)
        exact ⟨(e.1, y), rfl, hy⟩)
    have hl := forall₂_entries_lookup
      (fun x y => NewPropertyValue x = some y ∧ Host.StructEq y.Mappable (Host.widen x)) m o ho
    have hwf : PropertyMap.WF o := by
      simp only [PropertyMap.WF, PropertyMap.keys, hl.1]
      exact hnodup
    refine ⟨NewObjectProperty o, ?_, ?_⟩
    · rw [newPropertyValue_stringMap,
        (entries_eq_some_iff none none (fun _ => rfl) m [] o hnodup (by simp)).mpr
          ⟨o, by simp, ho.imp (fun _ _ hep => ⟨hep.1, hep.2.1⟩)⟩]
      rfl
    · have hm : (NewObjectProperty o).Mappable = Host.stringMap (PropertyMap.Mappable o) := rfl
      have hp : (PropertyMap.StableKeys o).Perm (PropertyMap.keys o) := sortSlice_perm _ _
      rw [hm, mappable_propertyMap o hwf]
      simp only [Host.widen, Host.StructEq, widen_entries_eq_map, structEq_entries_iff,
        List.length_map]
      refine ⟨?_, ?_⟩
      · rw [hp.length_eq]
        have := congrArg List.length hl.1
        simpa [PropertyMap.keys] using this
      · intro e he
        obtain ⟨k, hk, rfl⟩ := List.mem_map.mp he
        have hk' : k ∈ m.map Prod.fst := by
          rw [← hl.1]
          exact hp.mem_iff.mp hk
        obtain ⟨x, hx⟩ := mapGet_of_mem_keys m k hk'
        obtain ⟨y, hy, _, hxy⟩ := hl.2 k x hx
        refine ⟨Host.widen x, ?_, ?_⟩
        · rw [mapGet_map_values, hx]
          rfl
        · simp only [hy, Option.map_some', Option.getD_some]
          exact hxy
  all_goals intros; simp_all [Host.IsJSONLike]

/-- C13, as the code has it: round trip host → PropertyValue → host.  For every JSON-like host
value `h` (nil, bool, float64, string, a sequence of such values, or a string-keyed map of such
values, nested to any depth; with `ints` set also integers of the types `int`, `uint`, `int32`,
`uint32`, `int64` and `uint64`, the ones that the type switch lists), `NewPropertyValue(h)`
succeeds and its `Mappable()` is structurally equal to `h` with each integer replaced by the
corresponding float, which is `h` itself when `h` contains no integer; likewise
`NewPropertyMapFromMap(m).Mappable()` for every such map `m`.  The integer `-12` becomes the
float `-12.0`. -/
theorem mappable_newPropertyValue_roundtrip (ints : Bool) (h : Host) (m : HostMap)
    (hh : Host.IsJSONLike ints h = true)
    (hm : Host.IsJSONLike ints (Host.stringMap m) = true) :
    (∃ pv, NewPropertyValue h = some pv ∧ Host.StructEq pv.Mappable (Host.widen h)) ∧
    (∃ pm, NewPropertyMapFromMap m = some pm ∧
      Host.StructEq (Host.stringMap (PropertyMap.Mappable pm))
        (Host.widen (Host.stringMap m))) ∧
    (ints = false → Host.widen h = h ∧ Host.widen (Host.stringMap m) = Host.stringMap m) ∧
    Host.widen (Host.integer IntType.int (-12)) = Host.float64 ⟨0xC028000000000000⟩ := by
  refine ⟨roundtrip_of_isJSONLike ints h hh, ?_, ?_, ?_⟩
  · obtain ⟨pv, hpv, heq⟩ := roundtrip_of_isJSONLike ints (Host.stringMap m) hm
    rw [newPropertyValue_stringMap] at hpv
    obtain ⟨pm, hpm, rfl⟩ := Option.map_eq_some'.mp hpv
    exact ⟨pm, hpm, heq⟩
  · intro hi
    subst hi
    exact ⟨widen_of_isJSONLike h hh, widen_of_isJSONLike _ hm⟩
  · simp only [Host.widen]
    congr 1

/-- C13 on the primitive round-trip scenario, whose `integer: -12` comes back as the float
`-12.0`. -/
theorem mappable_newPropertyValue_roundtrip_witness :
    Host.IsJSONLike true (Host.stringMap primitiveScenario) = true ∧
    (∃ pm, NewPropertyMapFromMap primitiveScenario = some pm ∧
      Host.StructEq (Host.stringMap (PropertyMap.Mappable pm))
        (Host.widen (Host.stringMap primitiveScenario))) ∧
    NewPropertyMapFromMap primitiveScenario = some
      [("data", NewObjectProperty
        [("boolean", NewBoolProperty false),
         ("float", NewNumberProperty ⟨0x40015C28F5C28F5C⟩),
         ("integer", NewNumberProperty ⟨0xC028000000000000⟩),
         ("string", NewStringProperty "Goodbye"),
         ("boolArray", NewArrayProperty [NewBoolProperty false, NewBoolProperty true]),
         ("stringMap", NewObjectProperty
           [("two", NewStringProperty "turtle doves"),
            ("three", NewStringProperty "french hens")])])] := by
  have hj : Host.IsJSONLike true (Host.stringMap primitiveScenario) = true := by decide
  exact ⟨hj, (mappable_newPropertyValue_roundtrip true _ primitiveScenario hj hj).2.1, rfl⟩

/-! ## `MakeOutput` -/

/-- C29: `MakeOutput` always builds an unresolved output.  For every PropertyValue `v` (even a
concrete one such as a String), `MakeOutput(v)` is an Output with element `v`, `known=false`,
`secret=false` and no dependencies, so `MakeOutput(v).ContainsUnknowns()` is true,
`MakeOutput(v).HasValue()` is false, `MakeOutput(v).TypeString()` is
`"output<" + TypeString(v) + ">"`, and `MakeOutput(v).ContainsSecrets()` equals
`v.ContainsSecrets()`. -/
theorem makeOutput_unresolved (fmtRef : URN → PropertyValue → String → String)
    (v : PropertyValue) (s : String) :
    (MakeOutput v).IsOutput = true ∧
    (∃ o, (MakeOutput v).OutputValue = some o ∧ o.Element = v ∧ o.Known = false ∧
      o.Secret = false ∧ o.Dependencies = []) ∧
    (MakeOutput v).ContainsUnknowns = true ∧
    (MakeOutput v).HasValue = false ∧
    (MakeOutput v).TypeString fmtRef = "output<" ++ v.TypeString fmtRef ++ ">" ∧
    (MakeOutput v).ContainsSecrets = v.ContainsSecrets ∧
    (MakeOutput (NewStringProperty s)).ContainsUnknowns = true ∧
    (MakeOutput (NewStringProperty s)).HasValue = false ∧
    (MakeOutput (NewStringProperty s)).TypeString fmtRef = "output<string>" ∧
    (MakeOutput (NewStringProperty s)).ContainsSecrets = false := by
  refine ⟨rfl, ⟨⟨v, false, false, []⟩, rfl, rfl, rfl, rfl, rfl⟩, rfl, rfl, ?_, ?_, rfl, rfl, ?_,
    rfl⟩
  · simp [MakeOutput, NewOutputProperty, PropertyValue.TypeString, MakeComputed,
      NewComputedProperty]
  · simp [MakeOutput, NewOutputProperty, PropertyValue.ContainsSecrets]
  · simp [MakeOutput, NewOutputProperty, PropertyValue.TypeString, MakeComputed,
      NewComputedProperty, NewStringProperty]

/-! ## `AreCompatible` is an equivalence -/

/-- C30: `AreCompatible` is an equivalence relation on secrets Managers, nil included:
`AreCompatible(a, a)` is true for every `a`, `AreCompatible(a, b) = AreCompatible(b, a)` for all
`a` and `b`, and `AreCompatible(a, b)` and `AreCompatible(b, c)` together imply
`AreCompatible(a, c)`. -/
theorem areCompatible_equivalence (a b c : Option Manager) :
    AreCompatible a a = true ∧
    AreCompatible a b = AreCompatible b a ∧
    (AreCompatible a b = true → AreCompatible b c = true → AreCompatible a c = true) := by
  refine ⟨?_, ?_, ?_⟩
  · cases a <;> simp [AreCompatible, bytesEqual]
  · cases a with
    | none => cases b <;> simp [AreCompatible]
    | some x =>
      cases b with
      | none => simp [AreCompatible]
      | some y =>
        obtain ⟨tx, sx⟩ := x
        obtain ⟨ty, sy⟩ := y
        have hb : bytesEqual sx sy = bytesEqual sy sx := BEq.comm
        by_cases h : tx = ty
        · subst h
          simp only [AreCompatible, ne_eq, not_true_eq_false, if_false, hb]
        · have h' : ¬ ty = tx := fun e => h e.symm
          simp [AreCompatible, h, h']
  · cases a with
    | none =>
      cases b with
      | none => intro _ h; exact h
      | some y => intro h; simp [AreCompatible] at h
    | some x =>
      cases b with
      | none => intro h; simp [AreCompatible] at h
      | some y =>
        cases c with
        | none => intro _ h; simp [AreCompatible] at h
        | some z =>
          obtain ⟨tx, sx⟩ := x
          obtain ⟨ty, sy⟩ := y
          obtain ⟨tz, sz⟩ := z
          intro h₁ h₂
          by_cases hxy : tx = ty
          · by_cases hyz : ty = tz
            · subst hxy
              subst hyz
              simp only [AreCompatible, bytesEqual, ne_eq, not_true_eq_false, if_false,
                beq_iff_eq] at h₁ h₂ ⊢
              exact h₁.trans h₂
            · simp [AreCompatible, hyz] at h₂
          · simp [AreCompatible, hxy] at h₁

/-! ## `ReqError` -/

/-- C24: the required-property error is distinct and inspectable.  For every property key `k`,
the error `&ReqError{K: k}` satisfies `IsReqError`, carries `k`, and its message is exactly
`required property '<k>' is missing`; `IsReqError` returns false for nil and for every error
that is not itself a `*ReqError` (also for one that wraps a `*ReqError`). -/
theorem reqError_inspectable (k : PropertyKey) (addr : Addr) (err : GoError)
    (message text : String) :
    IsReqError (some (GoError.reqError addr ⟨k⟩)) = true ∧
    (ReqError.mk k).K = k ∧
    (GoError.reqError addr ⟨k⟩).Error = "required property '" ++ k ++ "' is missing" ∧
    (GoError.reqError addr ⟨"name"⟩).Error = "required property 'name' is missing" ∧
    IsReqError none = false ∧
    (IsReqError (some err) = true ↔ ∃ a e, err = GoError.reqError a e) ∧
    IsReqError (some (GoError.errorString message)) = false ∧
    IsReqError (some (GoError.wrapError text (GoError.reqError addr ⟨k⟩))) = false := by
  refine ⟨rfl, rfl, rfl, ?_, rfl, ?_, rfl, rfl⟩
  · simp [GoError.Error, ReqError.Error]
  · cases err <;> simp [IsReqError]

/-! ## Assignment to a map -/

theorem mapGet_mapSet {β : Type} (m : List (String × β)) (k k' : String) (v : β) :
    mapGet (mapSet m k v) k' = if k = k' then some v else mapGet m k' := by
  induction m with
  | nil => simp [mapSet, mapGet]
  | cons e rest ih =>
    obtain ⟨k₀, v₀⟩ := e
    by_cases h₀ : k₀ = k
    · subst h₀
      by_cases h₁ : k₀ = k' <;> simp [mapSet, mapGet, h₁]
    · by_cases h₁ : k₀ = k'
      · subst h₁
        have : ¬ k = k₀ := fun e => h₀ e.symm
        simp [mapSet, mapGet, h₀, this]
      · simp [mapSet, mapGet, h₀, h₁, ih]

theorem mem_keys_mapSet {β : Type} (m : List (String × β)) (k k' : String) (v : β) :
    k' ∈ (mapSet m k v).map Prod.fst ↔ k' = k ∨ k' ∈ m.map Prod.fst := by
  induction m with
  | nil => simp [mapSet]
  | cons e rest ih =>
    obtain ⟨k₀, v₀⟩ := e
    by_cases h₀ : k₀ = k
    · subst h₀
      simp [mapSet]
    · simp only [mapSet, h₀, if_false, List.map_cons, List.mem_cons, ih]
      constructor
      · rintro (h | h | h)
        · exact Or.inr (Or.inl h)
        · exact Or.inl h
        · exact Or.inr (Or.inr h)
      · rintro (h | h | h)
        · exact Or.inr (Or.inl h)
        · exact Or.inl h
        · exact Or.inr (Or.inr h)

theorem nodup_keys_mapSet {β : Type} (m : List (String × β)) (k : String) (v : β)
    (hm : (m.map Prod.fst).Nodup) : ((mapSet m k v).map Prod.fst).Nodup := by
  induction m with
  | nil => simp [mapSet]
  | cons e rest ih =>
    obtain ⟨k₀, v₀⟩ := e
    simp only [List.map_cons, List.nodup_cons] at hm
    by_cases h₀ : k₀ = k
    · subst h₀
      simpa [mapSet] using hm
    · simp only [mapSet, h₀, if_false, List.map_cons, List.nodup_cons]
      refine ⟨?_, ih hm.2⟩
      intro hmem
      rcases (mem_keys_mapSet rest k k₀ v).mp hmem with h | h
      · exact h₀ h
      · exact hm.1 h

/-! ## `Copy` -/

theorem copy_loop_eq_append (m new : PropertyMap) (hm : (m.map Prod.fst).Nodup)
    (hd : ∀ k ∈ m.map Prod.fst, k ∉ new.map Prod.fst) :
    PropertyMap.Copy.loop m new = new ++ m := by
  induction m generalizing new with
  | nil => simp [PropertyMap.Copy.loop]
  | cons e rest ih =>
    obtain ⟨k, v⟩ := e
    simp only [List.map_cons, List.nodup_cons] at hm
    simp only [PropertyMap.Copy.loop]
    rw [mapSet_of_not_mem new k v (hd k (by simp)), ih _ hm.2]
    · simp
    · intro k' hk' hmem
      simp only [List.map_append, List.map_cons, List.map_nil, List.mem_append,
        List.mem_singleton] at hmem
      rcases hmem with hmem | rfl
      · exact hd k' (by simp [hk']) hmem
      · exact hm.1 hk'

/-- C23: for a map `m` (each key held once), `m.Copy()` is a new map with exactly the keys of
`m` and, under each key, the identical value; a Secret value in the copy holds the same Secret
reference as in `m`, also in a copy of the copy; and adding or replacing a key in the copy
leaves `m` unchanged. -/
theorem copy_is_shallow (m : PropertyMap) (h : MapHeap) (a : Addr) (k : PropertyKey)
    (v : PropertyValue) (hm : PropertyMap.WF m) (ha : h.load a = some m) :
    PropertyMap.keys (PropertyMap.Copy m) = PropertyMap.keys m ∧
    (∀ k', PropertyMap.get? (PropertyMap.Copy m) k' = PropertyMap.get? m k') ∧
    (∀ k' addr e, PropertyMap.get? m k' = some (PropertyValue.secret addr e) →
      PropertyMap.get? (PropertyMap.Copy m) k' = some (PropertyValue.secret addr e) ∧
      PropertyMap.get? (PropertyMap.Copy (PropertyMap.Copy m)) k' =
        some (PropertyValue.secret addr e)) ∧
    (∃ h₁ c, h.Copy a = some (h₁, c) ∧ c ≠ a ∧
      h₁.load c = some (PropertyMap.Copy m) ∧
      h₁.load a = some m ∧
      (h₁.assign c k v).load a = some m ∧
      (h₁.assign c k v).load c = some (mapSet (PropertyMap.Copy m) k v)) := by
  have hc : PropertyMap.Copy m = m := by
    simp only [PropertyMap.Copy]
    rw [copy_loop_eq_append m [] hm (by simp)]
    simp
  have hlt : a < h.cells.length := by
    simp only [MapHeap.load] at ha
    exact (List.getElem?_eq_some_iff.mp ha).1
  refine ⟨by rw [hc], fun k' => by rw [hc], ?_, ?_⟩
  · intro k' addr e hk
    rw [hc, hc]
    exact ⟨hk, hk⟩
  · have hne : h.cells.length ≠ a := Nat.ne_of_gt hlt
    have hload_c : (h.make (PropertyMap.Copy m)).1.load h.cells.length =
        some (PropertyMap.Copy m) := by
      simp [MapHeap.make, MapHeap.load]
    have hload_a : (h.make (PropertyMap.Copy m)).1.load a = some m := by
      simp only [MapHeap.make, MapHeap.load] at ha ⊢
      rw [List.getElem?_append_left hlt]
      exact ha
    refine ⟨(h.make (PropertyMap.Copy m)).1, h.cells.length, ?_, hne, hload_c, hload_a, ?_, ?_⟩
    · simp [MapHeap.Copy, ha, MapHeap.make]
    · simp only [MapHeap.assign, hload_c]
      simp only [MapHeap.load] at hload_a ⊢
      rw [List.getElem?_set_ne hne]
      exact hload_a
    · simp only [MapHeap.assign, hload_c]
      simp only [MapHeap.load]
      rw [List.getElem?_set_self]
      simp [MapHeap.make]

/-! ## `GetStackResourceOutputs` -/

theorem resourceOutputs_loop_append (xs ys : List State) (pm : PropertyMap) :
    backendClient.GetStackResourceOutputs.loop (xs ++ ys) pm =
      backendClient.GetStackResourceOutputs.loop ys
        (backendClient.GetStackResourceOutputs.loop xs pm) := by
  induction xs generalizing pm with
  | nil => rfl
  | cons r rest ih =>
    by_cases hr : r.Delete = true
    · simp [backendClient.GetStackResourceOutputs.loop, hr, ih]
    · simp [backendClient.GetStackResourceOutputs.loop, hr, ih]

theorem resourceOutputs_loop_keys (rs : List State) (pm : PropertyMap) (k : PropertyKey) :
    k ∈ PropertyMap.keys (backendClient.GetStackResourceOutputs.loop rs pm) ↔
      k ∈ PropertyMap.keys pm ∨ ∃ r ∈ rs, r.Delete = false ∧ r.URN = k := by
  induction rs generalizing pm with
  | nil => simp [backendClient.GetStackResourceOutputs.loop]
  | cons r rest ih =>
    by_cases hr : r.Delete = true
    · simp [backendClient.GetStackResourceOutputs.loop, hr, ih]
    · simp only [Bool.not_eq_true] at hr
      simp only [backendClient.GetStackResourceOutputs.loop, hr, Bool.false_eq_true, if_false]
      rw [ih]
      simp only [PropertyMap.keys, mem_keys_mapSet, List.mem_cons, exists_eq_or_imp, hr, true_and]
      constructor
      · rintro ((h | h) | h)
        · exact Or.inr (Or.inl h.symm)
        · exact Or.inl h
        · exact Or.inr (Or.inr h)
      · rintro (h | h | h)
        · exact Or.inl (Or.inr h)
        · exact Or.inl (Or.inl h.symm)
        · exact Or.inr h

theorem resourceOutputs_loop_wf (rs : List State) (pm : PropertyMap) (h : PropertyMap.WF pm) :
    PropertyMap.WF (backendClient.GetStackResourceOutputs.loop rs pm) := by
  induction rs generalizing pm with
  | nil => exact h
  | cons r rest ih =>
    by_cases hr : r.Delete = true
    · simpa [backendClient.GetStackResourceOutputs.loop, hr] using ih pm h
    · simp only [Bool.not_eq_true] at hr
      simp only [backendClient.GetStackResourceOutputs.loop, hr, Bool.false_eq_true, if_false]
      exact ih _ (nodup_keys_mapSet pm _ _ h)

theorem resourceOutputs_loop_frame (rs : List State) (pm : PropertyMap) (k : PropertyKey)
    (h : ∀ r ∈ rs, r.Delete = false → r.URN ≠ k) :
    mapGet (backendClient.GetStackResourceOutputs.loop rs pm) k = mapGet pm k := by
  induction rs generalizing pm with
  | nil => rfl
  | cons r rest ih =>
    have hrest : ∀ r' ∈ rest, r'.Delete = false → r'.URN ≠ k :=
      fun r' hr' => h r' (List.mem_cons_of_mem _ hr')
    by_cases hr : r.Delete = true
    · simpa [backendClient.GetStackResourceOutputs.loop, hr] using ih pm hrest
    · simp only [Bool.not_eq_true] at hr
      simp only [backendClient.GetStackResourceOutputs.loop, hr, Bool.false_eq_true, if_false]
      rw [ih _ hrest, mapGet_mapSet]
      simp [h r (List.mem_cons_self _ _) hr]

theorem resourceOutputs_loop_get (rs : List State) (pm : PropertyMap) (k : PropertyKey)
    (v : PropertyValue)
    (h : mapGet (backendClient.GetStackResourceOutputs.loop rs pm) k = some v) :
    mapGet pm k = some v ∨
      ∃ r ∈ rs, r.Delete = false ∧ r.URN = k ∧ v = resourceOutputsEntry r := by
  induction rs generalizing pm with
  | nil => exact Or.inl h
  | cons r rest ih =>
    by_cases hr : r.Delete = true
    · simp only [backendClient.GetStackResourceOutputs.loop, hr, if_true] at h
      rcases ih pm h with h' | ⟨r', hr', h'⟩
      · exact Or.inl h'
      · exact Or.inr ⟨r', List.mem_cons_of_mem _ hr', h'⟩
    · simp only [Bool.not_eq_true] at hr
      simp only [backendClient.GetStackResourceOutputs.loop, hr, Bool.false_eq_true,
        if_false] at h
      rcases ih _ h with h' | ⟨r', hr', h'⟩
      · rw [mapGet_mapSet] at h'
        by_cases hk : r.URN = k
        · simp only [hk, if_true, Option.some.injEq] at h'
          exact Or.inr ⟨r, List.mem_cons_self _ _, hr, hk, h'.symm⟩
        · simp only [hk, if_false] at h'
          exact Or.inl h'
      · exact Or.inr ⟨r', List.mem_cons_of_mem _ hr', h'⟩

/-- C21: `GetStackResourceOutputs` on a stack whose snapshot is read returns, with no error, a
map keyed exactly by the URNs of the resources whose `Delete` flag is false; each value is the
Object with exactly the keys `"type"` (a String of the resource type) and `"outputs"` (an Object
of the resource outputs) of such a resource; a resource with `Delete` set never contributes an
entry; and when several non-deleted resources share a URN the last one in snapshot order is the
one present. -/
theorem getStackResourceOutputs_entries (hp : Helpers) (c : backendClient) (name : String)
    (ref : StackReference) (s : Stack) (snap : Snapshot)
    (hparse : c.backend.ParseStackReference name = .ok ref)
    (hstack : c.backend.GetStack ref = .ok (some s))
    (hsnap : s.Snapshot c.secretsProvider = .ok (some snap)) :
    ∃ pm, (backendClient.GetStackResourceOutputs hp c name).1 = .returned (some pm) none ∧
      PropertyMap.WF pm ∧
      (∀ k, k ∈ PropertyMap.keys pm ↔ ∃ r ∈ snap.Resources, r.Delete = false ∧ r.URN = k) ∧
      (∀ k v, PropertyMap.get? pm k = some v →
        ∃ r ∈ snap.Resources, r.Delete = false ∧ r.URN = k ∧ v = resourceOutputsEntry r ∧
          (∃ o, v = PropertyValue.object o ∧ PropertyMap.keys o = ["type", "outputs"] ∧
            PropertyMap.get? o "type" = some (PropertyValue.string r.Type_) ∧
            PropertyMap.get? o "outputs" = some (PropertyValue.object r.Outputs))) ∧
      (∀ k, (∀ r ∈ snap.Resources, r.URN = k → r.Delete = true) → PropertyMap.get? pm k = none) ∧
      (∀ pre r post, snap.Resources = pre ++ r :: post → r.Delete = false →
        (∀ r' ∈ post, r'.Delete = false → r'.URN ≠ r.URN) →
        PropertyMap.get? pm r.URN = some (resourceOutputsEntry r)) := by
  have hkeys := fun k => resourceOutputs_loop_keys snap.Resources [] k
  refine ⟨backendClient.GetStackResourceOutputs.loop snap.Resources [], ?_, ?_, ?_, ?_, ?_, ?_⟩
  · simp [backendClient.GetStackResourceOutputs, hparse, hstack, hsnap]
  · exact resourceOutputs_loop_wf _ _ (by simp [PropertyMap.WF, PropertyMap.keys])
  · intro k
    rw [hkeys k]
    simp [PropertyMap.keys]
  · intro k v hv
    rw [get?_eq_mapGet] at hv
    rcases resourceOutputs_loop_get _ _ _ _ hv with h | ⟨r, hr, hd, hu, he⟩
    · simp [mapGet] at h
    · refine ⟨r, hr, hd, hu, he, [("type", PropertyValue.string r.Type_),
        ("outputs", PropertyValue.object r.Outputs)], ?_, rfl, ?_, ?_⟩
      · rw [he]
        rfl
      · simp [PropertyMap.get?]
      · simp [PropertyMap.get?]
  · intro k hk
    rw [get?_eq_none_iff, hkeys k]
    rintro (h | ⟨r, hr, hd, hu⟩)
    · simp [PropertyMap.keys] at h
    · rw [hk r hr hu] at hd
      exact Bool.noConfusion hd
  · intro pre r post hres hd hpost
    rw [get?_eq_mapGet, hres, resourceOutputs_loop_append]
    simp only [backendClient.GetStackResourceOutputs.loop, hd, Bool.false_eq_true, if_false]
    rw [resourceOutputs_loop_frame post _ _ hpost, mapGet_mapSet]
    simp [resourceOutputsEntry, NewObjectProperty, NewStringProperty]

theorem getStackResourceOutputs_entries_witness :
    ∃ pm, (backendClient.GetStackResourceOutputs ⟨id, fun _ => .ok none⟩
        ⟨backendOf [resourceRecord "urn:a" "t:A" false [("x", PropertyValue.bool true)],
          resourceRecord "urn:b" "t:B" true [],
          resourceRecord "urn:a" "t:C" false []], SecretsProvider.provider 0⟩ "dev").1 =
        .returned (some pm) none ∧
      PropertyMap.get? pm "urn:a" = some (resourceOutputsEntry (resourceRecord "urn:a" "t:C" false []))
      ∧ PropertyMap.get? pm "urn:b" = none := by
  obtain ⟨pm, h₁, _, _, _, h₅, h₆⟩ := getStackResourceOutputs_entries ⟨id, fun _ => .ok none⟩
    ⟨backendOf [resourceRecord "urn:a" "t:A" false [("x", PropertyValue.bool true)],
      resourceRecord "urn:b" "t:B" true [],
      resourceRecord "urn:a" "t:C" false []], SecretsProvider.provider 0⟩ "dev" ⟨"dev"⟩
    ⟨⟨"dev"⟩, fun _ => .ok (some ⟨[resourceRecord "urn:a" "t:A" false [("x", PropertyValue.bool true)],
      resourceRecord "urn:b" "t:B" true [],
      resourceRecord "urn:a" "t:C" false []]⟩)⟩
    ⟨[resourceRecord "urn:a" "t:A" false [("x", PropertyValue.bool true)],
      resourceRecord "urn:b" "t:B" true [],
      resourceRecord "urn:a" "t:C" false []]⟩ rfl rfl rfl
  refine ⟨pm, h₁, ?_, ?_⟩
  · exact h₆ [resourceRecord "urn:a" "t:A" false [("x", PropertyValue.bool true)],
      resourceRecord "urn:b" "t:B" true []] (resourceRecord "urn:a" "t:C" false []) [] rfl rfl
      (by simp)
  · apply h₅
    intro r hr hu
    simp only [List.mem_cons, List.mem_singleton, List.not_mem_nil, or_false] at hr
    rcases hr with rfl | rfl | rfl
    · simp [resourceRecord] at hu
    · rfl
    · simp [resourceRecord] at hu

/-! ## Errors of the backend client -/

/-- C22: for every stack name, when the backend parses the name and `GetStack` returns no stack
and no error, `GetStackOutputs` and `GetStackResourceOutputs` both return a nil map and an error
whose message is `unknown stack ` followed by the quoted name, having called only
`ParseStackReference` and `GetStack` (no snapshot is read); an error from `ParseStackReference`,
`GetStack` or `Snapshot` is returned unchanged with a nil map; and `GetStackOutputs` returns an
empty map and no error when the snapshot has no root stack resource. -/
theorem client_errors (hp : Helpers) (c : backendClient) (name : String)
    (onDecryptError : GoError → Option GoError) :
    (∀ ref, c.backend.ParseStackReference name = .ok ref → c.backend.GetStack ref = .ok none →
      backendClient.GetStackOutputs hp c name onDecryptError =
        (.returned none (some (.errorString ("unknown stack " ++ hp.quote name))),
          [.ParseStackReference name, .GetStack ref]) ∧
      backendClient.GetStackResourceOutputs hp c name =
        (.returned none (some (.errorString ("unknown stack " ++ hp.quote name))),
          [.ParseStackReference name, .GetStack ref]) ∧
      (GoError.errorString ("unknown stack " ++ hp.quote name)).Error =
        "unknown stack " ++ hp.quote name ∧
      (hp.quote name = plainQuote name →
        (GoError.errorString ("unknown stack " ++ hp.quote name)).Error =
          "unknown stack \"" ++ name ++ "\"")) ∧
    (∀ err, c.backend.ParseStackReference name = .error err →
      (backendClient.GetStackOutputs hp c name onDecryptError).1 = .returned none (some err) ∧
      (backendClient.GetStackResourceOutputs hp c name).1 = .returned none (some err)) ∧
    (∀ ref err, c.backend.ParseStackReference name = .ok ref →
      c.backend.GetStack ref = .error err →
      (backendClient.GetStackOutputs hp c name onDecryptError).1 = .returned none (some err) ∧
      (backendClient.GetStackResourceOutputs hp c name).1 = .returned none (some err)) ∧
    (∀ ref s err, c.backend.ParseStackReference name = .ok ref →
      c.backend.GetStack ref = .ok (some s) →
      s.Snapshot (.errorCatching c.secretsProvider onDecryptError) = .error err →
      (backendClient.GetStackOutputs hp c name onDecryptError).1 = .returned none (some err)) ∧
    (∀ ref s err, c.backend.ParseStackReference name = .ok ref →
      c.backend.GetStack ref = .ok (some s) →
      s.Snapshot c.secretsProvider = .error err →
      (backendClient.GetStackResourceOutputs hp c name).1 = .returned none (some err)) ∧
    (∀ ref s snap, c.backend.ParseStackReference name = .ok ref →
      c.backend.GetStack ref = .ok (some s) →
      s.Snapshot (.errorCatching c.secretsProvider onDecryptError) = .ok snap →
      hp.GetRootStackResource snap = .ok none →
      (backendClient.GetStackOutputs hp c name onDecryptError).1 = .returned (some []) none) ∧
    (backendClient.GetStackOutputs ⟨plainQuote, fun _ => .ok none⟩
        ⟨backendWithoutStacks, SecretsProvider.provider 0⟩ "dev" onDecryptError).1 =
      .returned none (some (.errorString "unknown stack \"dev\"")) ∧
    (backendClient.GetStackResourceOutputs ⟨plainQuote, fun _ => .ok none⟩
        ⟨backendWithoutStacks, SecretsProvider.provider 0⟩ "dev").1 =
      .returned none (some (.errorString "unknown stack \"dev\"")) := by
  refine ⟨?_, ?_, ?_, ?_, ?_, ?_, ?_, ?_⟩
  · intro ref hparse hstack
    refine ⟨?_, ?_, rfl, ?_⟩
    · simp [backendClient.GetStackOutputs, hparse, hstack]
    · simp [backendClient.GetStackResourceOutputs, hparse, hstack]
    · intro hq
      have h₀ : "unknown stack " ++ "\"" = "unknown stack \"" := by decide
      simp only [GoError.Error, hq, plainQuote]
      rw [String.append_assoc, ← String.append_assoc "unknown stack ", h₀, String.append_assoc]
  · intro err hparse
    simp [backendClient.GetStackOutputs, backendClient.GetStackResourceOutputs, hparse]
  · intro ref err hparse hstack
    simp [backendClient.GetStackOutputs, backendClient.GetStackResourceOutputs, hparse, hstack]
  · intro ref s err hparse hstack hsnap
    simp [backendClient.GetStackOutputs, hparse, hstack, hsnap]
  · intro ref s err hparse hstack hsnap
    simp [backendClient.GetStackResourceOutputs, hparse, hstack, hsnap]
  · intro ref s snap hparse hstack hsnap hroot
    simp [backendClient.GetStackOutputs, hparse, hstack, hsnap, hroot]
  · simp [backendClient.GetStackOutputs, backendWithoutStacks, plainQuote]
  · simp [backendClient.GetStackResourceOutputs, backendWithoutStacks, plainQuote]

/-! ## Round trip property value → host → property value -/

theorem mem_of_mapGet {β : Type} (m : List (String × β)) (k : String) (x : β)
    (h : mapGet m k = some x) : (k, x) ∈ m := by
  induction m with
  | nil => simp [mapGet] at h
  | cons e rest ih =>
    obtain ⟨k', x'⟩ := e
    by_cases hk : k' = k
    · simp only [mapGet, hk, if_true, Option.some.injEq] at h
      simp [hk, h]
    · simp only [mapGet, hk, if_false] at h
      exact List.mem_cons_of_mem _ (ih h)

theorem forall₂_exists_left {β γ : Type} (R : β → γ → Prop) (xs : List β) (ys : List γ)
    (h : List.Forall₂ R xs ys) : ∀ y ∈ ys, ∃ x ∈ xs, R x y := by
  induction h with
  | nil => simp
  | cons hxy _ ih =>
    intro y hy
    rcases List.mem_cons.mp hy with rfl | hy
    · exact ⟨_, List.mem_cons_self _ _, hxy⟩
    · obtain ⟨x, hx, hr⟩ := ih y hy
      exact ⟨x, List.mem_cons_of_mem _ hx, hr⟩

theorem pvStructEq_elements_iff (xs ys : List PropertyValue) :
    PropertyValue.StructEq.elements xs ys ↔ List.Forall₂ PropertyValue.StructEq xs ys := by
  induction xs generalizing ys with
  | nil =>
    cases ys with
    | nil => simp [PropertyValue.StructEq.elements]
    | cons y ys => simp [PropertyValue.StructEq.elements]
  | cons x xs ih =>
    cases ys with
    | nil => simp [PropertyValue.StructEq.elements]
    | cons y ys => simp [PropertyValue.StructEq.elements, ih]

theorem pvStructEq_entries_iff (m m' : PropertyMap) :
    PropertyValue.StructEq.entries m m' ↔
      ∀ e ∈ m, ∃ y, mapGet m' e.1 = some y ∧ PropertyValue.StructEq e.2 y := by
  induction m with
  | nil => simp [PropertyValue.StructEq.entries]
  | cons e rest ih =>
    obtain ⟨k, x⟩ := e
    simp [PropertyValue.StructEq.entries, ih]

theorem keysDistinct_elements_iff (xs : List PropertyValue) :
    PropertyValue.KeysDistinct.elements xs = true ↔ ∀ x ∈ xs, x.KeysDistinct = true := by
  induction xs with
  | nil => simp [PropertyValue.KeysDistinct.elements]
  | cons x xs ih => simp [PropertyValue.KeysDistinct.elements, ih]

theorem keysDistinct_entries_iff (m : PropertyMap) :
    PropertyValue.KeysDistinct.entries m = true ↔ ∀ e ∈ m, e.2.KeysDistinct = true := by
  induction m with
  | nil => simp [PropertyValue.KeysDistinct.entries]
  | cons e rest ih =>
    obtain ⟨k, x⟩ := e
    simp [PropertyValue.KeysDistinct.entries, ih]

theorem roundtrip_of_keysDistinct :
    ∀ v : PropertyValue, v.KeysDistinct = true →
      ∃ w, NewPropertyValue v.Mappable = some w ∧ PropertyValue.StructEq w v := by
  refine PropertyValue.induct ?_ ?_ ?_ ?_ ?_ ?_ ?_ ?_ ?_ ?_ ?_ ?_
  case refine_5 =>
    intro xs ih h
    simp only [PropertyValue.KeysDistinct, keysDistinct_elements_iff] at h
    obtain ⟨ys, hys⟩ := forall₂_of_forall_exists
      (fun x y => NewPropertyValue x.Mappable = some y ∧ PropertyValue.StructEq y x) xs
      (fun x hx => ih x hx (h x hx))
    have hm : (PropertyValue.array xs).Mappable =
        Host.sequence (xs.map PropertyValue.Mappable) := by
      simp only [PropertyValue.Mappable, PropertyValue.MapRepl, mapReplaceValue,
        mapRepl_elements_eq_map]
      rfl
    refine ⟨NewArrayProperty ys, ?_, ?_⟩
    · rw [hm, newPropertyValue_sequence,
        (elements_eq_some_iff none none _ ys).mpr
          (List.forall₂_map_left_iff.mpr (hys.imp (fun _ _ hxy => hxy.1)))]
      rfl
    · simp only [NewArrayProperty, PropertyValue.StructEq, pvStructEq_elements_iff]
      clear hm h ih
      induction hys with
      | nil => exact List.Forall₂.nil
      | cons hxy _ ih' => exact List.Forall₂.cons hxy.2 ih'
  case refine_8 =>
    intro m ih h
    simp only [PropertyValue.KeysDistinct, Bool.and_eq_true, decide_eq_true_eq,
      keysDistinct_entries_iff] at h
    obtain ⟨hwf, hvals⟩ := h
    have hp : (PropertyMap.StableKeys m).Perm (PropertyMap.keys m) := sortSlice_perm _ _
    have hn : (PropertyMap.StableKeys m).Nodup := hp.nodup_iff.mpr hwf
    have hm : (PropertyValue.object m).Mappable = Host.stringMap (PropertyMap.Mappable m) := rfl
    obtain ⟨o, ho⟩ := forall₂_of_forall_exists
      (fun (e : String × Host) (p : PropertyKey × PropertyValue) => p.1 = e.1 ∧
        (NewPropertyValue e.2 = some p.2 ∧
          ∃ x, mapGet m e.1 = some x ∧ PropertyValue.StructEq p.2 x))
      (PropertyMap.Mappable m)
      (fun e he => by
        rw [mappable_propertyMap m hwf] at he
        obtain ⟨k, hk, rfl⟩ := List.mem_map.mp he
        obtain ⟨x, hx⟩ := mapGet_of_mem_keys m k (hp.mem_iff.mp hk)
        obtain ⟨w, hw₁, hw₂⟩ := ih (k, x) (mem_of_mapGet m k x hx)
          (hvals _ (mem_of_mapGet m k x hx))
        refine ⟨(k, w), rfl, ?_, x, hx, hw₂⟩
        simp only [hx, Option.map_some', Option.getD_some]
        exact hw₁)
    have hkeys : (PropertyMap.Mappable m).map Prod.fst = PropertyMap.StableKeys m := by
      rw [mappable_propertyMap m hwf]
      simp [Function.comp_def]
    refine ⟨NewObjectProperty o, ?_, ?_⟩
    · rw [hm, newPropertyValue_stringMap,
        (entries_eq_some_iff none none (fun _ => rfl) (PropertyMap.Mappable m) [] o
          (by rw [hkeys]; exact hn) (by simp)).mpr
          ⟨o, by simp, ho.imp (fun _ _ hep => ⟨hep.1, hep.2.1⟩)⟩]
      rfl
    · simp only [NewObjectProperty, PropertyValue.StructEq, pvStructEq_entries_iff]
      refine ⟨?_, ?_⟩
      · rw [← ho.length_eq]
        have := congrArg List.length hkeys
        rw [List.length_map, hp.length_eq] at this
        simpa [PropertyMap.keys] using this
      · intro p hp'
        obtain ⟨e, _, he₁, _, x, hx, hs⟩ := forall₂_exists_left _ _ _ ho p hp'
        exact ⟨x, by rw [he₁]; exact hx, hs⟩
  all_goals
    intros
    simp [PropertyValue.Mappable, PropertyValue.MapRepl, mapReplaceValue, NewPropertyValue,
      NewPropertyValueRepl, replaceValue, PropertyValue.StructEq, NewNullProperty,
      NewBoolProperty, NewNumberProperty, NewStringProperty, NewComputedProperty,
      NewOutputProperty, NewSecretProperty, NewResourceReferenceProperty]

/-- C27: round trip PropertyValue → host → PropertyValue.  For every property value `v` of any
of the twelve variants whose Objects hold each key once, `NewPropertyValue(v.Mappable())`
succeeds and is structurally equal to `v` (Objects compared as maps); it is `v` itself when `v`
is neither an Array nor an Object, whatever it contains, and in particular a Secret comes back
with the same reference; and for every such map `m`, `NewPropertyMapFromMap(m.Mappable())` is
equal to `m`. -/
theorem newPropertyValue_mappable_roundtrip (v : PropertyValue) (m : PropertyMap)
    (hv : v.KeysDistinct = true) (hm : (PropertyValue.object m).KeysDistinct = true) :
    (∃ w, NewPropertyValue v.Mappable = some w ∧ PropertyValue.StructEq w v) ∧
    (v.IsArray = false → v.IsObject = false → NewPropertyValue v.Mappable = some v) ∧
    (∀ addr e, NewPropertyValue (PropertyValue.secret addr e).Mappable =
      some (PropertyValue.secret addr e)) ∧
    (∃ pm, NewPropertyMapFromMap (PropertyMap.Mappable m) = some pm ∧
      PropertyValue.StructEq (PropertyValue.object pm) (PropertyValue.object m)) := by
  refine ⟨roundtrip_of_keysDistinct v hv, ?_, fun _ _ => rfl, ?_⟩
  · intro ha ho
    cases v <;> first | rfl | (simp [PropertyValue.IsArray] at ha; done) |
      simp [PropertyValue.IsObject] at ho
  · obtain ⟨w, hw, heq⟩ := roundtrip_of_keysDistinct (PropertyValue.object m) hm
    have hmap : (PropertyValue.object m).Mappable = Host.stringMap (PropertyMap.Mappable m) :=
      rfl
    rw [hmap, newPropertyValue_stringMap] at hw
    obtain ⟨pm, hpm, rfl⟩ := Option.map_eq_some'.mp hw
    exact ⟨pm, hpm, heq⟩

/-- C27 at an Object that holds a Secret, an Output and an Array with a nested Object: the keys
come back in ascending order, the values as they were. -/
theorem newPropertyValue_mappable_roundtrip_witness :
    (∃ w, NewPropertyValue (PropertyValue.object
        [("s", PropertyValue.secret 7 (PropertyValue.string "pw")),
         ("o", unresolvedOutput (PropertyValue.string "") ["urn:a"]),
         ("a", PropertyValue.array [PropertyValue.object [("y", PropertyValue.null),
            ("x", PropertyValue.computed (PropertyValue.string ""))]])]).Mappable = some w ∧
      PropertyValue.StructEq w (PropertyValue.object
        [("s", PropertyValue.secret 7 (PropertyValue.string "pw")),
         ("o", unresolvedOutput (PropertyValue.string "") ["urn:a"]),
         ("a", PropertyValue.array [PropertyValue.object [("y", PropertyValue.null),
            ("x", PropertyValue.computed (PropertyValue.string ""))]])])) ∧
    (∃ pm, NewPropertyMapFromMap (PropertyMap.Mappable
        [("s", PropertyValue.secret 7 (PropertyValue.string "pw")),
         ("b", PropertyValue.bool true)]) = some pm ∧
      PropertyValue.StructEq (PropertyValue.object pm) (PropertyValue.object
        [("s", PropertyValue.secret 7 (PropertyValue.string "pw")),
         ("b", PropertyValue.bool true)])) :=
  ⟨(newPropertyValue_mappable_roundtrip _
      [("s", PropertyValue.secret 7 (PropertyValue.string "pw")), ("b", PropertyValue.bool true)]
      (by decide) (by decide)).1,
   (newPropertyValue_mappable_roundtrip (PropertyValue.object
        [("s", PropertyValue.secret 7 (PropertyValue.string "pw")),
         ("o", unresolvedOutput (PropertyValue.string "") ["urn:a"]),
         ("a", PropertyValue.array [PropertyValue.object [("y", PropertyValue.null),
            ("x", PropertyValue.computed (PropertyValue.string ""))]])])
      [("s", PropertyValue.secret 7 (PropertyValue.string "pw")), ("b", PropertyValue.bool true)]
      (by decide) (by decide)).2.2.2⟩

/-- C23 at a two-key map with a Secret, stored at address 0 of a heap of one map. -/
theorem copy_is_shallow_witness :
    PropertyMap.WF [("a", PropertyValue.secret 3 (PropertyValue.string "pw")),
      ("b", PropertyValue.bool true)] ∧
    PropertyMap.get? (PropertyMap.Copy (PropertyMap.Copy
      [("a", PropertyValue.secret 3 (PropertyValue.string "pw")),
        ("b", PropertyValue.bool true)])) "a" =
      some (PropertyValue.secret 3 (PropertyValue.string "pw")) ∧
    (∃ h₁ c, (MapHeap.mk [[("a", PropertyValue.secret 3 (PropertyValue.string "pw")),
        ("b", PropertyValue.bool true)]]).Copy 0 = some (h₁, c) ∧ c ≠ 0 ∧
      (h₁.assign c "b" PropertyValue.null).load 0 =
        some [("a", PropertyValue.secret 3 (PropertyValue.string "pw")),
          ("b", PropertyValue.bool true)]) := by
  have hwf : PropertyMap.WF [("a", PropertyValue.secret 3 (PropertyValue.string "pw")),
      ("b", PropertyValue.bool true)] := by
    simp [PropertyMap.WF, PropertyMap.keys]
  obtain ⟨_, _, h₃, h₁, c, h₄, h₅, _, _, h₆, _⟩ := copy_is_shallow
    [("a", PropertyValue.secret 3 (PropertyValue.string "pw")), ("b", PropertyValue.bool true)]
    (MapHeap.mk [[("a", PropertyValue.secret 3 (PropertyValue.string "pw")),
      ("b", PropertyValue.bool true)]]) 0 "b" PropertyValue.null hwf rfl
  exact ⟨hwf, (h₃ "a" 3 (PropertyValue.string "pw") rfl).2, h₁, c, h₄, h₅, h₆⟩

/-! ## `MapRepl` under key merging -/

theorem mapRepl_loop_append (replk : MapReplKey) (conv : HostMap) (xs ys : List PropertyKey)
    (obj : HostMap) :
    PropertyMap.MapRepl.loop replk conv (xs ++ ys) obj =
      PropertyMap.MapRepl.loop replk conv ys (PropertyMap.MapRepl.loop replk conv xs obj) := by
  induction xs generalizing obj with
  | nil => rfl
  | cons k ks ih => simp [PropertyMap.MapRepl.loop, ih]

theorem mapRepl_loop_congr (replk : MapReplKey) (conv conv' : HostMap) (ks : List PropertyKey)
    (obj : HostMap) (h : ∀ k ∈ ks, mapGet conv k = mapGet conv' k) :
    PropertyMap.MapRepl.loop replk conv ks obj = PropertyMap.MapRepl.loop replk conv' ks obj := by
  induction ks generalizing obj with
  | nil => rfl
  | cons k ks ih =>
    simp only [PropertyMap.MapRepl.loop]
    rw [h k (List.mem_cons_self _ _), ih _ (fun k' hk' => h k' (List.mem_cons_of_mem _ hk'))]

theorem mapRepl_loop_keys (replk : MapReplKey) (conv : HostMap) (ks : List PropertyKey)
    (obj : HostMap) (t : String) :
    t ∈ (PropertyMap.MapRepl.loop replk conv ks obj).map Prod.fst ↔
      t ∈ obj.map Prod.fst ∨ ∃ k ∈ ks, mapReplaceKey replk k = t := by
  induction ks generalizing obj with
  | nil => simp [PropertyMap.MapRepl.loop]
  | cons k ks ih =>
    simp only [PropertyMap.MapRepl.loop]
    rw [ih]
    simp only [mem_keys_mapSet, List.mem_cons, exists_eq_or_imp]
    constructor
    · rintro ((h | h) | h)
      · exact Or.inr (Or.inl h.symm)
      · exact Or.inl h
      · exact Or.inr (Or.inr h)
    · rintro (h | h | h)
      · exact Or.inl (Or.inr h)
      · exact Or.inl (Or.inl h.symm)
      · exact Or.inr h

theorem mapRepl_loop_nodup (replk : MapReplKey) (conv : HostMap) (ks : List PropertyKey)
    (obj : HostMap) (h : (obj.map Prod.fst).Nodup) :
    ((PropertyMap.MapRepl.loop replk conv ks obj).map Prod.fst).Nodup := by
  induction ks generalizing obj with
  | nil => exact h
  | cons k ks ih =>
    simp only [PropertyMap.MapRepl.loop]
    exact ih _ (nodup_keys_mapSet obj _ _ h)

theorem mapRepl_loop_frame (replk : MapReplKey) (conv : HostMap) (ks : List PropertyKey)
    (obj : HostMap) (t : String) (h : ∀ k ∈ ks, mapReplaceKey replk k ≠ t) :
    mapGet (PropertyMap.MapRepl.loop replk conv ks obj) t = mapGet obj t := by
  induction ks generalizing obj with
  | nil => rfl
  | cons k ks ih =>
    simp only [PropertyMap.MapRepl.loop]
    rw [ih _ (fun k' hk' => h k' (List.mem_cons_of_mem _ hk')), mapGet_mapSet]
    simp [h k (List.mem_cons_self _ _)]

theorem mapGet_perm {β : Type} (m m' : List (String × β)) (hm : (m.map Prod.fst).Nodup)
    (hp : m.Perm m') (k : String) : mapGet m k = mapGet m' k := by
  induction hp with
  | nil => rfl
  | cons e _ ih =>
    obtain ⟨k₀, x⟩ := e
    simp only [List.map_cons, List.nodup_cons] at hm
    simp [mapGet, ih hm.2]
  | swap e₁ e₂ l =>
    obtain ⟨k₁, x₁⟩ := e₁
    obtain ⟨k₂, x₂⟩ := e₂
    simp only [List.map_cons, List.nodup_cons, List.mem_cons, not_or] at hm
    by_cases h₁ : k₁ = k
    · by_cases h₂ : k₂ = k
      · exact absurd (h₂.trans h₁.symm) hm.1.1
      · simp [mapGet, h₁, h₂]
    · simp [mapGet, h₁]
  | trans h₁ _ ih₁ ih₂ =>
    exact (ih₁ hm).trans (ih₂ ((h₁.map Prod.fst).nodup_iff.mp hm))

/-- C28: `PropertyMap.MapRepl` is deterministic even when the key hook merges keys.  For every
map `m` (each key held once) and hooks `replk`, `replv`, a map `m'` with the same entries in
another iteration order gives the same result; the keys of the result, each held once, are
exactly the images of the keys of `m` under `replk`, where a key for which `replk` declines is
kept as is; and for a key `k` of `m` that is the greatest, in ascending string order, of the
keys sent to its target, the entry kept for that target is the converted value of `k`. -/
theorem mapRepl_deterministic (m m' : PropertyMap) (replk : MapReplKey) (replv : MapReplValue)
    (hm : PropertyMap.WF m) (hp : m.Perm m') :
    PropertyMap.MapRepl m replk replv = PropertyMap.MapRepl m' replk replv ∧
    ((PropertyMap.MapRepl m replk replv).map Prod.fst).Nodup ∧
    (∀ t, t ∈ (PropertyMap.MapRepl m replk replv).map Prod.fst ↔
      ∃ k ∈ PropertyMap.keys m, mapReplaceKey replk k = t) ∧
    (∀ k, (∀ f, replk = some f → (f k).2 = false) → mapReplaceKey replk k = k) ∧
    (∀ k v, PropertyMap.get? m k = some v →
      (∀ k₂ ∈ PropertyMap.keys m, mapReplaceKey replk k₂ = mapReplaceKey replk k → k₂ ≤ k) →
      mapGet (PropertyMap.MapRepl m replk replv) (mapReplaceKey replk k) =
        some (PropertyValue.MapRepl replk replv v)) := by
  have hm' : PropertyMap.WF m' := (hp.map Prod.fst).nodup_iff.mp hm
  have hsk : (PropertyMap.StableKeys m).Perm (PropertyMap.keys m) := sortSlice_perm _ _
  have hsk' : (PropertyMap.StableKeys m').Perm (PropertyMap.keys m') := sortSlice_perm _ _
  have hs : (PropertyMap.StableKeys m).Pairwise (fun a b => a < b) :=
    sortSlice_ascending _ (fun a b => by simp) _ hm
  have hs' : (PropertyMap.StableKeys m').Pairwise (fun a b => a < b) :=
    sortSlice_ascending _ (fun a b => by simp) _ hm'
  have hkeys : PropertyMap.StableKeys m = PropertyMap.StableKeys m' := by
    apply ascending_unique hs hs'
    intro k
    rw [hsk.mem_iff, hsk'.mem_iff]
    exact (hp.map Prod.fst).mem_iff
  refine ⟨?_, ?_, ?_, ?_, ?_⟩
  · simp only [PropertyMap.MapRepl, mapRepl_values_eq_map, ← hkeys]
    apply mapRepl_loop_congr
    intro k _
    apply mapGet_perm _ _ _ (hp.map _)
    simpa [Function.comp_def] using hm
  · exact mapRepl_loop_nodup _ _ _ _ (by simp)
  · intro t
    simp only [PropertyMap.MapRepl, mapRepl_loop_keys, List.map_nil, List.not_mem_nil, false_or]
    constructor
    · rintro ⟨k, hk, ht⟩
      exact ⟨k, hsk.mem_iff.mp hk, ht⟩
    · rintro ⟨k, hk, ht⟩
      exact ⟨k, hsk.mem_iff.mpr hk, ht⟩
  · intro k hk
    cases replk with
    | none => rfl
    | some f => simp [mapReplaceKey, hk f rfl]
  · intro k v hget hmax
    rw [get?_eq_mapGet] at hget
    have hmem : k ∈ PropertyMap.keys m :=
      List.mem_map.mpr ⟨(k, v), mem_of_mapGet m k v hget, rfl⟩
    obtain ⟨pre, post, hsplit⟩ := List.append_of_mem (hsk.mem_iff.mpr hmem)
    have hpost : ∀ k' ∈ post, mapReplaceKey replk k' ≠ mapReplaceKey replk k := by
      intro k' hk' heq
      have hlt : k < k' := by
        rw [hsplit] at hs
        exact (List.pairwise_cons.mp (List.pairwise_append.mp hs).2.1).1 k' hk'
      have hk'm : k' ∈ PropertyMap.keys m := by
        apply hsk.mem_iff.mp
        rw [hsplit]
        simp [hk']
      exact absurd (hmax k' hk'm heq) (not_le.mpr hlt)
    simp only [PropertyMap.MapRepl, hsplit, mapRepl_loop_append, PropertyMap.MapRepl.loop]
    rw [mapRepl_loop_frame _ _ _ _ _ hpost, mapGet_mapSet, mapRepl_values_eq_map,
      mapGet_map_values, hget]
    simp

/-- C28 at the map `{"b": true, "a": false}` with a key hook that sends `"b"` to `"a"`: in
either iteration order the result is the same, and `"a"` holds the value converted from
`"b"`. -/
theorem mapRepl_deterministic_witness :
    PropertyMap.WF [("b", PropertyValue.bool true), ("a", PropertyValue.bool false)] ∧
    PropertyMap.MapRepl [("b", PropertyValue.bool true), ("a", PropertyValue.bool false)]
        mergeIntoA none =
      PropertyMap.MapRepl [("a", PropertyValue.bool false), ("b", PropertyValue.bool true)]
        mergeIntoA none ∧
    mapGet (PropertyMap.MapRepl [("b", PropertyValue.bool true), ("a", PropertyValue.bool false)]
        mergeIntoA none) "a" = some (Host.bool true) := by
  have hwf : PropertyMap.WF [("b", PropertyValue.bool true), ("a", PropertyValue.bool false)] := by
    simp [PropertyMap.WF, PropertyMap.keys]
  have hab : ("a" : String) < "b" := by
    simp only [String.lt_iff_toList_lt]
    decide
  obtain ⟨h₁, _, _, _, h₅⟩ := mapRepl_deterministic
    [("b", PropertyValue.bool true), ("a", PropertyValue.bool false)]
    [("a", PropertyValue.bool false), ("b", PropertyValue.bool true)] mergeIntoA none hwf
    (List.Perm.swap _ _ _)
  refine ⟨hwf, h₁, ?_⟩
  have h := h₅ "b" (PropertyValue.bool true) rfl (by
    intro k₂ hk₂ _
    simp only [PropertyMap.keys, List.map_cons, List.map_nil, List.mem_cons, List.mem_singleton,
      List.not_mem_nil, or_false] at hk₂
    rcases hk₂ with rfl | rfl
    · exact le_refl _
    · exact le_of_lt hab)
  exact h

/-! ## Where the claimed conversions fail -/

/-- C13 fails as stated: the sequence `[int8(5)]` is a sequence of an integer, whose round trip
the claim gives as `[5.0]`, but `NewPropertyValue` fails on it, because `int8` is not among the
types of the type switch and has none of the `reflect` kinds handled after it. -/
theorem roundtrip_fails_on_narrow_integer :
    Host.widen (Host.sequence [Host.integer IntType.int8 5]) =
      Host.sequence [Host.float64 ⟨0x4014000000000000⟩] ∧
    NewPropertyValue (Host.sequence [Host.integer IntType.int8 5]) = none ∧
    ¬ ∃ pv, NewPropertyValue (Host.sequence [Host.integer IntType.int8 5]) = some pv ∧
      Host.StructEq pv.Mappable (Host.widen (Host.sequence [Host.integer IntType.int8 5])) := by
  refine ⟨?_, rfl, ?_⟩
  · simp only [Host.widen, Host.widen.elements]
    congr 1
  · rintro ⟨pv, hpv, _⟩
    have hn : NewPropertyValue (Host.sequence [Host.integer IntType.int8 5]) = none := rfl
    rw [hn] at hpv
    cases hpv

/-- C16 fails as stated: the non-nil pointer `&Secret{Element: "pw"}` is not converted through
its pointee.  It is kept as the payload of a Secret value with the same reference, whereas its
pointee, a struct, converts to an Object or not at all. -/
theorem newPropertyValue_keeps_secret_pointer :
    NewPropertyValue (Host.secret 7 ⟨PropertyValue.string "pw"⟩) =
      some (PropertyValue.secret 7 (PropertyValue.string "pw")) ∧
    Host.MayPointTo (Host.secret 7 ⟨PropertyValue.string "pw"⟩) (Host.struct []) ∧
    NewPropertyValue (Host.struct []) = some (PropertyValue.object []) ∧
    ¬ (∀ q, Host.MayPointTo (Host.secret 7 ⟨PropertyValue.string "pw"⟩) q →
      NewPropertyValue (Host.secret 7 ⟨PropertyValue.string "pw"⟩) = NewPropertyValue q) ∧
    (∀ q, Host.MayPointTo (Host.secret 7 ⟨PropertyValue.string "pw"⟩) q →
      NewPropertyValue (Host.secret 7 ⟨PropertyValue.string "pw"⟩) ≠ NewPropertyValue q) := by
  have hall : ∀ q, Host.MayPointTo (Host.secret 7 ⟨PropertyValue.string "pw"⟩) q →
      NewPropertyValue (Host.secret 7 ⟨PropertyValue.string "pw"⟩) ≠ NewPropertyValue q :=
    fun q hq hc => newPropertyValue_struct_ne_secret q 7 (PropertyValue.string "pw") hq hc.symm
  refine ⟨rfl, rfl, rfl, ?_, hall⟩
  intro hc
  exact hall (Host.struct []) rfl (hc (Host.struct []) rfl)

end Resource
